import Mathlib

/-!
# PixelTone: Robot36 SSTV codec and PCM16 WAV container

A shallow embedding of `backend/src/wav.js`, `backend/src/server.js`
(`parsePcm16Wav`), `backend/src/encoder.js` and `backend/src/decoder.js`.

Conventions of the embedding.

* A `DataView` / `Uint8Array` is a list of byte values (`Bytes`); a read outside
  the view throws a `RangeError` in JavaScript and is `WavError.rangeError` here.
* JavaScript numbers that hold integers are `Nat` / `Int`; the conversions done
  by the `DataView` setters (`ToUint32`, `ToUint16`, `ToInt16`) are explicit
  `% 2^32`, `% 2^16`.
* Loops whose trip count is not syntactically bounded carry a fuel argument; the
  top-level functions pass enough fuel and the theorems show it never runs out
  (`parsePcm16Wav_fuel`, `findAllSyncPulses_total`, `decodeWavPcmToPngBytes_total`).
* `encoder.js` and `decoder.js` compute in IEEE doubles; here `+ - * /`, the
  comparisons, `Math.floor` and `Math.round` are exact, and `Math.PI`, `Math.sin`,
  `Math.cos`, `Math.sqrt` are the fields of a parameter `MathOps`. Where the
  rounding of a double decides a grey level or a sample index (`freqToPixel`, the
  pixel centres of the decoder) every operation is rounded to binary64.
-/

namespace PixelTone

/-! ## Definitions -/

/-- Contents of a `DataView`: one natural number below 256 per byte. -/
abbrev Bytes := List Nat

/-- Errors thrown by `parsePcm16Wav`; `fuelExhausted` exists only in the model. -/
inductive WavError where
  | unsupportedFormat
  | dataChunkNotFound
  | rangeError
  | fuelExhausted
  deriving DecidableEq, Repr

/-- The message carried by the JavaScript `Error` of each kind. -/
def WavError.message : WavError → String
  | .unsupportedFormat => "Only PCM16 WAV supported"
  | .dataChunkNotFound => "WAV data chunk not found"
  | .rangeError => "Offset is outside the bounds of the DataView"
  | .fuelExhausted => ""

/-! ### `wav.js` -/

/-- `view.setUint8(offset, value)`. -/
def setUint8 (view : Bytes) (offset value : Nat) : Bytes :=
  view.set offset (value % 256)

/-- `view.setUint16(offset, value, true)`: little-endian, value taken modulo 2^16. -/
def setUint16 (view : Bytes) (offset value : Nat) : Bytes :=
  (view.set offset (value % 256)).set (offset + 1) (value / 256 % 256)

/-- `view.setUint32(offset, value, true)`: little-endian, value taken modulo 2^32. -/
def setUint32 (view : Bytes) (offset value : Nat) : Bytes :=
  (((view.set offset (value % 256)).set (offset + 1) (value / 256 % 256)).set
    (offset + 2) (value / 65536 % 256)).set (offset + 3) (value / 16777216 % 256)

/-- `view.setInt16(offset, value, true)`: the two's-complement image of `value`. -/
def setInt16 (view : Bytes) (offset : Nat) (value : Int) : Bytes :=
  setUint16 view offset (value % 65536).toNat

/-- The loop of `writeString`, from character index `i` on. -/
def writeStringFrom (view : Bytes) (offset : Nat) : Nat → List Char → Bytes
  | _, [] => view
  | i, c :: cs => writeStringFrom (setUint8 view (offset + i) c.toNat) offset (i + 1) cs

/-- `writeString(view, offset, str)`. -/
def writeString (view : Bytes) (offset : Nat) (str : String) : Bytes :=
  writeStringFrom view offset 0 str.toList

/-- The sample loop of `pcm16ToWavBytes`: `setInt16` at `offset`, then `offset += 2`. -/
def writeSamples : List Int → Bytes → Nat → Bytes
  | [], view, _ => view
  | s :: rest, view, offset => writeSamples rest (setInt16 view offset s) (offset + 2)

/-- `pcm16ToWavBytes(int16Samples, sampleRate, numChannels)`. -/
def pcm16ToWavBytes (int16Samples : List Int) (sampleRate numChannels : Nat) : Bytes :=
  let bytesPerSample := 2
  let blockAlign := numChannels * bytesPerSample
  let byteRate := sampleRate * blockAlign
  let dataSize := int16Samples.length * bytesPerSample
  let headerSize := 44
  let totalSize := headerSize + dataSize
  let view : Bytes := List.replicate totalSize 0
  let view := writeString view 0 "RIFF"
  let view := setUint32 view 4 (totalSize - 8)
  let view := writeString view 8 "WAVE"
  let view := writeString view 12 "fmt "
  let view := setUint32 view 16 16
  let view := setUint16 view 20 1
  let view := setUint16 view 22 numChannels
  let view := setUint32 view 24 sampleRate
  let view := setUint32 view 28 byteRate
  let view := setUint16 view 32 blockAlign
  let view := setUint16 view 34 16
  let view := writeString view 36 "data"
  let view := setUint32 view 40 dataSize
  writeSamples int16Samples view 44

/-! ### `server.js`: `parsePcm16Wav` -/

/-- `dv.getUint8(pos)`. -/
def getUint8 (dv : Bytes) (pos : Nat) : Except WavError Nat :=
  match dv[pos]? with
  | some b => .ok b
  | none => .error .rangeError

/-- `dv.getUint16(pos, true)`. -/
def getUint16 (dv : Bytes) (pos : Nat) : Except WavError Nat :=
  if pos + 2 ≤ dv.length then .ok (dv.getD pos 0 + 256 * dv.getD (pos + 1) 0)
  else .error .rangeError

/-- `dv.getUint32(pos, true)`. -/
def getUint32 (dv : Bytes) (pos : Nat) : Except WavError Nat :=
  if pos + 4 ≤ dv.length then
    .ok (dv.getD pos 0 + 256 * dv.getD (pos + 1) 0 + 65536 * dv.getD (pos + 2) 0
      + 16777216 * dv.getD (pos + 3) 0)
  else .error .rangeError

/-- `dv.getInt16(pos, true)`. -/
def getInt16 (dv : Bytes) (pos : Nat) : Except WavError Int := do
  let u ← getUint16 dv pos
  pure (if u < 32768 then (u : Int) else (u : Int) - 65536)

/-- Char codes of a chunk identifier, as `String.fromCharCode` is compared against. -/
def charCodes (s : String) : List Nat := s.toList.map Char.toNat

/-- The local variables of `parsePcm16Wav` that the chunk loop updates. -/
structure ScanState where
  dataOffset : Int := -1
  dataSize : Int := -1
  channels : Nat := 1
  sampleRate : Nat := 44100
  bps : Nat := 16
  deriving DecidableEq, Repr

/-- One pass through the body of the chunk loop at `pos` (the loop guard has been
checked): the updated locals, with `some (pos + 8 + size)` when the loop goes on and
`none` after the `break` of the `data` branch. -/
def chunkStep (dv : Bytes) (pos : Nat) (st : ScanState) :
    Except WavError (ScanState × Option Nat) := do
  let b0 ← getUint8 dv pos
  let b1 ← getUint8 dv (pos + 1)
  let b2 ← getUint8 dv (pos + 2)
  let b3 ← getUint8 dv (pos + 3)
  let id := [b0, b1, b2, b3]
  let size ← getUint32 dv (pos + 4)
  let st ←
    if id = charCodes "fmt " then do
      let fmt := pos + 8
      let format ← getUint16 dv fmt
      let channels ← getUint16 dv (fmt + 2)
      let sampleRate ← getUint32 dv (fmt + 4)
      let bps ← getUint16 dv (fmt + 14)
      if format ≠ 1 ∨ bps ≠ 16 then
        throw WavError.unsupportedFormat
      pure { st with channels := channels, sampleRate := sampleRate, bps := bps }
    else pure st
  if id = charCodes "data" then
    pure ({ st with dataOffset := (pos + 8 : Nat), dataSize := (size : Nat) }, none)
  else
    pure (st, some (pos + 8 + size))

/-- The `while (pos + 8 <= dv.byteLength)` loop of `parsePcm16Wav`, with fuel. -/
def scanChunks (dv : Bytes) : Nat → Nat → ScanState → Except WavError ScanState
  | 0, _, _ => .error .fuelExhausted
  | fuel + 1, pos, st =>
    if pos + 8 ≤ dv.length then
      match chunkStep dv pos st with
      | .error e => .error e
      | .ok (st, none) => .ok st
      | .ok (st, some next) => scanChunks dv fuel next st
    else .ok st

/-- The loop filling `samples`: `count` reads of `getInt16` from offset `o`, step 2. -/
def readSamples (dv : Bytes) : Nat → Nat → Except WavError (List Int)
  | 0, _ => pure []
  | count + 1, o => do
    let s ← getInt16 dv o
    let rest ← readSamples dv count (o + 2)
    pure (s :: rest)

/-- The downmix loop: `mono[i] = samples[i * channels]` for `i < mono.length`. -/
def downmix (samples : List Int) (channels : Nat) : List Int :=
  (List.range (samples.length / channels)).map fun i => samples.getD (i * channels) 0

/-- `parsePcm16Wav(buf)`; the result pairs `samples` with `sampleRate`. -/
def parsePcm16Wav (buf : Bytes) : Except WavError (List Int × Nat) := do
  let st ← scanChunks buf (buf.length + 1) 12 {}
  if st.dataOffset < 0 then
    throw WavError.dataChunkNotFound
  -- `new Int16Array(dataSize / 2)`: a fractional length is truncated (`ToIndex`)
  let samples ← readSamples buf (st.dataSize / 2).toNat st.dataOffset.toNat
  if st.channels > 1 then
    pure (downmix samples st.channels, st.sampleRate)
  else
    pure (samples, st.sampleRate)

/-! ### Vocabulary of the container format, used to state the theorems -/

/-- Little-endian bytes of a 16-bit field. -/
def le16 (v : Nat) : Bytes := [v % 256, v / 256 % 256]

/-- Little-endian bytes of a 32-bit field. -/
def le32 (v : Nat) : Bytes := [v % 256, v / 256 % 256, v / 65536 % 256, v / 16777216 % 256]

/-- The two bytes of a sample: little-endian two's complement. -/
def int16Bytes (s : Int) : Bytes := le16 (s % 65536).toNat

/-- A value an `Int16Array` can hold. -/
def IsInt16 (s : Int) : Prop := -32768 ≤ s ∧ s ≤ 32767

instance (s : Int) : Decidable (IsInt16 s) := by unfold IsInt16; infer_instance

/-- The canonical 44-byte header for `n` samples. -/
def wavHeader (n sampleRate numChannels : Nat) : Bytes :=
  charCodes "RIFF" ++ le32 (36 + 2 * n) ++ charCodes "WAVE" ++ charCodes "fmt " ++ le32 16
    ++ le16 1 ++ le16 numChannels ++ le32 sampleRate ++ le32 (sampleRate * (numChannels * 2))
    ++ le16 (numChannels * 2) ++ le16 16 ++ charCodes "data" ++ le32 (2 * n)

/-- The four identifier bytes of the chunk header at `pos`. -/
def idAt (dv : Bytes) (pos : Nat) : Bytes :=
  [dv.getD pos 0, dv.getD (pos + 1) 0, dv.getD (pos + 2) 0, dv.getD (pos + 3) 0]

/-- The little-endian 16-bit field at `pos`. -/
def u16At (dv : Bytes) (pos : Nat) : Nat := dv.getD pos 0 + 256 * dv.getD (pos + 1) 0

/-- The little-endian 32-bit field at `pos`. -/
def u32At (dv : Bytes) (pos : Nat) : Nat :=
  dv.getD pos 0 + 256 * dv.getD (pos + 1) 0 + 65536 * dv.getD (pos + 2) 0
    + 16777216 * dv.getD (pos + 3) 0

/-- Offsets of the chunk headers of a container, walked from `pos`: a 4-byte id, a
4-byte little-endian size, then advance by `8 + size`; every chunk is listed. -/
def allChunkOffsets (dv : Bytes) : Nat → Nat → List Nat
  | 0, _ => []
  | fuel + 1, pos =>
    if pos + 8 ≤ dv.length then pos :: allChunkOffsets dv fuel (pos + 8 + u32At dv (pos + 4))
    else []

/-- Offsets of the chunk headers met by the sequential scan from `pos`, which stops
at the first chunk whose id is `data`. -/
def scanOffsets (dv : Bytes) : Nat → Nat → List Nat
  | 0, _ => []
  | fuel + 1, pos =>
    if pos + 8 ≤ dv.length then
      if idAt dv pos = charCodes "data" then [pos]
      else pos :: scanOffsets dv fuel (pos + 8 + u32At dv (pos + 4))
    else []

/-- A RIFF chunk: a 4-byte identifier and a body; the size field is the body length. -/
structure Chunk where
  id : Bytes
  body : Bytes

/-- Identifier, little-endian 32-bit size and body of a chunk, without pad byte. -/
def Chunk.packed (c : Chunk) : Bytes := c.id ++ le32 c.body.length ++ c.body

/-- The RIFF pad byte: a chunk body of odd size is followed by one zero byte, which
the size field does not count, so that the next chunk starts at an even offset. -/
def riffPad (size : Nat) : Bytes := if size % 2 = 1 then [0] else []

/-- The bytes of a chunk in a RIFF file: identifier, size, body, pad byte. -/
def Chunk.encode (c : Chunk) : Bytes := c.packed ++ riffPad c.body.length

/-- A chunk other than `fmt ` and `data` whose size fits its field. -/
def Chunk.Skippable (c : Chunk) : Prop :=
  c.id.length = 4 ∧ c.id ≠ charCodes "fmt " ∧ c.id ≠ charCodes "data" ∧ c.body.length < 2 ^ 32

/-- A PCM16 container: the 12-byte RIFF/WAVE preamble, any chunks, a `fmt ` chunk
(tag 1, `channels`, `sampleRate`, six bytes of byte rate and block align, 16 bits,
optional extension bytes), any chunks, the `data` chunk holding `samples`
interleaved, and whatever follows it. -/
structure WavLayout where
  riff : Bytes
  before : List Chunk
  channels : Nat
  sampleRate : Nat
  fmtTail : Bytes
  fmtExtra : Bytes
  between : List Chunk
  samples : List Int
  trailing : Bytes

/-- Body of the `fmt ` chunk of a layout. -/
def WavLayout.fmtBody (w : WavLayout) : Bytes :=
  le16 1 ++ le16 w.channels ++ le32 w.sampleRate ++ w.fmtTail ++ le16 16 ++ w.fmtExtra

/-- The chunks of a layout written end to end, without pad bytes. -/
def WavLayout.packed (w : WavLayout) : Bytes :=
  w.riff ++ w.before.flatMap Chunk.packed
    ++ (charCodes "fmt " ++ le32 w.fmtBody.length ++ w.fmtBody)
    ++ w.between.flatMap Chunk.packed
    ++ (charCodes "data" ++ le32 (2 * w.samples.length) ++ w.samples.flatMap int16Bytes)
    ++ w.trailing

/-- The bytes of a layout as a RIFF file: every chunk of odd size is followed by
its pad byte (the `data` chunk of 16-bit samples has even size). -/
def WavLayout.bytes (w : WavLayout) : Bytes :=
  w.riff ++ w.before.flatMap Chunk.encode
    ++ (charCodes "fmt " ++ le32 w.fmtBody.length ++ w.fmtBody ++ riffPad w.fmtBody.length)
    ++ w.between.flatMap Chunk.encode
    ++ (charCodes "data" ++ le32 (2 * w.samples.length) ++ w.samples.flatMap int16Bytes)
    ++ w.trailing

/-- No chunk in front of the samples has odd size, so that no pad byte precedes
the `data` chunk. -/
def WavLayout.NoPadByte (w : WavLayout) : Prop :=
  (∀ c ∈ w.before, c.body.length % 2 = 0) ∧ w.fmtBody.length % 2 = 0
    ∧ ∀ c ∈ w.between, c.body.length % 2 = 0

/-- Every field of the layout fits the place it is stored in. -/
def WavLayout.WellFormed (w : WavLayout) : Prop :=
  w.riff.length = 12 ∧ (∀ c ∈ w.before, c.Skippable) ∧ (∀ c ∈ w.between, c.Skippable)
    ∧ w.channels < 2 ^ 16 ∧ w.sampleRate < 2 ^ 32 ∧ w.fmtTail.length = 6
    ∧ w.fmtBody.length < 2 ^ 32 ∧ 2 * w.samples.length < 2 ^ 32
    ∧ ∀ s ∈ w.samples, IsInt16 s

instance instDecidableEqExcept {ε α : Type} [DecidableEq ε] [DecidableEq α] :
    DecidableEq (Except ε α)
  | .ok a, .ok b => if h : a = b then isTrue (by rw [h]) else isFalse (by simpa using h)
  | .error a, .error b => if h : a = b then isTrue (by rw [h]) else isFalse (by simpa using h)
  | .ok _, .error _ => isFalse (by simp)
  | .error _, .ok _ => isFalse (by simp)

/-- The layout written by `pcm16ToWavBytes` when the data size field reads `2 * k`:
the first `k` samples are the data chunk, the bytes of the others trail it. -/
def serializedLayout (samples : List Int) (r c k : Nat) : WavLayout where
  riff := charCodes "RIFF" ++ le32 (36 + 2 * samples.length) ++ charCodes "WAVE"
  before := []
  channels := c
  sampleRate := r
  fmtTail := le32 (r * (c * 2)) ++ le16 (c * 2)
  fmtExtra := []
  between := []
  samples := samples.take k
  trailing := (samples.drop k).flatMap int16Bytes

/-- A container with a float `fmt ` chunk (tag 3) and no `data` chunk. -/
def floatFmtOnly : Bytes :=
  charCodes "RIFF" ++ le32 28 ++ charCodes "WAVE" ++ charCodes "fmt " ++ le32 16
    ++ le16 3 ++ le16 1 ++ le32 44100 ++ le32 176400 ++ le16 4 ++ le16 32

/-- A container whose empty `data` chunk comes before its float `fmt ` chunk. -/
def dataBeforeFloatFmt : Bytes :=
  charCodes "RIFF" ++ le32 36 ++ charCodes "WAVE" ++ charCodes "data" ++ le32 0
    ++ charCodes "fmt " ++ le32 16
    ++ le16 3 ++ le16 1 ++ le32 44100 ++ le32 176400 ++ le16 4 ++ le16 32

instance (c : Chunk) : Decidable c.Skippable := by unfold Chunk.Skippable; infer_instance

instance (w : WavLayout) : Decidable w.WellFormed := by unfold WavLayout.WellFormed; infer_instance

instance (w : WavLayout) : Decidable w.NoPadByte := by unfold WavLayout.NoPadByte; infer_instance

/-- A stereo container with a 4-byte `LIST` chunk before `fmt `, a `fact` chunk after
it, five interleaved samples and two trailing bytes. -/
def stereoExample : WavLayout where
  riff := charCodes "RIFF" ++ le32 74 ++ charCodes "WAVE"
  before := [⟨charCodes "LIST", [1, 2, 3, 4]⟩]
  channels := 2
  sampleRate := 8000
  fmtTail := le32 32000 ++ le16 4
  fmtExtra := [0, 0]
  between := [⟨charCodes "fact", [4, 0, 0, 0]⟩]
  samples := [10, -20, 30, -40, 50]
  trailing := [7, 7]

/-- A stereo container whose 3-byte `LIST` chunk is followed by its pad byte; the
chunks after it are `fmt ` (16 bytes) and `data` with five interleaved samples. -/
def paddedStereoExample : WavLayout where
  riff := charCodes "RIFF" ++ le32 58 ++ charCodes "WAVE"
  before := [⟨charCodes "LIST", [1, 2, 3]⟩]
  channels := 2
  sampleRate := 8000
  fmtTail := le32 32000 ++ le16 4
  fmtExtra := []
  between := []
  samples := [10, -20, 30, -40, 50]
  trailing := []
/-! ### Numbers of the codec

`encoder.js` and `decoder.js` compute in IEEE doubles. The embedding computes
`+ - * /`, comparisons, `Math.floor` and `Math.round` exactly over `ℚ`, and takes
`Math.PI`, `Math.sin`, `Math.cos` and `Math.sqrt` as the fields of a parameter
`MathOps`; every theorem holds for all values of that parameter.

Two places of the decoder turn a number into a discrete result that the rounding
of a double decides, and there every operation is rounded to binary64
(`toBinary64`): the grey level written by `freqToPixel`, and the sample index
`pixelCenter` of the pixel grid. The threshold comparisons of
`refineSyncPositions` stay exact: at a tie the comparison of the doubles may go
either way, and the refinement rule is stated away from the thresholds. -/

/-- The library functions of `Math` used by the codec, over the number type `K`. -/
structure MathOps (K : Type) where
  pi : K
  sin : K → K
  cos : K → K
  sqrt : K → K

/-- A computable stand-in for `Math`, used to evaluate examples: `Math.PI` is the
exact value of the double, sine and cosine are Taylor polynomials, the square
root is three Newton steps. -/
def taylorOps : MathOps ℚ where
  pi := 884279719003555 / 281474976710656
  sin := fun x => x - x ^ 3 / 6 + x ^ 5 / 120 - x ^ 7 / 5040
  cos := fun x => 1 - x ^ 2 / 2 + x ^ 4 / 24 - x ^ 6 / 720
  sqrt := fun x =>
    let step := fun (g : ℚ) => if g = 0 then 0 else (g + x / g) / 2
    step (step (step ((x + 1) / 2)))

/-- `Math.round(x)`: the nearest integer, halves rounded up. -/
def jsRound {K : Type} [LinearOrderedField K] [FloorRing K] (x : K) : Int := ⌊x + 1 / 2⌋

/-- `Math.floor(x)`. -/
def jsFloor (x : ℚ) : Int := ⌊x⌋

/-- The number of binary digits of `n` (0 for 0), found in at most `fuel` halvings. -/
def bitLength : Nat → Nat → Nat
  | 0, _ => 0
  | fuel + 1, n => if n = 0 then 0 else bitLength fuel (n / 2) + 1

/-- The product `x * 2^e`. -/
def scale2 (x : ℚ) (e : Int) : ℚ :=
  if 0 ≤ e then x * ((2 ^ e.toNat : Nat) : ℚ) else x / ((2 ^ (-e).toNat : Nat) : ℚ)

/-- The nearest integer, a half going to the even neighbour. -/
def roundHalfEven (x : ℚ) : Int :=
  if x - ⌊x⌋ < 1 / 2 then ⌊x⌋
  else if 1 / 2 < x - ⌊x⌋ then ⌊x⌋ + 1
  else if ⌊x⌋ % 2 = 0 then ⌊x⌋ else ⌊x⌋ + 1

/-- The binary exponent of a nonzero `x`: the `e` with `2^e ≤ |x| < 2^(e+1)`. With
`t` the difference of the bit lengths of numerator and denominator, `|x|` lies
between `2^(t-1)` and `2^(t+1)`. -/
def binaryExponent (x : ℚ) : Int :=
  if |x| < scale2 1 ((bitLength x.num.natAbs x.num.natAbs : Int) - (bitLength x.den x.den : Int))
  then (bitLength x.num.natAbs x.num.natAbs : Int) - (bitLength x.den x.den : Int) - 1
  else (bitLength x.num.natAbs x.num.natAbs : Int) - (bitLength x.den x.den : Int)

/-- The double nearest to `x`: the significand is rounded to 53 bits, a tie going to
the even significand (IEEE 754 binary64, round to nearest even; the exponent range
is not limited, no number of the codec leaves it). -/
def toBinary64 (x : ℚ) : ℚ :=
  if x.num = 0 then 0
  else scale2 (roundHalfEven (scale2 x (52 - binaryExponent x))) (binaryExponent x - 52)

def SAMPLE_RATE : ℚ := 44100
def WIDTH : Nat := 320
def HEIGHT : Nat := 240
def IMAGE_WIDTH : Nat := 320
def IMAGE_HEIGHT : Nat := 240

def BLACK_FREQ : ℚ := 1500
def WHITE_FREQ : ℚ := 2300
def FREQ_RANGE : ℚ := WHITE_FREQ - BLACK_FREQ
def BLACK_FREQUENCY : ℚ := 1500
def WHITE_FREQUENCY : ℚ := 2300

def HSYNC_MS : ℚ := 9
def PORCH_MS : ℚ := 3
def Y_MS : ℚ := 88.064
def UV_MS : ℚ := 44.032
def LINE_MS : ℚ := 150.096

def HSYNC_SAMPLES : Int := jsRound (SAMPLE_RATE * HSYNC_MS / 1000)
def PORCH_SAMPLES : Int := jsRound (SAMPLE_RATE * PORCH_MS / 1000)
def Y_SCAN_SAMPLES : Int := jsRound (SAMPLE_RATE * Y_MS / 1000)
def LINE_SAMPLES : Int := jsRound (SAMPLE_RATE * LINE_MS / 1000)

/-! ### `encoder.js` -/

/-- `clamp(v)`. -/
def clamp (v : ℚ) : ℚ := max 0 (min 255 v)

/-- The object returned by `rgbBufferToYuvPlanes`. -/
structure YuvPlanes where
  Y : List ℚ
  U : List ℚ
  V : List ℚ
  width : Nat
  height : Nat

/-- `rgbBufferToYuvPlanes(rgb, width, height)`; pixel `i` reads `rgb[3i .. 3i+2]`. -/
def rgbBufferToYuvPlanes (rgb : List Nat) (width height : Nat) : YuvPlanes :=
  let px := fun (i : Nat) =>
    let r : ℚ := rgb.getD (3 * i) 0
    let g : ℚ := rgb.getD (3 * i + 1) 0
    let b : ℚ := rgb.getD (3 * i + 2) 0
    let y := 0.299 * r + 0.587 * g + 0.114 * b
    let u := (b - y) * 0.492 + 128
    let v := (r - y) * 0.877 + 128
    (clamp y, clamp u, clamp v)
  { Y := (List.range (width * height)).map fun i => (px i).1
    U := (List.range (width * height)).map fun i => (px i).2.1
    V := (List.range (width * height)).map fun i => (px i).2.2
    width := width
    height := height }

/-- The mutable locals of `generateRobot36Pcm`: the pushed samples and the phase. -/
structure Synth where
  samples : List ℚ := []
  phase : ℚ := 0

/-- `phase %= 2 * Math.PI` for the non-negative phases the encoder produces. -/
def wrapPhase (m : MathOps ℚ) (phase : ℚ) : ℚ :=
  if 2 * m.pi = 0 then phase else phase - 2 * m.pi * ⌊phase / (2 * m.pi)⌋

/-- The body of both sample loops: push `sin(phase) * 32767`, advance the phase. -/
def pushSample (m : MathOps ℚ) (s : Synth) (freq : ℚ) : Synth :=
  { samples := s.samples ++ [m.sin s.phase * 32767]
    phase := s.phase + 2 * m.pi * freq / SAMPLE_RATE }

/-- The `for` loop of `appendTone`, `count` iterations. -/
def toneLoop (m : MathOps ℚ) (freq : ℚ) : Nat → Synth → Synth
  | 0, s => s
  | count + 1, s => toneLoop m freq count (pushSample m s freq)

/-- `appendTone(freq, ms)`. -/
def appendTone (m : MathOps ℚ) (s : Synth) (freq ms : ℚ) : Synth :=
  let count := (jsFloor (ms / 1000 * SAMPLE_RATE)).toNat
  let s := toneLoop m freq count s
  { s with phase := wrapPhase m s.phase }

/-- The `for` loop of `appendScanline` from index `i`, `todo` iterations left. -/
def scanlineLoop (m : MathOps ℚ) (line : List ℚ) (count : Nat) : Nat → Nat → Synth → Synth
  | 0, _, s => s
  | todo + 1, i, s =>
    let idx := min (jsFloor ((i : ℚ) / count * line.length)) ((line.length : Int) - 1)
    let pixel := line.getD idx.toNat 0
    let freq := BLACK_FREQUENCY + pixel / 255 * (WHITE_FREQUENCY - BLACK_FREQUENCY)
    scanlineLoop m line count todo (i + 1) (pushSample m s freq)

/-- `appendScanline(line, ms)`. -/
def appendScanline (m : MathOps ℚ) (s : Synth) (line : List ℚ) (ms : ℚ) : Synth :=
  let count := (jsFloor (ms / 1000 * SAMPLE_RATE)).toNat
  let s := scanlineLoop m line count count 0 s
  { s with phase := wrapPhase m s.phase }

/-- `downsample(src)` for the plane width `width`. -/
def downsample (width : Nat) (src : List ℚ) : List ℚ :=
  (List.range (width / 2)).map fun i => src.getD (i * 2) 0

/-- `subarray(begin, end)`. -/
def subarray (a : List ℚ) (b e : Nat) : List ℚ := (a.drop b).take (e - b)

/-- The bit loop of `appendVisCode` from bit `i`, `todo` bits left; `tone` is the
`appendTone` the function closes over. -/
def visBitLoop {σ : Type} (tone : σ → ℚ → ℚ → σ) (vis : Nat) : Nat → Nat → Nat → σ → σ × Nat
  | 0, _, parity, s => (s, parity)
  | todo + 1, i, parity, s =>
    let bit := (vis >>> i) &&& 1
    let parity := parity ^^^ bit
    visBitLoop tone vis todo (i + 1) parity (tone s (if bit ≠ 0 then 1100 else 1300) 30)

/-- `appendVisCode(vis)`, over the `appendTone` it closes over. -/
def appendVisCode {σ : Type} (tone : σ → ℚ → ℚ → σ) (s : σ) (vis : Nat) : σ :=
  let s := tone s 1200 30
  let (s, parity) := visBitLoop tone vis 7 0 0 s
  let s := tone s (if parity ≠ 0 then 1100 else 1300) 30
  tone s 1200 30

/-- One pass of the image loop of `generateRobot36Pcm`, for line `line`. -/
def encodeLine (m : MathOps ℚ) (p : YuvPlanes) (s : Synth) (line : Nat) : Synth :=
  let s := appendTone m s 1200 HSYNC_MS
  let s := appendTone m s 1500 PORCH_MS
  let s := appendScanline m s (subarray p.Y (line * p.width) ((line + 1) * p.width)) Y_MS
  let s := appendTone m s 1500 4.5
  let s := appendTone m s 1900 1.5
  if line % 2 = 0 then
    appendScanline m s
      (downsample p.width (subarray p.V (line * p.width) ((line + 1) * p.width))) UV_MS
  else
    appendScanline m s
      (downsample p.width (subarray p.U (line * p.width) ((line + 1) * p.width))) UV_MS

/-- The locals of `generateRobot36Pcm` when the loops are done. -/
def synthesize (m : MathOps ℚ) (p : YuvPlanes) : Synth :=
  let s : Synth := {}
  let s := appendTone m s 1900 300
  let s := appendTone m s 1200 10
  let s := appendTone m s 1900 300
  let s := appendVisCode (appendTone m) s 0x08
  (List.range p.height).foldl (encodeLine m p) s

/-- The conversion `Int16Array.from` applies to each number: truncate, wrap to 16 bits. -/
def toInt16 (x : ℚ) : Int :=
  let t : Int := if 0 ≤ x then ⌊x⌋ else ⌈x⌉
  (t + 32768) % 65536 - 32768

/-- `generateRobot36Pcm({ Y, U, V, width, height })`. -/
def generateRobot36Pcm (m : MathOps ℚ) (p : YuvPlanes) : List Int :=
  (synthesize m p).samples.map toInt16

/-! ### `decoder.js` -/

/-- The Goertzel recurrence of `goertzelPower` over the window: `(q1, q2)` after
`todo` more samples from window index `i`. -/
def goertzelLoop {K : Type} [LinearOrderedField K] (signal : List K) (start : Int) (coeff : K) :
    Nat → Nat → K × K → K × K
  | 0, _, q => q
  | todo + 1, i, (q1, q2) =>
    let sample := signal.getD (start + i).toNat 0
    let q0 := coeff * q1 - q2 + sample
    goertzelLoop signal start coeff todo (i + 1) (q0, q1)

/-- `goertzelPower(signal, start, size, targetFreq)`; the literal 44100 is `SAMPLE_RATE`. -/
def goertzelPower {K : Type} [LinearOrderedField K] [FloorRing K] (m : MathOps K)
    (signal : List K) (start : Int) (size : Nat) (targetFreq : K) : K :=
  if start < 0 ∨ start + size > signal.length then 0
  else
    let k := jsRound (size * targetFreq / 44100)
    let omega := 2 * m.pi * k / size
    let cosine := m.cos omega
    let sine := m.sin omega
    let coeff := 2 * cosine
    let q := goertzelLoop signal start coeff size 0 (0, 0)
    let real := q.1 - q.2 * cosine
    let imag := q.2 * sine
    (real * real + imag * imag) / (size * size)

/-- The loop of `findPeakSync` from `pos`; it runs at most `fuel` times, which is
the number of steps of 10 between `startSearch` and `endSearch`. -/
def findPeakSyncLoop (m : MathOps ℚ) (signal : List ℚ) (endSearch : Int) (windowSize : Nat) :
    Nat → Int → Int → ℚ → Int
  | 0, _, bestPos, _ => bestPos
  | fuel + 1, pos, bestPos, bestPower =>
    if pos ≤ endSearch ∧ pos + windowSize < signal.length then
      let power := goertzelPower m signal pos windowSize 1200
      if power > bestPower then
        findPeakSyncLoop m signal endSearch windowSize fuel (pos + 10) pos power
      else
        findPeakSyncLoop m signal endSearch windowSize fuel (pos + 10) bestPos bestPower
    else bestPos

/-- `findPeakSync(signal, startSearch, endSearch, windowSize)`. -/
def findPeakSync (m : MathOps ℚ) (signal : List ℚ) (startSearch endSearch : Int)
    (windowSize : Nat) : Int :=
  findPeakSyncLoop m signal endSearch windowSize (((endSearch - startSearch) / 10).toNat + 1)
    startSearch startSearch 0

/-- The refinement loop of `refineSyncPositions`: `prev` is `refined[i - 1]`. The two
threshold comparisons are exact here; where `diff` equals a threshold, or differs
from it by less than the rounding error of the doubles, the comparison in
JavaScript may go either way. -/
def refineLoop (avgLineSpacing : ℚ) : ℚ → List ℚ → List ℚ
  | _, [] => []
  | prev, detectedPos :: rest =>
    let expectedPos := prev + avgLineSpacing
    let diff := |detectedPos - expectedPos|
    let next :=
      if diff < avgLineSpacing * 0.05 then detectedPos
      else if diff < avgLineSpacing * 0.15 then detectedPos * 0.9 + expectedPos * 0.1
      else expectedPos
    next :: refineLoop avgLineSpacing next rest

/-- The average spacing computed by `refineSyncPositions`: the gaps
`positions[i] - positions[i - 1]` for `1 <= i < Math.min(10, positions.length)`. -/
def avgLineSpacing (positions : List ℚ) : ℚ :=
  let count := min 10 positions.length - 1
  let totalSpacing :=
    ((List.range count).map fun j => positions.getD (j + 1) 0 - positions.getD j 0).sum
  totalSpacing / count

/-- `refineSyncPositions(positions)`. -/
def refineSyncPositions (positions : List ℚ) : List ℚ :=
  if positions.length < 3 then positions
  else
    match positions with
    | [] => []
    | first :: rest => first :: refineLoop (avgLineSpacing positions) first rest

/-- The search loop of `findAllSyncPulses`, with fuel; `none` when the fuel is spent. -/
def syncLoop (m : MathOps ℚ) (signal : List ℚ) (windowSize : Nat) :
    Nat → Int → Int → List ℚ → Option (List ℚ)
  | 0, _, _, _ => none
  | fuel + 1, i, lastSyncPos, positions =>
    if i < (signal.length : Int) - windowSize then
      if ((i - lastSyncPos : Int) : ℚ) < LINE_SAMPLES * 0.8 then
        syncLoop m signal windowSize fuel (i + 100) lastSyncPos positions
      else
        let power1200 := goertzelPower m signal i windowSize 1200
        if power1200 > 0.08 then
          let power1500 := goertzelPower m signal i windowSize 1500
          let power1900 := goertzelPower m signal i windowSize 1900
          if power1200 > power1500 ∧ power1200 > power1900 then
            let finePos := findPeakSync m signal (i - 50) (i + 50) windowSize
            syncLoop m signal windowSize fuel
              (i + jsFloor (LINE_SAMPLES * 0.7) + 100) finePos (positions ++ [(finePos : ℚ)])
          else syncLoop m signal windowSize fuel (i + 100) lastSyncPos positions
        else syncLoop m signal windowSize fuel (i + 100) lastSyncPos positions
    else some positions

/-- `findAllSyncPulses(signal)`. -/
def findAllSyncPulses (m : MathOps ℚ) (signal : List ℚ) : Option (List ℚ) :=
  let windowSize := 256
  let searchStart := jsFloor (SAMPLE_RATE * 0.3)
  (syncLoop m signal windowSize (signal.length + 1) searchStart (-LINE_SAMPLES) []).map
    refineSyncPositions

/-- The sums of one lag of `detectFrequencyAutocorr`: `(corr, normA, normB)`. -/
def corrLoop (signal : List ℚ) (start lag : Int) : Nat → Nat → ℚ × ℚ × ℚ → ℚ × ℚ × ℚ
  | 0, _, acc => acc
  | todo + 1, i, (corr, normA, normB) =>
    let a := signal.getD (start + i).toNat 0
    let b := signal.getD (start + i + lag).toNat 0
    corrLoop signal start lag todo (i + 1) (corr + a * b, normA + a * a, normB + b * b)

/-- The body of the lag loop up to the comparison: the sums over the window and
the division by `Math.sqrt(normA * normB)` when both norms are positive. -/
def lagCorr (m : MathOps ℚ) (signal : List ℚ) (start size lag : Int) : ℚ :=
  let sums := corrLoop signal start lag (size - lag).toNat 0 (0, 0, 0)
  if sums.2.1 > 0 ∧ sums.2.2 > 0 then sums.1 / m.sqrt (sums.2.1 * sums.2.2) else sums.1

/-- The lag loop of `detectFrequencyAutocorr`; `bestCorr = none` is `-Infinity`.
It runs at most `maxPeriod - minPeriod + 1` times. -/
def lagLoop (m : MathOps ℚ) (signal : List ℚ) (start size maxPeriod : Int) :
    Nat → Int → Int → Option ℚ → Int
  | 0, _, bestLag, _ => bestLag
  | fuel + 1, lag, bestLag, bestCorr =>
    if lag ≤ maxPeriod ∧ (lag : ℚ) < (size : ℚ) / 2 then
      let corr := lagCorr m signal start size lag
      let better := match bestCorr with
        | none => true
        | some best => decide (corr > best)
      if better then lagLoop m signal start size maxPeriod fuel (lag + 1) lag (some corr)
      else lagLoop m signal start size maxPeriod fuel (lag + 1) bestLag bestCorr
    else bestLag

/-- `detectFrequencyAutocorr(signal, center, windowSize)`. The quotient
`SAMPLE_RATE / bestLag` is returned exactly; `freqToPixel` rounds it to the double
the JavaScript division gives. -/
def detectFrequencyAutocorr (m : MathOps ℚ) (signal : List ℚ) (center windowSize : Int) : ℚ :=
  let size := max 60 (min windowSize 200)
  let start := center - jsFloor ((size : ℚ) / 2)
  if start < 0 ∨ start + size ≥ signal.length then BLACK_FREQ
  else
    let minPeriod := jsFloor (SAMPLE_RATE / WHITE_FREQ) - 2
    let maxPeriod := jsFloor (SAMPLE_RATE / BLACK_FREQ) + 2
    let bestLag := lagLoop m signal start size maxPeriod (maxPeriod - minPeriod + 1).toNat
      minPeriod minPeriod none
    let freq := SAMPLE_RATE / bestLag
    max BLACK_FREQ (min WHITE_FREQ freq)

/-- `freqToPixel(freq)`, in binary64. The argument is read as the double nearest to
it: `detectFrequencyAutocorr` above hands over the quotient `SAMPLE_RATE / bestLag`
exactly, and its rounding (which clamping to 1500 and 2300 does not change) is done
here; the subtraction, the division and the product are rounded in turn, and
`Math.round` is exact on the double it receives. -/
def freqToPixel (freq : ℚ) : Int :=
  if toBinary64 freq ≤ BLACK_FREQ then 0
  else if toBinary64 freq ≥ WHITE_FREQ then 255
  else jsRound (toBinary64 (toBinary64 (toBinary64 (toBinary64 freq - BLACK_FREQ) / FREQ_RANGE) * 255))

/-- The store into a `Uint8ClampedArray` of an integer value. -/
def clampByte (v : Int) : Nat := (max 0 (min 255 v)).toNat

/-- The pixel loop shared by both decoders: row `y` from scan start `yScanStart`,
`todo` pixels left from column `x`. The quotient `samplesPerPixel`, the product
`(x + 0.5) * samplesPerPixel` and the sum with `yScanStart` are rounded to binary64
before `Math.floor` (`x + 0.5` is exact in a double). -/
def pixelLoop (m : MathOps ℚ) (signal : List ℚ) (y : Nat) (yScanStart : ℚ) :
    Nat → Nat → List Nat → List Nat
  | 0, _, image => image
  | todo + 1, x, image =>
    let samplesPerPixel : ℚ := toBinary64 ((Y_SCAN_SAMPLES : ℚ) / WIDTH)
    let pixelCenter :=
      jsFloor (toBinary64 (yScanStart + toBinary64 (((x : ℚ) + 0.5) * samplesPerPixel)))
    let freq := detectFrequencyAutocorr m signal pixelCenter (jsFloor samplesPerPixel)
    pixelLoop m signal y yScanStart todo (x + 1)
      (image.set (y * WIDTH + x) (clampByte (freqToPixel freq)))

/-- The line loop of `decodeWithSyncPositions` from line `y`, `todo` lines left. The
sync positions may be fractional, so the sums that give the scan start and its end
are rounded to binary64. -/
def syncLineLoop (m : MathOps ℚ) (signal : List ℚ) (syncPositions : List ℚ) :
    Nat → Nat → List Nat → List Nat
  | 0, _, image => image
  | todo + 1, y, image =>
    if y < syncPositions.length then
      let syncPos := syncPositions.getD y 0
      let yScanStart := toBinary64 (toBinary64 (syncPos + HSYNC_SAMPLES) + PORCH_SAMPLES)
      if toBinary64 (yScanStart + Y_SCAN_SAMPLES) ≥ signal.length then image
      else
        syncLineLoop m signal syncPositions todo (y + 1)
          (pixelLoop m signal y yScanStart WIDTH 0 image)
    else image

/-- `decodeWithSyncPositions(signal, syncPositions)`. -/
def decodeWithSyncPositions (m : MathOps ℚ) (signal : List ℚ) (syncPositions : List ℚ) :
    List Nat :=
  syncLineLoop m signal syncPositions HEIGHT 0 (List.replicate (WIDTH * HEIGHT) 0)

/-- The line loop of `decodeWithFixedTiming` from line `y`, `todo` lines left. Every
number here is an integer, which a double holds exactly. -/
def fixedLineLoop (m : MathOps ℚ) (signal : List ℚ) : Nat → Nat → Int → List Nat → List Nat
  | 0, _, _, image => image
  | todo + 1, y, pos, image =>
    let yScanStart := pos + HSYNC_SAMPLES + PORCH_SAMPLES
    if yScanStart + Y_SCAN_SAMPLES ≥ signal.length then image
    else
      fixedLineLoop m signal todo (y + 1) (pos + LINE_SAMPLES)
        (pixelLoop m signal y yScanStart WIDTH 0 image)

/-- `decodeWithFixedTiming(signal, startPos)`. -/
def decodeWithFixedTiming (m : MathOps ℚ) (signal : List ℚ) (startPos : Int) : List Nat :=
  fixedLineLoop m signal HEIGHT 0 startPos (List.replicate (WIDTH * HEIGHT) 0)

/-- What `decodeWavPcmToPngBytes` resolves to: the raw raster of the fixed-timing
path, or the PNG that `sharp` makes of the raster of the sync path. -/
inductive Decoded where
  | fixedTimingRaster (image : List Nat)
  | pngOf (image : List Nat)
  deriving DecidableEq, Repr

/-- The raster inside a decode result. -/
def Decoded.image : Decoded → List Nat
  | .fixedTimingRaster image => image
  | .pngOf image => image

/-- The first loop of `decodeWavPcmToPngBytes`: `signal[i] = int16Samples[i] / 32768.0`. -/
def signalOf (int16Samples : List Int) : List ℚ :=
  List.map (fun (s : Int) => (s : ℚ) / 32768) int16Samples

/-- `decodeWavPcmToPngBytes(int16Samples)`; `none` only if the sync search ran out
of fuel. -/
def decodeWavPcmToPngBytes (m : MathOps ℚ) (int16Samples : List Int) : Option Decoded :=
  let signal : List ℚ := signalOf int16Samples
  match findAllSyncPulses m signal with
  | none => none
  | some syncPositions =>
    if syncPositions.length < 10 then
      some (.fixedTimingRaster (decodeWithFixedTiming m signal (jsFloor (SAMPLE_RATE * 1.2))))
    else
      some (.pngOf (decodeWithSyncPositions m signal syncPositions))

/-- The number of set bits of `v`, counted over its binary digits. -/
def setBitCount (v : Nat) : Nat := (Nat.digits 2 v).sum

/-- The ten tones of a VIS header as the protocol words them: start, the seven data
bits in increasing bit order, the parity tone, stop; each a (frequency, ms) pair. -/
def visTones (v : Nat) : List (ℚ × ℚ) :=
  [(1200, 30)]
    ++ (List.range 7).map (fun i => (if v.testBit i then (1100 : ℚ) else 1300, (30 : ℚ)))
    ++ [(if setBitCount v % 2 = 1 then 1100 else 1300, 30), (1200, 30)]

/-- A 320x240 RGB raster with every component equal to `v`. -/
def uniformRaster (v : Nat) : List Nat := List.replicate (3 * (320 * 240)) v

/-- The fixed-timing raster as the protocol words it: line `y` of the grid starts at
sample `startPos + y * LINE_SAMPLES`; lines are decoded in order for as long as
their luma scan ends inside the signal; the other pixels stay zero. -/
def fixedGridRaster (m : MathOps ℚ) (signal : List ℚ) (startPos : Int) : List Nat :=
  ((List.range HEIGHT).takeWhile fun (y : Nat) =>
      decide (startPos + (y : Int) * LINE_SAMPLES + HSYNC_SAMPLES + PORCH_SAMPLES + Y_SCAN_SAMPLES
        < signal.length)).foldl
    (fun (image : List Nat) (y : Nat) =>
      pixelLoop m signal y
        ((startPos + (y : Int) * LINE_SAMPLES + HSYNC_SAMPLES + PORCH_SAMPLES : Int) : ℚ)
        WIDTH 0 image)
    (List.replicate (WIDTH * HEIGHT) 0)

/-- The value the refinement rule gives a detection, in the words of the protocol:
kept below 5% deviation from the expected position, blended 90/10 below 15%,
replaced by the expected position otherwise. -/
def refineRule (avgSpacing prev raw : ℚ) : ℚ :=
  if |raw - (prev + avgSpacing)| < avgSpacing * 0.05 then raw
  else if |raw - (prev + avgSpacing)| < avgSpacing * 0.15 then
    0.9 * raw + 0.1 * (prev + avgSpacing)
  else prev + avgSpacing

/-- The position the refinement expects for detection `i`: the refined position
before it plus the average spacing. -/
def expectedAt (raw : List ℚ) (i : Nat) : ℚ :=
  (refineSyncPositions raw).getD (i - 1) 0 + avgLineSpacing raw

/-- The deviation of detection `i` from the position expected for it. -/
def deviationAt (raw : List ℚ) (i : Nat) : ℚ := |raw.getD i 0 - expectedAt raw i|

/-- Detection `i` is clear of the two thresholds: its deviation is below 4.9999%,
between 5.0001% and 14.9999%, or above 15.0001% of the average spacing. -/
def clearOfThresholds (raw : List ℚ) (i : Nat) : Prop :=
  deviationAt raw i < avgLineSpacing raw * 0.049999
    ∨ (avgLineSpacing raw * 0.050001 < deviationAt raw i
        ∧ deviationAt raw i < avgLineSpacing raw * 0.149999)
    ∨ avgLineSpacing raw * 0.150001 < deviationAt raw i

instance (raw : List ℚ) (i : Nat) : Decidable (clearOfThresholds raw i) := by
  unfold clearOfThresholds; infer_instance

/-- The grey levels the decoder can write: 0 and the levels of the lags 29 down to
17. The level of lag 27 is 42: the double (44100 / 27 - 1500) / 800 * 255 is
42.49999999999998... and rounds down, where the exact value 42.5 would round to 43. -/
def greyLevels : List Nat := [0, 7, 24, 42, 63, 84, 108, 133, 161, 191, 225, 255]

/-- The twelve values C19 lists. -/
def claimedGreyLevels : List Nat := [0, 7, 24, 43, 63, 84, 108, 133, 161, 191, 225, 255]

/-- A signal with a unit pulse every 27 samples in its first 702 samples, followed
by 3800 samples of silence. -/
def pulseTrain27 : List ℚ :=
  List.map (fun (i : Nat) => if i % 27 = 0 then (1 : ℚ) else 0) (List.range 702)
    ++ List.replicate 3800 0

/-- A 60-sample window with a pulse every 30 samples (and one guard sample): its
autocorrelation peaks at lag 30. -/
def pulseTrain : List ℚ :=
  List.map (fun (i : Nat) => if i % 30 = 0 then (1 : ℚ) else 0) (List.range 61)

/-- The normalised correlation of the claim for one lag: sum a*b / sqrt(sum a^2 *
sum b^2) over the `size - lag` pairs a = signal[start + i], b = signal[start + i + lag]. -/
def normalisedCorr (m : MathOps ℚ) (signal : List ℚ) (start size lag : Int) : ℚ :=
  ((List.range (size - lag).toNat).map fun (i : Nat) =>
      signal.getD (start + (i : Int)).toNat 0 * signal.getD (start + (i : Int) + lag).toNat 0).sum
    / m.sqrt
        (((List.range (size - lag).toNat).map fun (i : Nat) =>
            signal.getD (start + (i : Int)).toNat 0 * signal.getD (start + (i : Int)).toNat 0).sum
          * ((List.range (size - lag).toNat).map fun (i : Nat) =>
            signal.getD (start + (i : Int) + lag).toNat 0
              * signal.getD (start + (i : Int) + lag).toNat 0).sum)

/-- The per-sample frequencies of a plain tone of `ms` milliseconds. -/
def toneFreqs (freq ms : ℚ) : List ℚ :=
  List.replicate (jsFloor (ms / 1000 * SAMPLE_RATE)).toNat freq

/-- The per-sample frequencies of a tone-encoded segment of `ms` milliseconds, in the
words of the protocol: with `count` samples in the segment, sample `i` takes source
index `min(floor(i / count * len), len - 1)` and frequency `1500 + value / 255 * 800`. -/
def scanFreqs (line : List ℚ) (ms : ℚ) : List ℚ :=
  List.map
    (fun (i : Nat) =>
      1500 + line.getD
          (min (jsFloor ((i : ℚ) / ((jsFloor (ms / 1000 * SAMPLE_RATE)).toNat : ℚ) * (line.length : ℚ)))
            ((line.length : Int) - 1)).toNat 0 / 255 * 800)
    (List.range (jsFloor (ms / 1000 * SAMPLE_RATE)).toNat)

/-- The phase at which sample `i` of a segment is taken when the segment starts at
phase `phase`: every earlier sample of the segment has advanced the phase by
`2π * frequency / sampleRate`. -/
def phaseAt (m : MathOps ℚ) (phase : ℚ) (freqs : List ℚ) (i : Nat) : ℚ :=
  phase + ((freqs.take i).map fun (f : ℚ) => 2 * m.pi * f / 44100).sum

/-- The samples of a segment in the words of the protocol: sample `i` is
`sin(phase) * 32767` at the phase reached after the `i` samples before it. -/
def segmentSamples (m : MathOps ℚ) (phase : ℚ) (freqs : List ℚ) : List ℚ :=
  List.map (fun (i : Nat) => m.sin (phaseAt m phase freqs i) * 32767) (List.range freqs.length)

/-- Playing a segment: its samples are appended to the output, and the phase
reached after the last sample is reduced modulo `2π`, once, at the end of the
segment. -/
def playSegment (m : MathOps ℚ) (s : Synth) (freqs : List ℚ) : Synth :=
  { samples := s.samples ++ segmentSamples m s.phase freqs
    phase := phaseAt m s.phase freqs freqs.length
      - 2 * m.pi * ⌊phaseAt m s.phase freqs freqs.length / (2 * m.pi)⌋ }

/-- Row `L` of the luma plane of a 320-wide image. -/
def lumaRow (p : YuvPlanes) (L : Nat) : List ℚ :=
  List.map (fun (x : Nat) => p.Y.getD (L * 320 + x) 0) (List.range 320)

/-- The decimated chroma row of line `L`: every second sample of row `L` of the V
plane when `L` is even, of the U plane when `L` is odd. -/
def chromaRow (p : YuvPlanes) (L : Nat) : List ℚ :=
  List.map (fun (x : Nat) => (if L % 2 = 0 then p.V else p.U).getD (L * 320 + 2 * x) 0)
    (List.range 160)

/-- The six segments of scanline `L`, in order. -/
def lineSegments (p : YuvPlanes) (L : Nat) : List (List ℚ) :=
  [toneFreqs 1200 9, toneFreqs 1500 3, scanFreqs (lumaRow p L) 88.064,
   toneFreqs 1500 4.5, toneFreqs 1900 1.5, scanFreqs (chromaRow p L) 44.032]

/-- A 320x240 RGB raster whose colour changes along each row and from row to row:
the pixel in column `c` of row `r` is `(c mod 256, r, 255 - c mod 256)`; byte `k`
is component `k mod 3` of pixel `k / 3`. -/
def gradientRaster : List Nat :=
  List.map
    (fun (k : Nat) =>
      if k % 3 = 0 then k / 3 % 320 % 256
      else if k % 3 = 1 then k / 3 / 320
      else 255 - k / 3 % 320 % 256)
    (List.range (3 * (320 * 240)))
/-! ## Theorems -/

theorem writeSamples_append (samples : List Int) :
    ∀ (pre zs : Bytes), zs.length = 2 * samples.length →
      writeSamples samples (pre ++ zs) pre.length = pre ++ samples.flatMap int16Bytes := by
  induction samples with
  | nil => intro pre zs h; simp at h; simp [writeSamples, h]
  | cons s rest ih =>
    intro pre zs h
    match zs, h with
    | z0 :: z1 :: zs', h =>
      have h' : zs'.length = 2 * rest.length := by simp at h; omega
      have key : setInt16 (pre ++ z0 :: z1 :: zs') pre.length s
          = (pre ++ int16Bytes s) ++ zs' := by
        simp [setInt16, setUint16, int16Bytes, le16, List.set_append]
      rw [writeSamples, key]
      have := ih (pre ++ int16Bytes s) zs' h'
      simp [int16Bytes, le16] at this ⊢
      exact this

theorem pcm16ToWavBytes_eq (samples : List Int) (r c : Nat) :
    pcm16ToWavBytes samples r c = wavHeader samples.length r c ++ samples.flatMap int16Bytes := by
  have hz : List.replicate (44 + samples.length * 2) 0
      = List.replicate 44 0 ++ List.replicate (samples.length * 2) 0 := by
    rw [List.replicate_add]
  unfold pcm16ToWavBytes
  simp only [hz]
  simp only [List.replicate, writeString, writeStringFrom, setUint8, setUint16, setUint32]
  simp [writeStringFrom, setUint8]
  have key := writeSamples_append samples (wavHeader samples.length r c)
    (List.replicate (samples.length * 2) 0) (by simp; omega)
  have e1 : 44 + samples.length * 2 - 8 = 36 + 2 * samples.length := by omega
  have e2 : samples.length * 2 = 2 * samples.length := by omega
  simp [wavHeader, le16, le32, charCodes] at key ⊢
  have e3 : 44 + 2 * samples.length - 8 = 36 + 2 * samples.length := by omega
  simp only [e1, e2, e3] at key ⊢
  exact key

theorem getUint8_eq (dv : Bytes) (pos : Nat) (h : pos < dv.length) :
    getUint8 dv pos = .ok (dv.getD pos 0) := by
  simp [getUint8, List.getD, List.getElem?_eq_getElem h]

theorem getUint16_eq (dv : Bytes) (pos : Nat) (h : pos + 2 ≤ dv.length) :
    getUint16 dv pos = .ok (u16At dv pos) := by
  simp [getUint16, u16At, h]

theorem getUint32_eq (dv : Bytes) (pos : Nat) (h : pos + 4 ≤ dv.length) :
    getUint32 dv pos = .ok (u32At dv pos) := by
  simp [getUint32, u32At, h]

theorem fmt_ne_data : charCodes "fmt " ≠ charCodes "data" := by decide

/-- What one pass of the loop body does, in terms of the fields it reads. -/
theorem chunkStep_eq (dv : Bytes) (pos : Nat) (st : ScanState) (h : pos + 8 ≤ dv.length) :
    chunkStep dv pos st =
      if idAt dv pos = charCodes "fmt " then
        if pos + 24 ≤ dv.length then
          if u16At dv (pos + 8) ≠ 1 ∨ u16At dv (pos + 22) ≠ 16 then .error .unsupportedFormat
          else .ok ({ st with channels := u16At dv (pos + 10), sampleRate := u32At dv (pos + 12),
                              bps := u16At dv (pos + 22) }, some (pos + 8 + u32At dv (pos + 4)))
        else .error .rangeError
      else if idAt dv pos = charCodes "data" then
        .ok ({ st with dataOffset := (pos + 8 : Nat), dataSize := (u32At dv (pos + 4) : Nat) }, none)
      else .ok (st, some (pos + 8 + u32At dv (pos + 4))) := by
  unfold chunkStep
  rw [getUint8_eq dv pos (by omega), getUint8_eq dv (pos + 1) (by omega),
    getUint8_eq dv (pos + 2) (by omega), getUint8_eq dv (pos + 3) (by omega),
    getUint32_eq dv (pos + 4) (by omega)]
  have hid : [dv.getD pos 0, dv.getD (pos + 1) 0, dv.getD (pos + 2) 0, dv.getD (pos + 3) 0]
      = idAt dv pos := rfl
  simp only [Except.bind, bind]
  simp only [hid]
  generalize idAt dv pos = id
  by_cases hf : id = charCodes "fmt "
  · have hd : id ≠ charCodes "data" := by rw [hf]; exact fmt_ne_data
    by_cases hb : pos + 24 ≤ dv.length
    · rw [getUint16_eq dv (pos + 8) (by omega), getUint16_eq dv (pos + 8 + 2) (by omega),
        getUint32_eq dv (pos + 8 + 4) (by omega), getUint16_eq dv (pos + 8 + 14) (by omega)]
      by_cases hbad : u16At dv (pos + 8) ≠ 1 ∨ u16At dv (pos + 22) ≠ 16
      · simp only [if_pos hf, if_pos hb, if_pos hbad, bind, Except.bind, throw, throwThe,
          MonadExceptOf.throw]
      · simp only [if_pos hf, if_neg hd, if_pos hb, if_neg hbad, bind, Except.bind, pure,
          Except.pure]
    · simp only [if_pos hf, if_neg hb, bind, Except.bind, getUint16, getUint32]
      split_ifs <;> rfl
  · by_cases hd : id = charCodes "data"
    · simp only [if_neg hf, if_pos hd, bind, Except.bind, pure, Except.pure]
    · simp only [if_neg hf, if_neg hd, bind, Except.bind, pure, Except.pure]


theorem scanOffsets_ge (dv : Bytes) : ∀ (f pos q : Nat), q ∈ scanOffsets dv f pos → pos ≤ q := by
  intro f
  induction f with
  | zero => intro pos q h; simp [scanOffsets] at h
  | succ f ih =>
    intro pos q h
    rw [scanOffsets] at h
    split_ifs at h with h1 h2
    · simp at h; omega
    · rcases List.mem_cons.mp h with h | h
      · omega
      · have := ih _ _ h; omega
    · simp at h

/-- A scan that meets no `data` chunk and only readable PCM16 `fmt ` chunks ends by
falling out of the loop, with `dataOffset` untouched. -/
theorem scanChunks_no_data (dv : Bytes) :
    ∀ (f pos : Nat) (st : ScanState), 1 ≤ f → dv.length + 1 ≤ pos + f →
      (∀ p ∈ scanOffsets dv f pos, idAt dv p ≠ charCodes "data") →
      (∀ p ∈ scanOffsets dv f pos, idAt dv p = charCodes "fmt " →
        p + 24 ≤ dv.length ∧ u16At dv (p + 8) = 1 ∧ u16At dv (p + 22) = 16) →
      ∃ st', scanChunks dv f pos st = .ok st' ∧ st'.dataOffset = st.dataOffset := by
  intro f
  induction f with
  | zero => intro pos st h; omega
  | succ f ih =>
    intro pos st _ hfuel hnd hfmt
    rw [scanChunks]
    by_cases hg : pos + 8 ≤ dv.length
    · have hmem : pos ∈ scanOffsets dv (f + 1) pos := by
        rw [scanOffsets, if_pos hg]; split_ifs <;> simp
      have hd := hnd pos hmem
      have hso : scanOffsets dv (f + 1) pos
          = pos :: scanOffsets dv f (pos + 8 + u32At dv (pos + 4)) := by
        rw [scanOffsets, if_pos hg, if_neg hd]
      rw [hso] at hnd hfmt
      have hrec := fun st1 => ih (pos + 8 + u32At dv (pos + 4)) st1 (by omega) (by omega)
        (fun p hp => hnd p (List.mem_cons_of_mem _ hp))
        (fun p hp => hfmt p (List.mem_cons_of_mem _ hp))
      rw [if_pos hg, chunkStep_eq dv pos st hg]
      by_cases hf : idAt dv pos = charCodes "fmt "
      · obtain ⟨hb, h1, h16⟩ := hfmt pos (List.mem_cons_self _ _) hf
        have hgood : ¬ (u16At dv (pos + 8) ≠ 1 ∨ u16At dv (pos + 22) ≠ 16) := by
          simp [h1, h16]
        rw [if_pos hf, if_pos hb, if_neg hgood]
        exact hrec _
      · rw [if_neg hf, if_neg hd]
        exact hrec st
    · rw [if_neg hg]
      exact ⟨st, rfl, rfl⟩

/-- A readable `fmt ` chunk met by the scan that is not PCM16 makes the scan throw. -/
theorem scanChunks_bad_fmt (dv : Bytes) (p : Nat) (hid : idAt dv p = charCodes "fmt ")
    (hb : p + 24 ≤ dv.length) (hbad : u16At dv (p + 8) ≠ 1 ∨ u16At dv (p + 22) ≠ 16) :
    ∀ (f pos : Nat) (st : ScanState), 1 ≤ f → dv.length + 1 ≤ pos + f →
      p ∈ scanOffsets dv f pos → scanChunks dv f pos st = .error .unsupportedFormat := by
  intro f
  induction f with
  | zero => intro pos st h; omega
  | succ f ih =>
    intro pos st _ hfuel hp
    rw [scanChunks]
    by_cases hg : pos + 8 ≤ dv.length
    · rw [if_pos hg, chunkStep_eq dv pos st hg]
      by_cases hpp : p = pos
      · subst hpp
        rw [if_pos hid, if_pos hb, if_pos hbad]
      · rw [scanOffsets, if_pos hg] at hp
        by_cases hd : idAt dv pos = charCodes "data"
        · rw [if_pos hd] at hp; simp at hp; exact absurd hp hpp
        · rw [if_neg hd] at hp
          have hp' : p ∈ scanOffsets dv f (pos + 8 + u32At dv (pos + 4)) := by
            rcases List.mem_cons.mp hp with h | h
            · exact absurd h hpp
            · exact h
          have hge := scanOffsets_ge dv _ _ _ hp'
          by_cases hf : idAt dv pos = charCodes "fmt "
          · rw [if_pos hf, if_pos (by omega)]
            split_ifs with hx
            · rfl
            · exact ih _ _ (by omega) (by omega) hp'
          · rw [if_neg hf, if_neg hd]
            exact ih _ _ (by omega) (by omega) hp'
    · rw [scanOffsets, if_neg hg] at hp; simp at hp
/-- The chunk scan never runs out of fuel when given `length + 1` passes: each pass
moves `pos` forward by at least 8. -/
theorem scanChunks_fuel (dv : Bytes) :
    ∀ (f pos : Nat) (st : ScanState), 1 ≤ f → dv.length + 1 ≤ pos + f →
      scanChunks dv f pos st ≠ .error .fuelExhausted := by
  intro f
  induction f with
  | zero => intro pos st h; omega
  | succ n ih =>
    intro pos st _ hfuel
    rw [scanChunks]
    by_cases hg : pos + 8 ≤ dv.length
    · rw [if_pos hg, chunkStep_eq dv pos st hg]
      have hrec := fun st1 => ih (pos + 8 + u32At dv (pos + 4)) st1 (by omega) (by omega)
      split_ifs
      · simp
      · exact hrec _
      · simp
      · simp
      · exact hrec _
    · rw [if_neg hg]
      simp

theorem parsePcm16Wav_fuel (buf : Bytes) : parsePcm16Wav buf ≠ .error .fuelExhausted := by
  have h := scanChunks_fuel buf (buf.length + 1) 12 {} (by omega) (by omega)
  unfold parsePcm16Wav
  cases hs : scanChunks buf (buf.length + 1) 12 {} with
  | error e =>
    rw [hs] at h
    simp only [bind, Except.bind]
    intro hc
    injection hc with hc
    exact h (by rw [hc])
  | ok st =>
    simp only [bind, Except.bind]
    have hread : ∀ n o, readSamples buf n o ≠ .error .fuelExhausted := by
      intro n
      induction n with
      | zero => intro o; simp [readSamples, pure, Except.pure]
      | succ k ihk =>
        intro o
        rw [readSamples]
        simp only [bind, Except.bind, getInt16, getUint16, pure, Except.pure]
        split_ifs
        · cases hr : readSamples buf k (o + 2) with
          | error e =>
            have := ihk (o + 2)
            rw [hr] at this
            simpa using this
          | ok v => simp
        · simp
    split_ifs
    · simp [throw, throwThe, MonadExceptOf.throw]
    · cases hr : readSamples buf (st.dataSize / 2).toNat st.dataOffset.toNat with
      | error e =>
        have := hread (st.dataSize / 2).toNat st.dataOffset.toNat
        rw [hr] at this
        simpa [pure, Except.pure] using this
      | ok v => simp [pure, Except.pure]
    · cases hr : readSamples buf (st.dataSize / 2).toNat st.dataOffset.toNat with
      | error e =>
        have := hread (st.dataSize / 2).toNat st.dataOffset.toNat
        rw [hr] at this
        simpa [pure, Except.pure] using this
      | ok v => simp [pure, Except.pure]

theorem getD_append_at (pre xs : Bytes) (k : Nat) :
    (pre ++ xs).getD (pre.length + k) 0 = xs.getD k 0 := by
  simp [List.getD, List.getElem?_append_right]

theorem idAt_append_at (pre xs : Bytes) (k : Nat) :
    idAt (pre ++ xs) (pre.length + k) = idAt xs k := by
  simp only [idAt, Nat.add_assoc, getD_append_at]

theorem u16At_append_at (pre xs : Bytes) (k : Nat) :
    u16At (pre ++ xs) (pre.length + k) = u16At xs k := by
  simp only [u16At, Nat.add_assoc, getD_append_at]

theorem u32At_append_at (pre xs : Bytes) (k : Nat) :
    u32At (pre ++ xs) (pre.length + k) = u32At xs k := by
  simp only [u32At, Nat.add_assoc, getD_append_at]

theorem u32At_le32 (n : Nat) (h : n < 2 ^ 32) (a : Bytes) (rest : Bytes) (ha : a.length = 4) :
    u32At (a ++ le32 n ++ rest) 4 = n := by
  match a, ha with
  | [a0, a1, a2, a3], _ =>
    simp [u32At, le32]
    omega

theorem idAt_id (a : Bytes) (rest : Bytes) (ha : a.length = 4) :
    idAt (a ++ rest) 0 = a := by
  match a, ha with
  | [a0, a1, a2, a3], _ => simp [idAt]

theorem Chunk.packed_length (c : Chunk) (h : c.id.length = 4) :
    c.packed.length = 8 + c.body.length := by
  simp [Chunk.packed, le32, h]
  omega

/-- A chunk that is neither `fmt ` nor `data` is stepped over. -/
theorem chunkStep_skip (pre rest : Bytes) (c : Chunk) (hc : c.Skippable) (st : ScanState) :
    chunkStep (pre ++ c.packed ++ rest) pre.length st
      = .ok (st, some (pre.length + c.packed.length)) := by
  obtain ⟨h4, hf, hd, hsz⟩ := hc
  have hlen := Chunk.packed_length c h4
  have e : pre ++ c.packed ++ rest = pre ++ (c.id ++ le32 c.body.length ++ (c.body ++ rest)) := by
    simp [Chunk.packed]
  rw [chunkStep_eq _ _ _ (by simp [hlen]; omega), e]
  have h1 := idAt_append_at pre (c.id ++ le32 c.body.length ++ (c.body ++ rest)) 0
  have h2 := u32At_append_at pre (c.id ++ le32 c.body.length ++ (c.body ++ rest)) 4
  rw [Nat.add_zero] at h1
  rw [h1, h2, u32At_le32 _ hsz _ _ h4, List.append_assoc, idAt_id _ _ h4, if_neg hf, if_neg hd,
    hlen, Nat.add_assoc]
theorem flatMap_packed_length (cs : List Chunk) (h : ∀ c ∈ cs, c.Skippable) :
    8 * cs.length ≤ (cs.flatMap Chunk.packed).length := by
  induction cs with
  | nil => simp
  | cons c cs ih =>
    have h1 := Chunk.packed_length c (h c (List.mem_cons_self _ _)).1
    have h2 := ih (fun c hc => h c (List.mem_cons_of_mem _ hc))
    simp only [List.flatMap_cons, List.length_append, List.length_cons]
    omega

/-- The scan steps over a run of chunks that are neither `fmt ` nor `data`. -/
theorem scanChunks_skip (cs : List Chunk) :
    ∀ (pre rest : Bytes) (f : Nat) (st : ScanState), (∀ c ∈ cs, c.Skippable) →
      scanChunks (pre ++ cs.flatMap Chunk.packed ++ rest) (f + cs.length) pre.length st
        = scanChunks (pre ++ cs.flatMap Chunk.packed ++ rest) f
            (pre.length + (cs.flatMap Chunk.packed).length) st := by
  induction cs with
  | nil => intro pre rest f st _; simp
  | cons c cs ih =>
    intro pre rest f st h
    have hc := h c (List.mem_cons_self _ _)
    have hlen := Chunk.packed_length c hc.1
    have e1 : pre ++ (c :: cs).flatMap Chunk.packed ++ rest
        = pre ++ c.packed ++ (cs.flatMap Chunk.packed ++ rest) := by simp
    have e2 : pre ++ (c :: cs).flatMap Chunk.packed ++ rest
        = (pre ++ c.packed) ++ cs.flatMap Chunk.packed ++ rest := by simp
    have hg : pre.length + 8 ≤ (pre ++ c.packed ++ (cs.flatMap Chunk.packed ++ rest)).length := by
      simp [hlen]; omega
    have step : scanChunks (pre ++ c.packed ++ (cs.flatMap Chunk.packed ++ rest))
        (f + cs.length + 1) pre.length st
        = scanChunks (pre ++ c.packed ++ (cs.flatMap Chunk.packed ++ rest)) (f + cs.length)
            (pre.length + c.packed.length) st := by
      rw [scanChunks, if_pos hg, chunkStep_skip pre _ c hc st]
    have hi := ih (pre ++ c.packed) rest f st (fun c hc => h c (List.mem_cons_of_mem _ hc))
    rw [List.length_cons, ← Nat.add_assoc, e1, step, ← e1, e2]
    rw [List.length_append] at hi
    rw [hi]
    simp [Nat.add_assoc]

/-- The `fmt ` chunk of a layout sets channels, sample rate and bit depth. -/
theorem chunkStep_fmt (pre rest : Bytes) (w : WavLayout) (hw : w.WellFormed) (st : ScanState) :
    chunkStep (pre ++ (charCodes "fmt " ++ le32 w.fmtBody.length ++ w.fmtBody) ++ rest)
        pre.length st
      = .ok ({ st with channels := w.channels, sampleRate := w.sampleRate, bps := 16 },
          some (pre.length + (charCodes "fmt " ++ le32 w.fmtBody.length ++ w.fmtBody).length)) := by
  obtain ⟨_, _, _, hch, hsr, htail, hbody, _, _⟩ := hw
  match hft : w.fmtTail, htail with
  | [t0, t1, t2, t3, t4, t5], _ =>
    have e : pre ++ (charCodes "fmt " ++ le32 w.fmtBody.length ++ w.fmtBody) ++ rest
        = pre ++ (charCodes "fmt " ++ le32 w.fmtBody.length ++ (w.fmtBody ++ rest)) := by simp
    have hbl : w.fmtBody.length = 16 + w.fmtExtra.length := by
      simp [WavLayout.fmtBody, le16, le32, hft]
      omega
    rw [chunkStep_eq _ _ _ (by simp [charCodes, le32]), e]
    have h1 := idAt_append_at pre (charCodes "fmt " ++ le32 w.fmtBody.length ++ (w.fmtBody ++ rest)) 0
    rw [Nat.add_zero] at h1
    rw [h1]
    simp only [u16At_append_at, u32At_append_at]
    rw [u32At_le32 _ hbody _ _ (by decide), List.append_assoc, idAt_id _ _ (by decide)]
    have hlen : (pre ++ (charCodes "fmt " ++ (le32 w.fmtBody.length ++ (w.fmtBody ++ rest)))).length
        = pre.length + 24 + w.fmtExtra.length + rest.length := by
      simp [charCodes, le32, hbl]
      omega
    have k8 : u16At (charCodes "fmt " ++ (le32 w.fmtBody.length ++ (w.fmtBody ++ rest))) 8 = 1 := by
      simp [u16At, charCodes, le32, le16, WavLayout.fmtBody]
    have k22 : u16At (charCodes "fmt " ++ (le32 w.fmtBody.length ++ (w.fmtBody ++ rest))) 22 = 16 := by
      simp [u16At, charCodes, le32, le16, WavLayout.fmtBody, hft]
    have k10 : u16At (charCodes "fmt " ++ (le32 w.fmtBody.length ++ (w.fmtBody ++ rest))) 10
        = w.channels := by
      simp [u16At, charCodes, le32, le16, WavLayout.fmtBody]
      omega
    have k12 : u32At (charCodes "fmt " ++ (le32 w.fmtBody.length ++ (w.fmtBody ++ rest))) 12
        = w.sampleRate := by
      simp [u32At, charCodes, le32, le16, WavLayout.fmtBody]
      omega
    rw [if_pos rfl, if_pos (by rw [hlen]; omega), k8, k22, k10, k12]
    simp [charCodes, le32, Nat.add_assoc]
    omega
/-- The `data` chunk header ends the scan and records where the samples are. -/
theorem chunkStep_data (pre rest : Bytes) (n : Nat) (hn : n < 2 ^ 32) (st : ScanState) :
    chunkStep (pre ++ (charCodes "data" ++ le32 n ++ rest)) pre.length st
      = .ok ({ st with dataOffset := ((pre.length + 8 : Nat) : Int), dataSize := (n : Int) },
          none) := by
  rw [chunkStep_eq _ _ _ (by simp [charCodes, le32])]
  have h1 := idAt_append_at pre (charCodes "data" ++ le32 n ++ rest) 0
  rw [Nat.add_zero] at h1
  rw [h1]
  simp only [u32At_append_at]
  rw [u32At_le32 _ hn _ _ (by decide), List.append_assoc,
    idAt_id _ _ (by decide), if_neg (Ne.symm fmt_ne_data), if_pos rfl]

theorem getInt16_int16Bytes (pre rest : Bytes) (s : Int) (hs : IsInt16 s) :
    getInt16 (pre ++ (int16Bytes s ++ rest)) pre.length = .ok s := by
  have hlen : pre.length + 2 ≤ (pre ++ (int16Bytes s ++ rest)).length := by
    simp [int16Bytes, le16]
  have h0 := getD_append_at pre (int16Bytes s ++ rest) 0
  have h1 := getD_append_at pre (int16Bytes s ++ rest) 1
  rw [Nat.add_zero] at h0
  unfold getInt16
  rw [getUint16_eq _ _ hlen]
  simp only [u16At, h0, h1, bind, Except.bind, pure, Except.pure]
  simp only [int16Bytes, le16, List.cons_append, List.getD_cons_zero, List.getD_cons_succ,
    List.nil_append]
  obtain ⟨hlo, hhi⟩ := hs
  have e : (s % 65536).toNat % 256 + 256 * ((s % 65536).toNat / 256 % 256)
      = (s % 65536).toNat := by omega
  rw [e]
  congr 1
  split_ifs <;> omega

/-- Reading back the samples that were laid out little-endian. -/
theorem readSamples_int16Bytes (d : List Int) :
    ∀ (pre rest : Bytes), (∀ s ∈ d, IsInt16 s) →
      readSamples (pre ++ (d.flatMap int16Bytes ++ rest)) d.length pre.length = .ok d := by
  induction d with
  | nil => intro pre rest _; rfl
  | cons s d ih =>
    intro pre rest h
    have e1 : pre ++ ((s :: d).flatMap int16Bytes ++ rest)
        = pre ++ (int16Bytes s ++ (d.flatMap int16Bytes ++ rest)) := by simp
    have e2 : pre ++ (int16Bytes s ++ (d.flatMap int16Bytes ++ rest))
        = (pre ++ int16Bytes s) ++ (d.flatMap int16Bytes ++ rest) := by simp
    have hi := ih (pre ++ int16Bytes s) rest (fun x hx => h x (List.mem_cons_of_mem _ hx))
    have hl : (pre ++ int16Bytes s).length = pre.length + 2 := by simp [int16Bytes, le16]
    rw [hl, ← e2] at hi
    rw [List.length_cons, readSamples, e1,
      getInt16_int16Bytes pre _ s (h s (List.mem_cons_self _ _))]
    simp only [bind, Except.bind, hi, pure, Except.pure]

theorem downmix_length (d : List Int) (n : Nat) : (downmix d n).length = d.length / n := by
  simp [downmix]

theorem downmix_getElem? (d : List Int) (n i : Nat) (hn : 0 < n) (hi : i < d.length / n) :
    i * n < d.length ∧ (downmix d n)[i]? = d[i * n]? := by
  have hlt : i * n < d.length := by
    have : (i + 1) * n ≤ d.length := (Nat.le_div_iff_mul_le hn).mp hi
    nlinarith
  refine ⟨hlt, ?_⟩
  simp [downmix, List.getElem?_map, List.getElem?_range hi, List.getD, List.getElem?_eq_getElem hlt]
/-- Offset of the first sample byte in a layout. -/
theorem scanChunks_layout (w : WavLayout) (hw : w.WellFormed) :
    scanChunks w.packed (w.packed.length + 1) 12 {}
      = .ok { dataOffset := ((w.packed.length - w.trailing.length - 2 * w.samples.length : Nat) : Int),
              dataSize := ((2 * w.samples.length : Nat) : Int),
              channels := w.channels, sampleRate := w.sampleRate, bps := 16 } := by
  have hw' := hw
  obtain ⟨hriff, hbefore, hbetween, hch, hsr, htail, hbody, hsz, hs⟩ := hw'
  set B := w.before.flatMap Chunk.packed with hB
  set F := charCodes "fmt " ++ le32 w.fmtBody.length ++ w.fmtBody with hF
  set M := w.between.flatMap Chunk.packed with hM
  set S := w.samples.flatMap int16Bytes with hS
  have hbytes : w.packed = w.riff ++ B ++ F ++ M ++ (charCodes "data" ++ le32 (2 * w.samples.length) ++ S)
      ++ w.trailing := rfl
  have hSlen : S.length = 2 * w.samples.length := by
    rw [hS]
    clear hs hsz hbytes hS
    induction w.samples with
    | nil => rfl
    | cons s d ih => simp [int16Bytes, le16] at ih ⊢; omega
  have hBlen : 8 * w.before.length ≤ B.length := flatMap_packed_length w.before hbefore
  have hMlen : 8 * w.between.length ≤ M.length := flatMap_packed_length w.between hbetween
  have hFlen : 24 ≤ F.length := by
    simp [hF, WavLayout.fmtBody, charCodes, le32, le16, htail]; omega
  have hlen : w.packed.length = 12 + B.length + F.length + M.length + (8 + S.length)
      + w.trailing.length := by
    rw [hbytes]; simp [hriff, charCodes, le32]; omega
  obtain ⟨f, hf⟩ : ∃ f, w.packed.length + 1 = ((f + 1) + w.between.length + 1) + w.before.length :=
    ⟨w.packed.length + 1 - (w.between.length + w.before.length + 2), by omega⟩
  -- chunks before `fmt `
  have eA : w.packed = w.riff ++ B ++ (F ++ M ++ (charCodes "data" ++ le32 (2 * w.samples.length) ++ S)
      ++ w.trailing) := by rw [hbytes]; simp
  have sA := scanChunks_skip w.before w.riff
    (F ++ M ++ (charCodes "data" ++ le32 (2 * w.samples.length) ++ S) ++ w.trailing)
    ((f + 1) + w.between.length + 1) {} hbefore
  rw [← hB, ← eA, hriff] at sA
  -- the `fmt ` chunk
  have eB : w.packed = (w.riff ++ B) ++ F ++ (M ++ (charCodes "data" ++ le32 (2 * w.samples.length) ++ S)
      ++ w.trailing) := by rw [hbytes]; simp
  have gB : (w.riff ++ B).length + 8 ≤ w.packed.length := by
    rw [hlen]; simp [hriff]; omega
  have sB : scanChunks w.packed ((f + 1) + w.between.length + 1) (w.riff ++ B).length {}
      = scanChunks w.packed ((f + 1) + w.between.length) ((w.riff ++ B).length + F.length)
          { channels := w.channels, sampleRate := w.sampleRate, bps := 16 } := by
    rw [scanChunks, if_pos gB]
    have := chunkStep_fmt (w.riff ++ B)
      (M ++ (charCodes "data" ++ le32 (2 * w.samples.length) ++ S) ++ w.trailing) w hw {}
    rw [← hF, ← eB] at this
    rw [this]
  -- chunks between `fmt ` and `data`
  have eC : w.packed = (w.riff ++ B ++ F) ++ M ++ ((charCodes "data" ++ le32 (2 * w.samples.length) ++ S)
      ++ w.trailing) := by rw [hbytes]; simp
  have sC := scanChunks_skip w.between (w.riff ++ B ++ F)
    ((charCodes "data" ++ le32 (2 * w.samples.length) ++ S) ++ w.trailing)
    (f + 1) { channels := w.channels, sampleRate := w.sampleRate, bps := 16 } hbetween
  rw [← hM, ← eC] at sC
  -- the `data` chunk
  have eD : w.packed = (w.riff ++ B ++ F ++ M) ++ (charCodes "data" ++ le32 (2 * w.samples.length)
      ++ (S ++ w.trailing)) := by rw [hbytes]; simp
  have gD : (w.riff ++ B ++ F ++ M).length + 8 ≤ w.packed.length := by
    rw [hlen]; simp [hriff]; omega
  have sD : scanChunks w.packed (f + 1) (w.riff ++ B ++ F ++ M).length
        { channels := w.channels, sampleRate := w.sampleRate, bps := 16 }
      = .ok { dataOffset := (((w.riff ++ B ++ F ++ M).length + 8 : Nat) : Int),
              dataSize := ((2 * w.samples.length : Nat) : Int),
              channels := w.channels, sampleRate := w.sampleRate, bps := 16 } := by
    rw [scanChunks, if_pos gD]
    have := chunkStep_data (w.riff ++ B ++ F ++ M) (S ++ w.trailing) (2 * w.samples.length) hsz
      { channels := w.channels, sampleRate := w.sampleRate, bps := 16 }
    rw [← eD] at this
    rw [this]
  have p1 : 12 + B.length = (w.riff ++ B).length := by simp [hriff]
  have p2 : (w.riff ++ B).length + F.length = (w.riff ++ B ++ F).length := by
    simp only [List.length_append]
  have p3 : (w.riff ++ B ++ F).length + M.length = (w.riff ++ B ++ F ++ M).length := by
    simp only [List.length_append]
  have p4 : (w.riff ++ B ++ F ++ M).length + 8
      = w.packed.length - w.trailing.length - 2 * w.samples.length := by
    rw [hlen]; simp [hriff]; omega
  rw [hf, sA, p1, sB, p2, sC, p3, sD, p4]

/-- What `parsePcm16Wav` returns on a well-formed container. -/
theorem parsePcm16Wav_layout (w : WavLayout) (hw : w.WellFormed) :
    parsePcm16Wav w.packed
      = .ok (if w.channels > 1 then downmix w.samples w.channels else w.samples,
          w.sampleRate) := by
  have hscan := scanChunks_layout w hw
  obtain ⟨hriff, hbefore, hbetween, hch, hsr, htail, hbody, hsz, hs⟩ := hw
  have hbytes : w.packed = (w.riff ++ w.before.flatMap Chunk.packed
      ++ (charCodes "fmt " ++ le32 w.fmtBody.length ++ w.fmtBody)
      ++ w.between.flatMap Chunk.packed ++ charCodes "data" ++ le32 (2 * w.samples.length))
      ++ (w.samples.flatMap int16Bytes ++ w.trailing) := by
    simp [WavLayout.packed]
  have hSlen : (w.samples.flatMap int16Bytes).length = 2 * w.samples.length := by
    clear hs hsz hbytes hscan
    induction w.samples with
    | nil => rfl
    | cons s d ih => simp [int16Bytes, le16] at ih ⊢; omega
  have hread := readSamples_int16Bytes w.samples (w.riff ++ w.before.flatMap Chunk.packed
      ++ (charCodes "fmt " ++ le32 w.fmtBody.length ++ w.fmtBody)
      ++ w.between.flatMap Chunk.packed ++ charCodes "data" ++ le32 (2 * w.samples.length))
      w.trailing hs
  rw [← hbytes] at hread
  have hoff : w.packed.length - w.trailing.length - 2 * w.samples.length
      = (w.riff ++ w.before.flatMap Chunk.packed
      ++ (charCodes "fmt " ++ le32 w.fmtBody.length ++ w.fmtBody)
      ++ w.between.flatMap Chunk.packed ++ charCodes "data" ++ le32 (2 * w.samples.length)).length := by
    rw [hbytes]
    simp only [List.length_append, hSlen]
    omega
  unfold parsePcm16Wav
  rw [hscan]
  simp only [bind, Except.bind]
  have h1 : ¬ (((w.packed.length - w.trailing.length - 2 * w.samples.length : Nat) : Int) < 0) := by
    omega
  have h3 : (((2 * w.samples.length : Nat) : Int) / 2).toNat = w.samples.length := by omega
  simp only [if_neg h1, h3, Int.toNat_ofNat, pure, Except.pure]
  rw [hoff, hread]
  simp only []
  split_ifs <;> rfl
theorem le32_mod (v : Nat) : le32 (v % 2 ^ 32) = le32 v := by
  simp only [le32]
  congr 1
  · omega
  congr 1
  · omega
  congr 1
  · omega
  congr 1
  omega

theorem serializedLayout_packed (samples : List Int) (r c k : Nat) (hk : k ≤ samples.length)
    (h : 2 * k = 2 * samples.length % 2 ^ 32) :
    (serializedLayout samples r c k).packed = pcm16ToWavBytes samples r c := by
  rw [pcm16ToWavBytes_eq]
  have h1 : (List.take k samples).length = k := by simp [hk]
  have h2 : le32 (2 * k) = le32 (2 * samples.length) := by rw [h, le32_mod]
  have h3 : (List.take k samples).flatMap int16Bytes ++ (List.drop k samples).flatMap int16Bytes
      = samples.flatMap int16Bytes := by
    rw [← List.flatMap_append, List.take_append_drop]
  simp only [WavLayout.packed, serializedLayout, WavLayout.fmtBody, h1, h2, wavHeader,
    List.flatMap_nil, List.append_nil, List.append_assoc, h3]
  simp [le32, le16]

theorem serializedLayout_wellFormed (samples : List Int) (r c k : Nat)
    (hs : ∀ s ∈ samples, IsInt16 s) (hr : r < 2 ^ 32) (hc : c < 2 ^ 16) (hk : k ≤ samples.length)
    (hk2 : 2 * k < 2 ^ 32) : (serializedLayout samples r c k).WellFormed := by
  refine ⟨by simp [serializedLayout, charCodes, le32], by simp [serializedLayout],
    by simp [serializedLayout], hc, hr, by simp [serializedLayout, le32, le16],
    by simp [serializedLayout, WavLayout.fmtBody, le32, le16], ?_, ?_⟩
  · simp only [serializedLayout, List.length_take]; omega
  · intro s hs'
    exact hs s (List.mem_of_mem_take hs')

/-- Parsing what `pcm16ToWavBytes` wrote, whatever the number of samples: the data
size field holds `2n mod 2^32`, so that many bytes of samples come back. -/
theorem parsePcm16Wav_pcm16ToWavBytes (samples : List Int) (r c : Nat)
    (hs : ∀ s ∈ samples, IsInt16 s) (hr : r < 2 ^ 32) (hc : c < 2 ^ 16) :
    parsePcm16Wav (pcm16ToWavBytes samples r c)
      = .ok (if c > 1 then downmix (samples.take (2 * samples.length % 2 ^ 32 / 2)) c
             else samples.take (2 * samples.length % 2 ^ 32 / 2), r) := by
  have hk : 2 * samples.length % 2 ^ 32 / 2 ≤ samples.length := by omega
  have h2 : 2 * (2 * samples.length % 2 ^ 32 / 2) = 2 * samples.length % 2 ^ 32 := by omega
  rw [← serializedLayout_packed samples r c _ hk h2,
    parsePcm16Wav_layout _ (serializedLayout_wellFormed samples r c _ hs hr hc hk (by omega))]
  rfl

/-- C1 (amended): a sequence of fewer than 2^31 16-bit samples survives
`parsePcm16Wav(pcm16ToWavBytes(samples, sampleRate, 1))` unchanged, together with
the sample rate, for every sample rate that fits the 32-bit header field. -/
theorem wav_round_trip (samples : List Int) (sampleRate : Nat)
    (hs : ∀ s ∈ samples, IsInt16 s) (hr : sampleRate < 2 ^ 32) (hn : samples.length < 2 ^ 31) :
    parsePcm16Wav (pcm16ToWavBytes samples sampleRate 1) = .ok (samples, sampleRate) := by
  rw [parsePcm16Wav_pcm16ToWavBytes samples sampleRate 1 hs hr (by norm_num)]
  have : 2 * samples.length % 2 ^ 32 / 2 = samples.length := by omega
  rw [this, List.take_length]
  rfl

theorem wav_round_trip_witness :
    parsePcm16Wav (pcm16ToWavBytes [0, 1, -1, 32767, -32768] 44100 1)
      = .ok ([0, 1, -1, 32767, -32768], 44100) :=
  wav_round_trip [0, 1, -1, 32767, -32768] 44100 (by decide) (by decide) (by decide)

/-- When the sample count is a positive multiple of 2^31 the size field reads 0. -/
theorem parse_wrapped_size (n : Nat) (hn : 2 * n % 2 ^ 32 / 2 = 0) (hpos : 0 < n) :
    (∀ s ∈ List.replicate n (0 : Int), IsInt16 s) ∧
      parsePcm16Wav (pcm16ToWavBytes (List.replicate n 0) 44100 1) = .ok ([], 44100) ∧
      parsePcm16Wav (pcm16ToWavBytes (List.replicate n 0) 44100 1)
        ≠ .ok (List.replicate n 0, 44100) := by
  have hs : ∀ s ∈ List.replicate n (0 : Int), IsInt16 s := by
    intro s h
    rw [List.eq_of_mem_replicate h]
    decide
  have hp := parsePcm16Wav_pcm16ToWavBytes (List.replicate n 0) 44100 1 hs
    (by norm_num) (by norm_num)
  rw [List.length_replicate, hn] at hp
  simp only [List.take_zero] at hp
  have hp' : parsePcm16Wav (pcm16ToWavBytes (List.replicate n 0) 44100 1) = .ok ([], 44100) := by
    rw [hp]; rfl
  refine ⟨hs, hp', ?_⟩
  rw [hp']
  intro h
  injection h with h
  injection h with h _
  have := congrArg List.length h
  rw [List.length_replicate] at this
  simp at this
  omega

/-- C1 as stated fails: 2^31 zero samples are 16-bit samples and 44100 fits the
header field, but the data size 2^32 is written as 0 and no sample comes back. -/
theorem wav_round_trip_counterexample :
    (∀ s ∈ List.replicate (2 ^ 31) (0 : Int), IsInt16 s) ∧
      parsePcm16Wav (pcm16ToWavBytes (List.replicate (2 ^ 31) 0) 44100 1) = .ok ([], 44100) ∧
      parsePcm16Wav (pcm16ToWavBytes (List.replicate (2 ^ 31) 0) 44100 1)
        ≠ .ok (List.replicate (2 ^ 31) 0, 44100) :=
  parse_wrapped_size (2 ^ 31) (by norm_num) (by norm_num)
theorem flatMap_int16Bytes_length (d : List Int) :
    (d.flatMap int16Bytes).length = 2 * d.length := by
  induction d with
  | nil => rfl
  | cons s d ih => simp [int16Bytes, le16] at ih ⊢; omega

theorem wavHeader_length (n r c : Nat) : (wavHeader n r c).length = 44 := by
  simp [wavHeader, charCodes, le32, le16]

theorem getD_header (n r c : Nat) (rest : Bytes) (k : Nat) (hk : k < 44) :
    (wavHeader n r c ++ rest).getD k 0 = (wavHeader n r c).getD k 0 := by
  simp only [List.getD_eq_getElem?_getD]
  rw [List.getElem?_append_left (by rw [wavHeader_length]; exact hk)]

/-- C3 (amended): `pcm16ToWavBytes` returns 44 + 2n bytes (each below 256):
"RIFF", 36 + 2n, "WAVE", "fmt ", 16, 1, c, r, the byte rate r*c*2 reduced modulo
2^32, the block align c*2 reduced modulo 2^16, 16, "data", 2n, all little-endian,
then sample i at bytes 44+2i, 45+2i as little-endian two's complement. -/
theorem pcm16ToWavBytes_layout (samples : List Int) (r c : Nat)
    (hs : ∀ s ∈ samples, IsInt16 s) (hn : 36 + 2 * samples.length < 2 ^ 32)
    (hr : r < 2 ^ 32) (hc : c < 2 ^ 16) :
    (pcm16ToWavBytes samples r c).length = 44 + 2 * samples.length
    ∧ (∀ x ∈ pcm16ToWavBytes samples r c, x < 256)
    ∧ idAt (pcm16ToWavBytes samples r c) 0 = charCodes "RIFF"
    ∧ u32At (pcm16ToWavBytes samples r c) 4 = 36 + 2 * samples.length
    ∧ idAt (pcm16ToWavBytes samples r c) 8 = charCodes "WAVE"
    ∧ idAt (pcm16ToWavBytes samples r c) 12 = charCodes "fmt "
    ∧ u32At (pcm16ToWavBytes samples r c) 16 = 16
    ∧ u16At (pcm16ToWavBytes samples r c) 20 = 1
    ∧ u16At (pcm16ToWavBytes samples r c) 22 = c
    ∧ u32At (pcm16ToWavBytes samples r c) 24 = r
    ∧ u32At (pcm16ToWavBytes samples r c) 28 = r * c * 2 % 2 ^ 32
    ∧ u16At (pcm16ToWavBytes samples r c) 32 = c * 2 % 2 ^ 16
    ∧ u16At (pcm16ToWavBytes samples r c) 34 = 16
    ∧ idAt (pcm16ToWavBytes samples r c) 36 = charCodes "data"
    ∧ u32At (pcm16ToWavBytes samples r c) 40 = 2 * samples.length
    ∧ ∀ i (hi : i < samples.length),
        u16At (pcm16ToWavBytes samples r c) (44 + 2 * i) = (samples[i] % 65536).toNat
        ∧ getInt16 (pcm16ToWavBytes samples r c) (44 + 2 * i) = .ok samples[i] := by
  rw [pcm16ToWavBytes_eq]
  have hmul : r * (c * 2) = r * c * 2 := by ring
  refine ⟨?len, ?bytes, ?_, ?_, ?_, ?_, ?_, ?_, ?_, ?_, ?_, ?_, ?_, ?_, ?_, ?smp⟩
  case len => rw [List.length_append, wavHeader_length, flatMap_int16Bytes_length]
  case bytes =>
    intro x hx
    rcases List.mem_append.mp hx with h | h
    · simp [wavHeader, charCodes, le32, le16] at h
      omega
    · obtain ⟨s, _, hx'⟩ := List.mem_flatMap.mp h
      simp [int16Bytes, le16] at hx'
      omega
  case smp =>
    intro i hi
    have hsplit : samples = samples.take i ++ (samples[i] :: samples.drop (i + 1)) := by
      rw [List.getElem_cons_drop, List.take_append_drop]
    have hdata : wavHeader samples.length r c ++ samples.flatMap int16Bytes
        = (wavHeader samples.length r c ++ (samples.take i).flatMap int16Bytes)
          ++ (int16Bytes samples[i] ++ (samples.drop (i + 1)).flatMap int16Bytes) := by
      have hfm : samples.flatMap int16Bytes = (samples.take i).flatMap int16Bytes
          ++ (int16Bytes samples[i] ++ (samples.drop (i + 1)).flatMap int16Bytes) := by
        conv_lhs => rw [hsplit]
        simp only [List.flatMap_append, List.flatMap_cons]
      rw [hfm, List.append_assoc]
    have hpre : (wavHeader samples.length r c ++ (samples.take i).flatMap int16Bytes).length
        = 44 + 2 * i := by
      rw [List.length_append, wavHeader_length, flatMap_int16Bytes_length, List.length_take]
      omega
    have hsi : IsInt16 samples[i] := hs _ (List.getElem_mem hi)
    rw [hdata, ← hpre]
    refine ⟨?_, getInt16_int16Bytes _ _ _ hsi⟩
    have := u16At_append_at (wavHeader samples.length r c ++ (samples.take i).flatMap int16Bytes)
      (int16Bytes samples[i] ++ (samples.drop (i + 1)).flatMap int16Bytes) 0
    simp only [Nat.add_zero] at this
    rw [this]
    simp only [u16At, int16Bytes, le16, List.cons_append, List.getD_cons_zero,
      List.getD_cons_succ, List.nil_append]
    omega
  all_goals
    simp only [idAt, u16At, u32At, getD_header, Nat.reduceLT, Nat.reduceAdd]
    simp [wavHeader, charCodes, le32, le16]
    try omega

/-- C3 as stated fails for the byte rate: sample rate 2^31 and one channel both
fit their fields, yet bytes 28-31 are all zero and not r*c*2 = 2^32. -/
theorem pcm16ToWavBytes_layout_counterexample :
    2 ^ 31 < 2 ^ 32 ∧ 1 < 2 ^ 16 ∧ 36 + 2 * ([] : List Int).length < 2 ^ 32 ∧
      ((pcm16ToWavBytes [] (2 ^ 31) 1).drop 28).take 4 = [0, 0, 0, 0] ∧
      u32At (pcm16ToWavBytes [] (2 ^ 31) 1) 28 ≠ 2 ^ 31 * 1 * 2 := by
  decide

theorem pcm16ToWavBytes_layout_witness :
    u32At (pcm16ToWavBytes [1, -2] 44100 1) 28 = 44100 * 1 * 2 % 2 ^ 32
      ∧ u16At (pcm16ToWavBytes [1, -2] 44100 1) 32 = 1 * 2 % 2 ^ 16 :=
  have h := pcm16ToWavBytes_layout [1, -2] 44100 1 (by decide) (by decide) (by decide)
    (by decide)
  ⟨h.2.2.2.2.2.2.2.2.2.2.1, h.2.2.2.2.2.2.2.2.2.2.2.1⟩
/-- C4 (amended): when the scan meets, before any `data` chunk, a `fmt ` chunk whose
16 header bytes lie inside the input and whose format tag is not 1 or whose
bits-per-sample field is not 16, `parsePcm16Wav` fails with the unsupported-format
error and returns no samples. -/
theorem parsePcm16Wav_unsupported (buf : Bytes) (p : Nat)
    (hp : p ∈ scanOffsets buf (buf.length + 1) 12) (hid : idAt buf p = charCodes "fmt ")
    (hb : p + 24 ≤ buf.length) (hbad : u16At buf (p + 8) ≠ 1 ∨ u16At buf (p + 22) ≠ 16) :
    parsePcm16Wav buf = .error .unsupportedFormat
      ∧ WavError.unsupportedFormat.message = "Only PCM16 WAV supported" := by
  refine ⟨?_, rfl⟩
  unfold parsePcm16Wav
  rw [scanChunks_bad_fmt buf p hid hb hbad (buf.length + 1) 12 {} (by omega) (by omega) hp]
  rfl

theorem parsePcm16Wav_unsupported_witness :
    parsePcm16Wav floatFmtOnly = .error .unsupportedFormat
      ∧ WavError.unsupportedFormat.message = "Only PCM16 WAV supported" :=
  parsePcm16Wav_unsupported floatFmtOnly 12 (by decide) (by decide) (by decide) (by decide)

/-- C4 as stated fails: the container holds a `fmt ` chunk at offset 20 whose format
tag is 3 and whose bit depth is 32, but the scan stops at the `data` chunk before
it and `parsePcm16Wav` returns an empty sample array at the default rate. -/
theorem parsePcm16Wav_unsupported_counterexample :
    20 ∈ allChunkOffsets dataBeforeFloatFmt (dataBeforeFloatFmt.length + 1) 12
      ∧ idAt dataBeforeFloatFmt 20 = charCodes "fmt "
      ∧ u16At dataBeforeFloatFmt 28 = 3 ∧ u16At dataBeforeFloatFmt 42 = 32
      ∧ parsePcm16Wav dataBeforeFloatFmt = .ok ([], 44100) := by
  decide

/-- C5 (amended): if the input is shorter than 20 bytes, or the chunk scan from
offset 12 reaches the end of the bytes without meeting a `data` chunk and every
`fmt ` chunk it meets lies inside the input and declares PCM with 16 bits, then
`parsePcm16Wav` terminates and fails with the data-chunk-not-found error. -/
theorem parsePcm16Wav_no_data (buf : Bytes)
    (h : buf.length < 20 ∨
      ((∀ p ∈ scanOffsets buf (buf.length + 1) 12, idAt buf p ≠ charCodes "data") ∧
       (∀ p ∈ scanOffsets buf (buf.length + 1) 12, idAt buf p = charCodes "fmt " →
          p + 24 ≤ buf.length ∧ u16At buf (p + 8) = 1 ∧ u16At buf (p + 22) = 16))) :
    parsePcm16Wav buf = .error .dataChunkNotFound
      ∧ WavError.dataChunkNotFound.message = "WAV data chunk not found" := by
  refine ⟨?_, rfl⟩
  have hmain : (∀ p ∈ scanOffsets buf (buf.length + 1) 12, idAt buf p ≠ charCodes "data") ∧
       (∀ p ∈ scanOffsets buf (buf.length + 1) 12, idAt buf p = charCodes "fmt " →
          p + 24 ≤ buf.length ∧ u16At buf (p + 8) = 1 ∧ u16At buf (p + 22) = 16) := by
    rcases h with h | h
    · have : scanOffsets buf (buf.length + 1) 12 = [] := by
        rw [scanOffsets, if_neg (by omega)]
      rw [this]
      simp
    · exact h
  obtain ⟨st, hst, hoff⟩ := scanChunks_no_data buf (buf.length + 1) 12 {} (by omega) (by omega)
    hmain.1 hmain.2
  unfold parsePcm16Wav
  rw [hst]
  have hneg : st.dataOffset < 0 := by rw [hoff]; decide
  simp only [bind, Except.bind, if_pos hneg]

theorem parsePcm16Wav_no_data_witness :
    parsePcm16Wav (charCodes "RIFF" ++ le32 28 ++ charCodes "WAVE" ++ charCodes "LIST"
        ++ le32 4 ++ [1, 2, 3, 4] ++ charCodes "fmt " ++ le32 16
        ++ le16 1 ++ le16 1 ++ le32 44100 ++ le32 88200 ++ le16 2 ++ le16 16)
        = .error .dataChunkNotFound
      ∧ WavError.dataChunkNotFound.message = "WAV data chunk not found" :=
  parsePcm16Wav_no_data _ (Or.inr (by decide))

/-- C5 as stated fails: the scan of this input reaches its end without meeting a
`data` chunk, yet the error is the unsupported-format one, thrown at the float
`fmt ` chunk. -/
theorem parsePcm16Wav_no_data_counterexample :
    (∀ p ∈ scanOffsets floatFmtOnly (floatFmtOnly.length + 1) 12,
        idAt floatFmtOnly p ≠ charCodes "data")
      ∧ (∀ p ∈ allChunkOffsets floatFmtOnly (floatFmtOnly.length + 1) 12,
        idAt floatFmtOnly p ≠ charCodes "data")
      ∧ parsePcm16Wav floatFmtOnly = .error .unsupportedFormat
      ∧ parsePcm16Wav floatFmtOnly ≠ .error .dataChunkNotFound := by
  decide

theorem riffPad_even (n : Nat) (h : n % 2 = 0) : riffPad n = [] := by
  unfold riffPad
  rw [if_neg (by omega)]

theorem flatMap_encode_even (cs : List Chunk) (h : ∀ c ∈ cs, c.body.length % 2 = 0) :
    cs.flatMap Chunk.encode = cs.flatMap Chunk.packed := by
  induction cs with
  | nil => rfl
  | cons c cs ih =>
    rw [List.flatMap_cons, List.flatMap_cons, ih (fun d hd => h d (List.mem_cons_of_mem _ hd)),
      Chunk.encode, riffPad_even _ (h c (List.mem_cons_self _ _)), List.append_nil]

/-- Without a chunk of odd size in front of the samples the RIFF file has no pad
byte there: its chunks lie end to end. -/
theorem bytes_eq_packed (w : WavLayout) (h : w.NoPadByte) : w.bytes = w.packed := by
  obtain ⟨h1, h2, h3⟩ := h
  unfold WavLayout.bytes WavLayout.packed
  rw [flatMap_encode_even _ h1, flatMap_encode_even _ h3, riffPad_even _ h2, List.append_nil]

/-- C6 (amended): on a well-formed PCM16 RIFF container in which no chunk before
the samples has odd size (so that no pad byte precedes the `data` chunk), whose
`fmt ` chunk declares N channels and whose `data` chunk holds the m samples d,
`parsePcm16Wav` returns the header's sample rate and, for N > 1, exactly floor(m/N)
samples with out[i] = d[i*N]; for N = 1 it returns d unchanged. -/
theorem parsePcm16Wav_downmix (w : WavLayout) (hw : w.WellFormed) (he : w.NoPadByte) :
    ∃ out, parsePcm16Wav w.bytes = .ok (out, w.sampleRate)
      ∧ (1 < w.channels → out.length = w.samples.length / w.channels
          ∧ ∀ i, i < w.samples.length / w.channels →
              i * w.channels < w.samples.length ∧ out[i]? = w.samples[i * w.channels]?)
      ∧ (w.channels = 1 → out = w.samples) := by
  rw [bytes_eq_packed w he]
  refine ⟨_, parsePcm16Wav_layout w hw, ?_, ?_⟩
  · intro hN
    rw [if_pos hN]
    exact ⟨downmix_length _ _, fun i hi => downmix_getElem? _ _ i (by omega) hi⟩
  · intro h1
    rw [if_neg (by omega)]

theorem parsePcm16Wav_downmix_witness :
    ∃ out, parsePcm16Wav stereoExample.bytes = .ok (out, stereoExample.sampleRate)
      ∧ (1 < stereoExample.channels →
          out.length = stereoExample.samples.length / stereoExample.channels
          ∧ ∀ i, i < stereoExample.samples.length / stereoExample.channels →
              i * stereoExample.channels < stereoExample.samples.length
              ∧ out[i]? = stereoExample.samples[i * stereoExample.channels]?)
      ∧ (stereoExample.channels = 1 → out = stereoExample.samples) :=
  parsePcm16Wav_downmix stereoExample (by decide) (by decide)

/-- C6 as stated fails: the 66-byte stereo container has a 3-byte `LIST` chunk at
offset 12 followed by its pad byte, then `fmt ` at offset 24 and `data` at offset 48
with five samples. The scan advances by 8 + 3 from offset 12 to the pad byte at 23,
reads a chunk size of 4128 there and leaves the file, and `parsePcm16Wav` fails with
the data-chunk-not-found error instead of returning the samples 10 and 30. -/
theorem parsePcm16Wav_downmix_counterexample :
    paddedStereoExample.WellFormed ∧ paddedStereoExample.channels = 2
      ∧ paddedStereoExample.samples = [10, -20, 30, -40, 50]
      ∧ paddedStereoExample.bytes.length = 66
      ∧ idAt paddedStereoExample.bytes 12 = charCodes "LIST"
      ∧ u32At paddedStereoExample.bytes 16 = 3
      ∧ idAt paddedStereoExample.bytes 24 = charCodes "fmt "
      ∧ idAt paddedStereoExample.bytes 48 = charCodes "data"
      ∧ scanOffsets paddedStereoExample.bytes (paddedStereoExample.bytes.length + 1) 12 = [12, 23]
      ∧ u32At paddedStereoExample.bytes 27 = 4128
      ∧ parsePcm16Wav paddedStereoExample.bytes = .error .dataChunkNotFound := by
  decide

theorem setBitCount_parity (v : Nat) (hv : v < 128) :
    setBitCount v % 2
      = (v % 2 + v / 2 % 2 + v / 4 % 2 + v / 8 % 2 + v / 16 % 2 + v / 32 % 2 + v / 64 % 2) % 2 := by
  unfold setBitCount
  interval_cases v <;> norm_num

theorem visBit_eq (v i : Nat) : (v >>> i) &&& 1 = v / 2 ^ i % 2 := by
  rw [Nat.and_one_is_mod, Nat.shiftRight_eq_div_pow]

theorem xor_bit (p b : Nat) (hp : p < 2) (hb : b < 2) : p ^^^ b = (p + b) % 2 := by
  interval_cases p <;> interval_cases b <;> rfl

/-- The bit loop of `appendVisCode` emits one tone per bit, in increasing bit order,
and accumulates the parity of the bits it has seen. -/
theorem visBitLoop_spec {σ : Type} (tone : σ → ℚ → ℚ → σ) (v : Nat) :
    ∀ (todo i parity : Nat) (s : σ), parity < 2 →
      visBitLoop tone v todo i parity s
        = ((List.range' i todo).foldl
              (fun acc j => tone acc (if v.testBit j then 1100 else 1300) 30) s,
            (parity + ((List.range' i todo).map fun j => v / 2 ^ j % 2).sum) % 2) := by
  intro todo
  induction todo with
  | zero =>
    intro i parity s hp
    simp [visBitLoop, Nat.mod_eq_of_lt hp]
  | succ todo ih =>
    intro i parity s hp
    have hb : v / 2 ^ i % 2 < 2 := Nat.mod_lt _ (by norm_num)
    have hx := xor_bit parity (v / 2 ^ i % 2) hp hb
    have hbit : ((v >>> i) &&& 1 ≠ 0) = (v.testBit i = true) := by
      rw [visBit_eq, Nat.testBit_to_div_mod]
      simp
    rw [visBitLoop]
    simp only [visBit_eq] at hbit ⊢
    rw [hx, ih (i + 1) _ _ (Nat.mod_lt _ (by norm_num))]
    simp only [List.range'_succ, List.foldl_cons, List.map_cons, List.sum_cons]
    congr 1
    · congr 1
      congr 1
      by_cases h : v / 2 ^ i % 2 = 0
      · have : v.testBit i = false := by
          rw [Nat.testBit_to_div_mod]; simp [h]
        simp [h, this]
      · have : v.testBit i = true := by
          rw [Nat.testBit_to_div_mod]; simp; omega
        simp [h, this]
    · omega

theorem range7_sum (v : Nat) : ((List.range' 0 7).map fun j => v / 2 ^ j % 2).sum
    = v % 2 + v / 2 % 2 + v / 4 % 2 + v / 8 % 2 + v / 16 % 2 + v / 32 % 2 + v / 64 % 2 := by
  have hr : List.range' 0 7 = [0, 1, 2, 3, 4, 5, 6] := by rfl
  rw [hr]
  simp only [List.map_cons, List.map_nil, List.sum_cons, List.sum_nil]
  norm_num
  omega

/-- The calls of `appendTone` made by `appendVisCode`, as a fold over `visTones`. -/
theorem appendVisCode_eq_foldl {σ : Type} (tone : σ → ℚ → ℚ → σ) (s : σ) (v : Nat)
    (hv : v < 128) :
    appendVisCode tone s v = (visTones v).foldl (fun acc t => tone acc t.1 t.2) s := by
  have hloop := visBitLoop_spec tone v 7 0 0 (tone s 1200 30) (by norm_num)
  rw [range7_sum, Nat.zero_add, ← setBitCount_parity v hv] at hloop
  have hr : List.range' 0 7 = List.range 7 := by rfl
  rw [hr] at hloop
  unfold appendVisCode
  simp only [hloop]
  unfold visTones
  rw [List.foldl_append, List.foldl_append, List.foldl_map]
  simp only [List.foldl_cons, List.foldl_nil]
  have hpar : (setBitCount v % 2 ≠ 0) = (setBitCount v % 2 = 1) := by
    apply propext
    omega
  simp only [hpar]

theorem visTones_length (v : Nat) : (visTones v).length = 10 := by
  simp only [visTones, List.length_append, List.length_map, List.length_range,
    List.length_cons, List.length_nil]

theorem visTones_ms (v : Nat) : ∀ t ∈ visTones v, t.2 = 30 := by
  intro t ht
  unfold visTones at ht
  rcases List.mem_append.mp ht with h | h
  · rcases List.mem_append.mp h with h | h
    · rw [List.mem_singleton.mp h]
    · obtain ⟨a, _, ha⟩ := List.mem_map.mp h
      rw [← ha]
  · rcases List.mem_cons.mp h with h | h
    · rw [h]
    · rw [List.mem_singleton.mp h]

/-- C8: for every 7-bit VIS code v, appendVisCode calls appendTone exactly ten
times, each for 30 ms, in this order: 1200 Hz start, one tone per data bit 0..6 in
increasing bit order (1100 Hz for a set bit, 1300 Hz for a clear one), the parity
tone (1100 Hz iff the number of set bits of v is odd), 1200 Hz stop. -/
theorem appendVisCode_tones {σ : Type} (tone : σ → ℚ → ℚ → σ) (s : σ) (v : Nat) (hv : v < 128) :
    appendVisCode tone s v = (visTones v).foldl (fun acc t => tone acc t.1 t.2) s
      ∧ (visTones v).length = 10 ∧ ∀ t ∈ visTones v, t.2 = 30 :=
  ⟨appendVisCode_eq_foldl tone s v hv, visTones_length v, visTones_ms v⟩

theorem appendVisCode_tones_witness :
    appendVisCode (fun (l : List (ℚ × ℚ)) f ms => l ++ [(f, ms)]) [] 0x08
        = (visTones 0x08).foldl (fun acc t => acc ++ [(t.1, t.2)]) []
      ∧ (visTones 0x08).length = 10 ∧ ∀ t ∈ visTones 0x08, t.2 = 30 :=
  appendVisCode_tones (fun (l : List (ℚ × ℚ)) f ms => l ++ [(f, ms)]) [] 0x08 (by decide)
theorem toneLoop_length (m : MathOps ℚ) (freq : ℚ) :
    ∀ (count : Nat) (s : Synth), (toneLoop m freq count s).samples.length
      = s.samples.length + count := by
  intro count
  induction count with
  | zero => intro s; rfl
  | succ n ih =>
    intro s
    rw [toneLoop, ih]
    simp only [pushSample, List.length_append, List.length_singleton]
    omega

theorem appendTone_length (m : MathOps ℚ) (s : Synth) (freq ms : ℚ) :
    (appendTone m s freq ms).samples.length
      = s.samples.length + (jsFloor (ms / 1000 * SAMPLE_RATE)).toNat := by
  simp only [appendTone, toneLoop_length]

theorem scanlineLoop_length (m : MathOps ℚ) (line : List ℚ) (count : Nat) :
    ∀ (todo i : Nat) (s : Synth), (scanlineLoop m line count todo i s).samples.length
      = s.samples.length + todo := by
  intro todo
  induction todo with
  | zero => intro i s; rfl
  | succ n ih =>
    intro i s
    rw [scanlineLoop, ih]
    simp only [pushSample, List.length_append, List.length_singleton]
    omega

theorem appendScanline_length (m : MathOps ℚ) (s : Synth) (line : List ℚ) (ms : ℚ) :
    (appendScanline m s line ms).samples.length
      = s.samples.length + (jsFloor (ms / 1000 * SAMPLE_RATE)).toNat := by
  simp only [appendScanline, scanlineLoop_length]

theorem count_hsync : (jsFloor (HSYNC_MS / 1000 * SAMPLE_RATE)).toNat = 396 := by
  have : jsFloor (HSYNC_MS / 1000 * SAMPLE_RATE) = 396 := by
    unfold jsFloor HSYNC_MS SAMPLE_RATE
    rw [Int.floor_eq_iff]
    norm_num
  rw [this]; rfl

theorem count_porch : (jsFloor (PORCH_MS / 1000 * SAMPLE_RATE)).toNat = 132 := by
  have : jsFloor (PORCH_MS / 1000 * SAMPLE_RATE) = 132 := by
    unfold jsFloor PORCH_MS SAMPLE_RATE
    rw [Int.floor_eq_iff]
    norm_num
  rw [this]; rfl

theorem count_y : (jsFloor (Y_MS / 1000 * SAMPLE_RATE)).toNat = 3883 := by
  have : jsFloor (Y_MS / 1000 * SAMPLE_RATE) = 3883 := by
    unfold jsFloor Y_MS SAMPLE_RATE
    rw [Int.floor_eq_iff]
    norm_num
  rw [this]; rfl

theorem count_uv : (jsFloor (UV_MS / 1000 * SAMPLE_RATE)).toNat = 1941 := by
  have : jsFloor (UV_MS / 1000 * SAMPLE_RATE) = 1941 := by
    unfold jsFloor UV_MS SAMPLE_RATE
    rw [Int.floor_eq_iff]
    norm_num
  rw [this]; rfl

theorem count_sep_low : (jsFloor ((4.5 : ℚ) / 1000 * SAMPLE_RATE)).toNat = 198 := by
  have : jsFloor ((4.5 : ℚ) / 1000 * SAMPLE_RATE) = 198 := by
    unfold jsFloor SAMPLE_RATE
    rw [Int.floor_eq_iff]
    norm_num
  rw [this]; rfl

theorem count_sep_high : (jsFloor ((1.5 : ℚ) / 1000 * SAMPLE_RATE)).toNat = 66 := by
  have : jsFloor ((1.5 : ℚ) / 1000 * SAMPLE_RATE) = 66 := by
    unfold jsFloor SAMPLE_RATE
    rw [Int.floor_eq_iff]
    norm_num
  rw [this]; rfl

theorem count_ms (ms : ℚ) (n : Nat) (h : ms * 441 = n * 10) :
    (jsFloor (ms / 1000 * SAMPLE_RATE)).toNat = n := by
  have : jsFloor (ms / 1000 * SAMPLE_RATE) = (n : Int) := by
    unfold jsFloor SAMPLE_RATE
    rw [Int.floor_eq_iff]
    have : ms / 1000 * 44100 = (n : ℚ) := by linarith
    rw [this]
    push_cast
    constructor <;> linarith
  rw [this]; rfl

/-- One pass of the image loop pushes 396 + 132 + 3883 + 198 + 66 + 1941 samples. -/
theorem encodeLine_length (m : MathOps ℚ) (p : YuvPlanes) (s : Synth) (line : Nat) :
    (encodeLine m p s line).samples.length = s.samples.length + 6616 := by
  unfold encodeLine
  simp only []
  split_ifs <;>
    simp only [appendScanline_length, appendTone_length, count_hsync, count_porch, count_y,
      count_uv, count_sep_low, count_sep_high]
theorem foldl_appendTone_length (m : MathOps ℚ) (tones : List (ℚ × ℚ)) (n : Nat)
    (h : ∀ t ∈ tones, (jsFloor (t.2 / 1000 * SAMPLE_RATE)).toNat = n) :
    ∀ s : Synth, (tones.foldl (fun acc t => appendTone m acc t.1 t.2) s).samples.length
      = s.samples.length + tones.length * n := by
  induction tones with
  | nil => intro s; simp
  | cons t ts ih =>
    intro s
    rw [List.foldl_cons, ih (fun x hx => h x (List.mem_cons_of_mem _ hx)), appendTone_length,
      h t (List.mem_cons_self _ _), List.length_cons]
    ring

theorem foldl_encodeLine_length (m : MathOps ℚ) (p : YuvPlanes) (lines : List Nat) :
    ∀ s : Synth, (lines.foldl (encodeLine m p) s).samples.length
      = s.samples.length + lines.length * 6616 := by
  induction lines with
  | nil => intro s; simp
  | cons l ls ih =>
    intro s
    rw [List.foldl_cons, ih, encodeLine_length, List.length_cons]
    ring

/-- The number of samples pushed by `generateRobot36Pcm`: the header, then 6616
for each line. -/
theorem synthesize_length (m : MathOps ℚ) (p : YuvPlanes) :
    (synthesize m p).samples.length = 40131 + p.height * 6616 := by
  unfold synthesize
  simp only []
  rw [foldl_encodeLine_length, List.length_range, appendVisCode_eq_foldl _ _ _ (by norm_num),
    foldl_appendTone_length m (visTones 8) 1323
      (fun t ht => by rw [visTones_ms 8 t ht]; exact count_ms 30 1323 (by norm_num)),
    visTones_length, appendTone_length, appendTone_length, appendTone_length,
    count_ms 300 13230 (by norm_num), count_ms 10 441 (by norm_num)]
  rfl

theorem generateRobot36Pcm_length (m : MathOps ℚ) (p : YuvPlanes) :
    (generateRobot36Pcm m p).length = 40131 + p.height * 6616 := by
  rw [generateRobot36Pcm, List.length_map, synthesize_length]

/-- C9 fails on the code: for every 320x240 input generateRobot36Pcm produces
1627971 samples, while the protocol duration 910 + 240 x 150.096 ms is 1628747
samples to the nearest sample. The encoder truncates every tone segment to whole
samples on its own, floor(ms/1000 * 44100): 13230 + 441 + 13230 and ten VIS tones
of 1323 for the header (40131, exact), and 396 + 132 + 3883 + 198 + 66 + 1941 = 6616
for each line; decoder.js converts the same durations by rounding (397 for the
sync tone, 3884 for the luma scan, 6619 for the line). -/
theorem encoded_sample_count (m : MathOps ℚ) (p : YuvPlanes) (_hw : p.width = 320)
    (hh : p.height = 240) :
    (generateRobot36Pcm m p).length = 1627971
      ∧ jsRound (((910 : ℚ) + 240 * (9 + 3 + 88.064 + 4.5 + 1.5 + 44.032)) / 1000 * 44100)
          = 1628747
      ∧ 1627971 = (13230 + 441 + 13230 + 10 * 1323) + 240 * (396 + 132 + 3883 + 198 + 66 + 1941)
      ∧ jsFloor (300 / 1000 * SAMPLE_RATE) = 13230 ∧ jsFloor (10 / 1000 * SAMPLE_RATE) = 441
      ∧ jsFloor (30 / 1000 * SAMPLE_RATE) = 1323
      ∧ jsFloor (HSYNC_MS / 1000 * SAMPLE_RATE) = 396 ∧ jsFloor (PORCH_MS / 1000 * SAMPLE_RATE) = 132
      ∧ jsFloor (Y_MS / 1000 * SAMPLE_RATE) = 3883 ∧ jsFloor (4.5 / 1000 * SAMPLE_RATE) = 198
      ∧ jsFloor (1.5 / 1000 * SAMPLE_RATE) = 66 ∧ jsFloor (UV_MS / 1000 * SAMPLE_RATE) = 1941
      ∧ HSYNC_SAMPLES = 397 ∧ Y_SCAN_SAMPLES = 3884 ∧ LINE_SAMPLES = 6619 := by
  have fl : ∀ (x : ℚ) (n : Int), (n : ℚ) ≤ x / 1000 * SAMPLE_RATE →
      x / 1000 * SAMPLE_RATE < n + 1 → jsFloor (x / 1000 * SAMPLE_RATE) = n := by
    intro x n h1 h2
    unfold jsFloor
    rw [Int.floor_eq_iff]
    exact ⟨h1, h2⟩
  have hr : jsRound (((910 : ℚ) + 240 * (9 + 3 + 88.064 + 4.5 + 1.5 + 44.032)) / 1000 * 44100)
      = 1628747 := by
    unfold jsRound
    rw [Int.floor_eq_iff]
    norm_num
  refine ⟨by rw [generateRobot36Pcm_length, hh], hr, by norm_num, ?_, ?_, ?_, ?_, ?_, ?_, ?_, ?_,
    ?_, by with_unfolding_all decide, by with_unfolding_all decide, by with_unfolding_all decide⟩
  all_goals
    apply fl <;> simp only [SAMPLE_RATE, HSYNC_MS, PORCH_MS, Y_MS, UV_MS] <;> norm_num

theorem encoded_sample_count_witness :
    (generateRobot36Pcm taylorOps (rgbBufferToYuvPlanes (uniformRaster 0) 320 240)).length
        = 1627971
      ∧ jsRound (((910 : ℚ) + 240 * (9 + 3 + 88.064 + 4.5 + 1.5 + 44.032)) / 1000 * 44100)
          = 1628747 :=
  ⟨(encoded_sample_count taylorOps (rgbBufferToYuvPlanes (uniformRaster 0) 320 240) rfl rfl).1,
    (encoded_sample_count taylorOps (rgbBufferToYuvPlanes (uniformRaster 0) 320 240) rfl rfl).2.1⟩

theorem avgLineSpacing_four (a b c d : ℚ) : avgLineSpacing [a, b, c, d] = (d - a) / 3 := by
  unfold avgLineSpacing
  have hc : min 10 [a, b, c, d].length - 1 = 3 := by
    simp only [List.length_cons, List.length_nil]; rfl
  rw [hc]
  have hr : List.range 3 = [0, 1, 2] := by rfl
  simp only [hr, List.map_cons, List.map_nil, List.sum_cons, List.sum_nil, List.getD_cons_zero,
    List.getD_cons_succ]
  push_cast
  ring

theorem refineSyncPositions_four (a b c d : ℚ) :
    refineSyncPositions [a, b, c, d] = a :: refineLoop ((d - a) / 3) a [b, c, d] := by
  unfold refineSyncPositions
  rw [if_neg (by simp only [List.length_cons, List.length_nil]; omega), avgLineSpacing_four]

/-- One step of the refinement loop when the detection is kept. -/
theorem refineLoop_keep (avg prev x : ℚ) (rest : List ℚ)
    (h : |x - (prev + avg)| < avg * 0.05) :
    refineLoop avg prev (x :: rest) = x :: refineLoop avg x rest := by
  rw [refineLoop]
  simp only [if_pos h]

/-- One step of the refinement loop when the detection is blended. -/
theorem refineLoop_blend (avg prev x : ℚ) (rest : List ℚ)
    (h1 : ¬ |x - (prev + avg)| < avg * 0.05) (h2 : |x - (prev + avg)| < avg * 0.15) :
    refineLoop avg prev (x :: rest)
      = (x * 0.9 + (prev + avg) * 0.1)
          :: refineLoop avg (x * 0.9 + (prev + avg) * 0.1) rest := by
  rw [refineLoop]
  simp only [if_neg h1, if_pos h2]

/-- One step of the refinement loop when the detection is discarded. -/
theorem refineLoop_expected (avg prev x : ℚ) (rest : List ℚ)
    (h1 : ¬ |x - (prev + avg)| < avg * 0.05) (h2 : ¬ |x - (prev + avg)| < avg * 0.15) :
    refineLoop avg prev (x :: rest) = (prev + avg) :: refineLoop avg (prev + avg) rest := by
  rw [refineLoop]
  simp only [if_neg h1, if_neg h2]

/-- Refinement of three even pulses and a fourth displaced by `e`, for any `e` with
`|e| = L / 10`. -/
theorem refine_displaced (p L e : ℚ) (hL : 0 < L) (he : |e| = L / 10) :
    refineSyncPositions [p, p + L, p + 2 * L, p + 3 * L + e]
      = [p, p + L, p + 2 * L,
          (p + 3 * L + e) * 0.9 + (p + 2 * L + (3 * L + e) / 3) * 0.1] := by
  have havg : (p + 3 * L + e - p) / 3 = (3 * L + e) / 3 := by ring
  have hle : -(L / 10) ≤ e ∧ e ≤ L / 10 := by
    rw [← he]; exact ⟨neg_abs_le e, le_abs_self e⟩
  have habs3 : |e / 3| = L / 30 := by
    rw [abs_div, he, abs_of_pos (by norm_num : (0 : ℚ) < 3)]; ring
  have habs23 : |e * 2 / 3| = L / 15 := by
    rw [abs_div, abs_mul, he, abs_of_pos (by norm_num : (0 : ℚ) < 3),
      abs_of_pos (by norm_num : (0 : ℚ) < 2)]; ring
  rw [refineSyncPositions_four, havg]
  have k1 : |p + L - (p + (3 * L + e) / 3)| < (3 * L + e) / 3 * 0.05 := by
    have : p + L - (p + (3 * L + e) / 3) = -(e / 3) := by ring
    rw [this, abs_neg, habs3]
    norm_num
    linarith [hle.1]
  have k2 : |p + 2 * L - (p + L + (3 * L + e) / 3)| < (3 * L + e) / 3 * 0.05 := by
    have : p + 2 * L - (p + L + (3 * L + e) / 3) = -(e / 3) := by ring
    rw [this, abs_neg, habs3]
    norm_num
    linarith [hle.1]
  have e3 : p + 3 * L + e - (p + 2 * L + (3 * L + e) / 3) = e * 2 / 3 := by ring
  have k3 : ¬ |p + 3 * L + e - (p + 2 * L + (3 * L + e) / 3)| < (3 * L + e) / 3 * 0.05 := by
    rw [e3, habs23]
    norm_num
    linarith [hle.2]
  have k4 : |p + 3 * L + e - (p + 2 * L + (3 * L + e) / 3)| < (3 * L + e) / 3 * 0.15 := by
    rw [e3, habs23]
    norm_num
    linarith [hle.1]
  rw [refineLoop_keep _ _ _ _ k1, refineLoop_keep _ _ _ _ k2, refineLoop_blend _ _ _ _ k3 k4]
  rfl

/-- C10: for every start p and spacing L > 0, on the raw positions p, p+L, p+2L and
a fourth pulse displaced by exactly 10% of L (either way), refineSyncPositions keeps
the first three and returns for the fourth 0.9*detected + 0.1*expected, where
expected = previous refined position + average spacing; that value lies strictly
between the detected and the expected position. -/
theorem refine_tie_break (p L e : ℚ) (hL : 0 < L) (he : e = L / 10 ∨ e = -(L / 10)) :
    refineSyncPositions [p, p + L, p + 2 * L, p + 3 * L + e]
        = [p, p + L, p + 2 * L, (p + 3 * L + e) * 0.9
            + ((p + 2 * L) + avgLineSpacing [p, p + L, p + 2 * L, p + 3 * L + e]) * 0.1]
      ∧ min (p + 3 * L + e) ((p + 2 * L) + avgLineSpacing [p, p + L, p + 2 * L, p + 3 * L + e])
          < (p + 3 * L + e) * 0.9
            + ((p + 2 * L) + avgLineSpacing [p, p + L, p + 2 * L, p + 3 * L + e]) * 0.1
      ∧ (p + 3 * L + e) * 0.9
            + ((p + 2 * L) + avgLineSpacing [p, p + L, p + 2 * L, p + 3 * L + e]) * 0.1
          < max (p + 3 * L + e)
              ((p + 2 * L) + avgLineSpacing [p, p + L, p + 2 * L, p + 3 * L + e])
      ∧ (p + 3 * L + e) * 0.9
            + ((p + 2 * L) + avgLineSpacing [p, p + L, p + 2 * L, p + 3 * L + e]) * 0.1
          ≠ p + 3 * L + e
      ∧ (p + 3 * L + e) * 0.9
            + ((p + 2 * L) + avgLineSpacing [p, p + L, p + 2 * L, p + 3 * L + e]) * 0.1
          ≠ (p + 2 * L) + avgLineSpacing [p, p + L, p + 2 * L, p + 3 * L + e] := by
  have habs : |e| = L / 10 := by
    rcases he with h | h
    · rw [h, abs_of_pos (by linarith)]
    · rw [h, abs_neg, abs_of_pos (by linarith)]
  have hexp : (p + 2 * L) + avgLineSpacing [p, p + L, p + 2 * L, p + 3 * L + e]
      = p + 2 * L + (3 * L + e) / 3 := by
    rw [avgLineSpacing_four]; ring
  rw [hexp]
  refine ⟨refine_displaced p L e hL habs, ?_, ?_, ?_, ?_⟩
  · rcases he with h | h <;> rw [h] <;> rw [min_def] <;> split_ifs <;> norm_num <;> linarith
  · rcases he with h | h <;> rw [h] <;> rw [max_def] <;> split_ifs <;> norm_num <;> linarith
  · rcases he with h | h <;> rw [h] <;> intro hc <;> norm_num at hc <;> linarith
  · rcases he with h | h <;> rw [h] <;> intro hc <;> norm_num at hc <;> linarith

theorem refine_tie_break_witness :
    refineSyncPositions [0, 6619, 13238, 19857 + 6619 / 10]
      = [0, 6619, 13238, (19857 + 6619 / 10) * 0.9
          + (13238 + avgLineSpacing [0, 6619, 13238, 19857 + 6619 / 10]) * 0.1] := by
  have h := (refine_tie_break 0 6619 (6619 / 10) (by norm_num) (Or.inl rfl)).1
  norm_num at h ⊢
  exact h
theorem getD_of_all_zero {K : Type} [Zero K] (signal : List K) (h : ∀ x ∈ signal, x = 0)
    (i : Nat) : signal.getD i 0 = 0 := by
  rw [List.getD_eq_getElem?_getD]
  cases hi : signal[i]? with
  | none => rfl
  | some x => exact h x (List.getElem?_mem hi)

theorem goertzelLoop_zero {K : Type} [LinearOrderedField K] (signal : List K)
    (h : ∀ x ∈ signal, x = 0) (start : Int) (coeff : K) :
    ∀ (todo i : Nat), goertzelLoop signal start coeff todo i (0, 0) = (0, 0) := by
  intro todo
  induction todo with
  | zero => intro i; rfl
  | succ n ih =>
    intro i
    rw [goertzelLoop]
    simp only [getD_of_all_zero signal h, mul_zero, sub_zero, add_zero]
    exact ih (i + 1)

/-- Silence has no power at any frequency. -/
theorem goertzelPower_zero {K : Type} [LinearOrderedField K] [FloorRing K] (m : MathOps K)
    (signal : List K) (h : ∀ x ∈ signal, x = 0) (start : Int) (size : Nat) (f : K) :
    goertzelPower m signal start size f = 0 := by
  unfold goertzelPower
  split_ifs
  · rfl
  · simp only [goertzelLoop_zero signal h, zero_mul, sub_zero, mul_zero, add_zero, zero_div]

theorem LINE_SAMPLES_eq : LINE_SAMPLES = 6619 := by
  unfold LINE_SAMPLES jsRound SAMPLE_RATE LINE_MS
  rw [Int.floor_eq_iff]
  norm_num

theorem HSYNC_SAMPLES_eq : HSYNC_SAMPLES = 397 := by
  unfold HSYNC_SAMPLES jsRound SAMPLE_RATE HSYNC_MS
  rw [Int.floor_eq_iff]
  norm_num

theorem PORCH_SAMPLES_eq : PORCH_SAMPLES = 132 := by
  unfold PORCH_SAMPLES jsRound SAMPLE_RATE PORCH_MS
  rw [Int.floor_eq_iff]
  norm_num

theorem Y_SCAN_SAMPLES_eq : Y_SCAN_SAMPLES = 3884 := by
  unfold Y_SCAN_SAMPLES jsRound SAMPLE_RATE Y_MS
  rw [Int.floor_eq_iff]
  norm_num

theorem skip_ahead_eq : jsFloor ((LINE_SAMPLES : ℚ) * 0.7) = 4633 := by
  rw [LINE_SAMPLES_eq]
  unfold jsFloor
  rw [Int.floor_eq_iff]
  norm_num

/-- The sync search ends for every signal: each pass moves `i` forward by at least
100, so `signal.length + 1` passes are enough. -/
theorem syncLoop_total (m : MathOps ℚ) (signal : List ℚ) (windowSize : Nat) :
    ∀ (fuel : Nat) (i lastSyncPos : Int) (positions : List ℚ), 1 ≤ fuel →
      (signal.length : Int) - windowSize - i < fuel →
      ∃ r, syncLoop m signal windowSize fuel i lastSyncPos positions = some r := by
  intro fuel
  induction fuel with
  | zero => intro i l ps h; omega
  | succ n ih =>
    intro i l ps _ h
    rw [syncLoop]
    by_cases hg : i < (signal.length : Int) - windowSize
    · rw [if_pos hg]
      have hn : 1 ≤ n := by omega
      have step := fun l ps => ih (i + 100) l ps hn (by omega)
      have jump := fun l ps => ih (i + 4633 + 100) l ps hn (by omega)
      simp only [skip_ahead_eq]
      split_ifs
      · exact step _ _
      · exact jump _ _
      · exact step _ _
      · exact step _ _
    · rw [if_neg hg]
      exact ⟨ps, rfl⟩

/-- On silence the sync search accepts no candidate. -/
theorem syncLoop_zero (m : MathOps ℚ) (signal : List ℚ) (hz : ∀ x ∈ signal, x = 0)
    (windowSize : Nat) :
    ∀ (fuel : Nat) (i lastSyncPos : Int) (positions : List ℚ), 1 ≤ fuel →
      (signal.length : Int) - windowSize - i < fuel →
      syncLoop m signal windowSize fuel i lastSyncPos positions = some positions := by
  intro fuel
  induction fuel with
  | zero => intro i l ps h; omega
  | succ n ih =>
    intro i l ps _ h
    rw [syncLoop]
    by_cases hg : i < (signal.length : Int) - windowSize
    · rw [if_pos hg]
      have hn : 1 ≤ n := by omega
      have step := ih (i + 100) l ps hn (by omega)
      have hp : ¬ (goertzelPower m signal i windowSize 1200 > 0.08) := by
        rw [goertzelPower_zero m signal hz]; norm_num
      simp only [if_neg hp]
      split_ifs
      · exact step
      · exact step
    · rw [if_neg hg]

theorem findAllSyncPulses_total (m : MathOps ℚ) (signal : List ℚ) :
    ∃ r, findAllSyncPulses m signal = some r := by
  unfold findAllSyncPulses
  obtain ⟨r, hr⟩ := syncLoop_total m signal 256 (signal.length + 1)
    (jsFloor (SAMPLE_RATE * 0.3)) (-LINE_SAMPLES) [] (by omega)
    (by
      have : jsFloor (SAMPLE_RATE * 0.3) = 13230 := by
        unfold jsFloor SAMPLE_RATE
        rw [Int.floor_eq_iff]; norm_num
      rw [this]; push_cast; omega)
  exact ⟨refineSyncPositions r, by simp only [hr, Option.map_some']⟩

theorem findAllSyncPulses_zero (m : MathOps ℚ) (signal : List ℚ) (hz : ∀ x ∈ signal, x = 0) :
    findAllSyncPulses m signal = some [] := by
  unfold findAllSyncPulses
  have h := syncLoop_zero m signal hz 256 (signal.length + 1)
    (jsFloor (SAMPLE_RATE * 0.3)) (-LINE_SAMPLES) [] (by omega)
    (by
      have : jsFloor (SAMPLE_RATE * 0.3) = 13230 := by
        unfold jsFloor SAMPLE_RATE
        rw [Int.floor_eq_iff]; norm_num
      rw [this]; push_cast; omega)
  simp only [h, Option.map_some']
  rfl
theorem pixelLoop_length (m : MathOps ℚ) (signal : List ℚ) (y : Nat) (yScanStart : ℚ) :
    ∀ (todo x : Nat) (image : List Nat),
      (pixelLoop m signal y yScanStart todo x image).length = image.length := by
  intro todo
  induction todo with
  | zero => intro x image; rfl
  | succ n ih =>
    intro x image
    rw [pixelLoop, ih, List.length_set]

theorem fixedLineLoop_length (m : MathOps ℚ) (signal : List ℚ) :
    ∀ (todo y : Nat) (pos : Int) (image : List Nat),
      (fixedLineLoop m signal todo y pos image).length = image.length := by
  intro todo
  induction todo with
  | zero => intro y pos image; rfl
  | succ n ih =>
    intro y pos image
    rw [fixedLineLoop]
    split_ifs
    · rfl
    · rw [ih, pixelLoop_length]

theorem decodeWithFixedTiming_length (m : MathOps ℚ) (signal : List ℚ) (startPos : Int) :
    (decodeWithFixedTiming m signal startPos).length = 76800 := by
  unfold decodeWithFixedTiming
  rw [fixedLineLoop_length, List.length_replicate]
  rfl

/-- The line loop of the fixed-timing decoder walks the grid `startPos + y * LINE_SAMPLES`. -/
theorem fixedLineLoop_grid (m : MathOps ℚ) (signal : List ℚ) (startPos : Int) :
    ∀ (todo y : Nat) (image : List Nat),
      fixedLineLoop m signal todo y (startPos + y * LINE_SAMPLES) image
        = ((List.range' y todo).takeWhile fun (y : Nat) =>
              decide (startPos + (y : Int) * LINE_SAMPLES + HSYNC_SAMPLES + PORCH_SAMPLES
                + Y_SCAN_SAMPLES < signal.length)).foldl
            (fun (image : List Nat) (y : Nat) =>
              pixelLoop m signal y
                ((startPos + (y : Int) * LINE_SAMPLES + HSYNC_SAMPLES + PORCH_SAMPLES : Int) : ℚ)
                WIDTH 0 image)
            image := by
  intro todo
  induction todo with
  | zero => intro y image; rfl
  | succ n ih =>
    intro y image
    rw [fixedLineLoop, List.range'_succ, List.takeWhile_cons]
    by_cases hfit : startPos + y * LINE_SAMPLES + HSYNC_SAMPLES + PORCH_SAMPLES + Y_SCAN_SAMPLES
        < signal.length
    · have hge : ¬ (startPos + y * LINE_SAMPLES + HSYNC_SAMPLES + PORCH_SAMPLES + Y_SCAN_SAMPLES
          ≥ signal.length) := by omega
      have hnext : startPos + (y : Int) * LINE_SAMPLES + LINE_SAMPLES
          = startPos + ((y + 1 : Nat) : Int) * LINE_SAMPLES := by push_cast; ring
      rw [if_neg hge, hnext, ih]
      simp only [hfit, decide_True, List.foldl_cons, if_true]
    · have hge : startPos + y * LINE_SAMPLES + HSYNC_SAMPLES + PORCH_SAMPLES + Y_SCAN_SAMPLES
          ≥ signal.length := by omega
      rw [if_pos hge]
      simp only [hfit, decide_False, List.foldl_nil, if_false, Bool.false_eq_true]

theorem decodeWithFixedTiming_grid (m : MathOps ℚ) (signal : List ℚ) (startPos : Int) :
    decodeWithFixedTiming m signal startPos = fixedGridRaster m signal startPos := by
  have h := fixedLineLoop_grid m signal startPos HEIGHT 0 (List.replicate (WIDTH * HEIGHT) 0)
  simp only [Nat.cast_zero, zero_mul, add_zero] at h
  unfold decodeWithFixedTiming fixedGridRaster
  rw [h, List.range_eq_range']

theorem signalOf_zero (n : Nat) : ∀ x ∈ signalOf (List.replicate n 0), x = 0 := by
  intro x hx
  unfold signalOf at hx
  obtain ⟨s, hs, rfl⟩ := List.mem_map.mp hx
  rw [List.eq_of_mem_replicate hs]
  norm_num

theorem fallback_start : jsFloor (SAMPLE_RATE * 1.2) = 52920 := by
  unfold jsFloor SAMPLE_RATE
  rw [Int.floor_eq_iff]
  norm_num

/-- C7: on an all-zero sample sequence of any length decoding does not fail:
findAllSyncPulses yields no sync position (fewer than 10), so the result is exactly
decodeWithFixedTiming(signal, 52920), a raster of exactly 76800 pixel bytes built
on the grid that starts at sample floor(1.2 * 44100) = 52920 with LINE_SAMPLES
between successive lines. -/
theorem silence_falls_back (m : MathOps ℚ) (n : Nat) :
    findAllSyncPulses m (signalOf (List.replicate n 0)) = some []
      ∧ decodeWavPcmToPngBytes m (List.replicate n 0)
          = some (.fixedTimingRaster
              (decodeWithFixedTiming m (signalOf (List.replicate n 0)) 52920))
      ∧ (decodeWithFixedTiming m (signalOf (List.replicate n 0)) 52920).length = 320 * 240
      ∧ decodeWithFixedTiming m (signalOf (List.replicate n 0)) 52920
          = fixedGridRaster m (signalOf (List.replicate n 0)) 52920
      ∧ jsFloor (1.2 * 44100) = 52920 := by
  have hs := findAllSyncPulses_zero m (signalOf (List.replicate n 0)) (signalOf_zero n)
  refine ⟨hs, ?_, decodeWithFixedTiming_length _ _ _, decodeWithFixedTiming_grid _ _ _, ?_⟩
  · unfold decodeWavPcmToPngBytes
    simp only []
    rw [hs]
    simp only [List.length_nil, Nat.ofNat_pos, if_true, fallback_start]
  · unfold jsFloor
    rw [Int.floor_eq_iff]
    norm_num
/-- C11: for every chroma row of width 320, downsample returns exactly 160 samples,
sample i being source sample 2i (no averaging). -/
theorem downsample_decimates (src : List ℚ) (h : src.length = 320) :
    (downsample 320 src).length = 160
      ∧ ∀ i, i < 160 → 2 * i < src.length ∧ (downsample 320 src)[i]? = src[2 * i]? := by
  refine ⟨by simp [downsample], ?_⟩
  intro i hi
  have h2 : 2 * i < src.length := by omega
  refine ⟨h2, ?_⟩
  have e : 2 * i = i * 2 := by omega
  rw [e] at h2 ⊢
  have hr : (List.range (320 / 2))[i]? = some i := by
    rw [List.getElem?_range]; omega
  rw [downsample, List.getElem?_map, hr, Option.map_some', List.getD_eq_getElem?_getD,
    List.getElem?_eq_getElem h2, Option.getD_some]

theorem downsample_decimates_witness :
    (downsample 320 (List.replicate 320 128)).length = 160
      ∧ ∀ i, i < 160 → 2 * i < (List.replicate 320 (128 : ℚ)).length
          ∧ (downsample 320 (List.replicate 320 128))[i]? = (List.replicate 320 (128 : ℚ))[2 * i]? :=
  downsample_decimates _ (List.length_replicate _ _)
/-- The gaps summed by `avgLineSpacing` telescope. -/
theorem gaps_telescope (positions : List ℚ) (c : Nat) :
    ((List.range c).map fun j => positions.getD (j + 1) 0 - positions.getD j 0).sum
      = positions.getD c 0 - positions.getD 0 0 := by
  induction c with
  | zero => simp
  | succ n ih =>
    rw [List.range_succ, List.map_append, List.sum_append, ih]
    simp only [List.map_cons, List.map_nil, List.sum_cons, List.sum_nil]
    ring

theorem avgLineSpacing_eq (positions : List ℚ) :
    avgLineSpacing positions
      = (positions.getD (min 10 positions.length - 1) 0 - positions.getD 0 0)
          / ((min 10 positions.length - 1 : Nat) : ℚ) := by
  unfold avgLineSpacing
  simp only [gaps_telescope]

/-- C15 (amended): for every raw position sequence with at least 10 positions, the
average line spacing used by refineSyncPositions is the mean of the first nine gaps
raw[1]-raw[0], ..., raw[9]-raw[8], i.e. (raw[9] - raw[0]) / 9. -/
theorem avgLineSpacing_nine_gaps (raw : List ℚ) (h : 10 ≤ raw.length) :
    avgLineSpacing raw
        = ((List.range 9).map fun j => raw.getD (j + 1) 0 - raw.getD j 0).sum / 9
      ∧ avgLineSpacing raw = (raw.getD 9 0 - raw.getD 0 0) / 9 := by
  have hc : min 10 raw.length - 1 = 9 := by omega
  constructor
  · unfold avgLineSpacing
    simp only [hc]
    norm_num
  · rw [avgLineSpacing_eq, hc]
    norm_num

theorem avgLineSpacing_nine_gaps_witness :
    avgLineSpacing [0, 1, 2, 3, 4, 5, 6, 7, 8, 9, 100]
        = ((List.range 9).map fun j => ([0, 1, 2, 3, 4, 5, 6, 7, 8, 9, 100] : List ℚ).getD (j + 1) 0
            - ([0, 1, 2, 3, 4, 5, 6, 7, 8, 9, 100] : List ℚ).getD j 0).sum / 9
      ∧ avgLineSpacing [0, 1, 2, 3, 4, 5, 6, 7, 8, 9, 100]
        = (([0, 1, 2, 3, 4, 5, 6, 7, 8, 9, 100] : List ℚ).getD 9 0
            - ([0, 1, 2, 3, 4, 5, 6, 7, 8, 9, 100] : List ℚ).getD 0 0) / 9 :=
  avgLineSpacing_nine_gaps _ (by decide)

/-- C15 as stated fails: with eleven positions 0, 1, ..., 9, 100 the average used is
1, the mean of the first nine gaps, and not (raw[10] - raw[0]) / 10 = 10. -/
theorem avgLineSpacing_ten_gaps_counterexample :
    11 ≤ ([0, 1, 2, 3, 4, 5, 6, 7, 8, 9, 100] : List ℚ).length
      ∧ avgLineSpacing [0, 1, 2, 3, 4, 5, 6, 7, 8, 9, 100] = 1
      ∧ (([0, 1, 2, 3, 4, 5, 6, 7, 8, 9, 100] : List ℚ).getD 10 0
          - ([0, 1, 2, 3, 4, 5, 6, 7, 8, 9, 100] : List ℚ).getD 0 0) / 10 = 10
      ∧ avgLineSpacing [0, 1, 2, 3, 4, 5, 6, 7, 8, 9, 100]
          ≠ (([0, 1, 2, 3, 4, 5, 6, 7, 8, 9, 100] : List ℚ).getD 10 0
              - ([0, 1, 2, 3, 4, 5, 6, 7, 8, 9, 100] : List ℚ).getD 0 0) / 10 := by
  have h := avgLineSpacing_eq [0, 1, 2, 3, 4, 5, 6, 7, 8, 9, 100]
  have hc : min 10 ([0, 1, 2, 3, 4, 5, 6, 7, 8, 9, 100] : List ℚ).length - 1 = 9 := by decide
  rw [hc] at h
  have h1 : avgLineSpacing [0, 1, 2, 3, 4, 5, 6, 7, 8, 9, 100] = 1 := by
    rw [h]; norm_num
  refine ⟨by decide, h1, by norm_num, ?_⟩
  rw [h1]; norm_num
theorem refineLoop_cons (avg prev x : ℚ) (rest : List ℚ) :
    refineLoop avg prev (x :: rest)
      = refineRule avg prev x :: refineLoop avg (refineRule avg prev x) rest := by
  have h : (if |x - (prev + avg)| < avg * 0.05 then x
      else if |x - (prev + avg)| < avg * 0.15 then x * 0.9 + (prev + avg) * 0.1
      else prev + avg) = refineRule avg prev x := by
    unfold refineRule
    split_ifs <;> ring
  rw [refineLoop]
  simp only [h]

theorem refineLoop_length (avg : ℚ) : ∀ (rest : List ℚ) (prev : ℚ),
    (refineLoop avg prev rest).length = rest.length := by
  intro rest
  induction rest with
  | nil => intro prev; rfl
  | cons x rest ih => intro prev; rw [refineLoop_cons, List.length_cons, ih, List.length_cons]

/-- Every refined position after the first follows the rule from the refined
position before it. -/
theorem refineLoop_rule (avg : ℚ) : ∀ (rest : List ℚ) (prev : ℚ) (i : Nat), i < rest.length →
    (prev :: refineLoop avg prev rest).getD (i + 1) 0
      = refineRule avg ((prev :: refineLoop avg prev rest).getD i 0) (rest.getD i 0) := by
  intro rest
  induction rest with
  | nil => intro prev i hi; simp at hi
  | cons x rest ih =>
    intro prev i hi
    rw [refineLoop_cons]
    cases i with
    | zero => simp only [List.getD_cons_succ, List.getD_cons_zero]
    | succ j =>
      have hj : j < rest.length := by simpa using hi
      have := ih (refineRule avg prev x) j hj
      simp only [List.getD_cons_succ] at this ⊢
      exact this

/-- C14: refineSyncPositions returns sequences shorter than 3 unchanged; on a longer
one it returns a sequence of the same length whose first element is the first raw
position and whose element i >= 1 is determined from the previous refined element:
with expected = refined[i-1] + avgSpacing and dev = |raw[i] - expected|, refined[i] is
raw[i] if dev is below 5% of avgSpacing, 0.9 * raw[i] + 0.1 * expected if dev is
between 5% and 15% of avgSpacing, and expected if dev is above 15%. The rule is
stated away from the two thresholds, by 0.0001% of avgSpacing, for element i and
for the elements before it, on which refined[i-1] depends: at a threshold the
rounding of the doubles decides the comparison. -/
theorem refine_rule (raw : List ℚ) :
    (raw.length < 3 → refineSyncPositions raw = raw)
      ∧ (3 ≤ raw.length →
          (refineSyncPositions raw).length = raw.length
          ∧ (refineSyncPositions raw).getD 0 0 = raw.getD 0 0
          ∧ ∀ i, 1 ≤ i → i < raw.length → (∀ j, 1 ≤ j → j < i → clearOfThresholds raw j) →
              (deviationAt raw i < avgLineSpacing raw * 0.049999 →
                (refineSyncPositions raw).getD i 0 = raw.getD i 0)
              ∧ (avgLineSpacing raw * 0.050001 < deviationAt raw i →
                  deviationAt raw i < avgLineSpacing raw * 0.149999 →
                  (refineSyncPositions raw).getD i 0
                    = 0.9 * raw.getD i 0 + 0.1 * expectedAt raw i)
              ∧ (avgLineSpacing raw * 0.150001 < deviationAt raw i →
                  (refineSyncPositions raw).getD i 0 = expectedAt raw i)) := by
  constructor
  · intro h
    unfold refineSyncPositions
    rw [if_pos h]
  · intro h
    have key : ∀ i, 1 ≤ i → i < raw.length →
        (refineSyncPositions raw).getD i 0
          = refineRule (avgLineSpacing raw) ((refineSyncPositions raw).getD (i - 1) 0)
              (raw.getD i 0) := by
      match raw, h with
      | first :: rest, h =>
        have hr : refineSyncPositions (first :: rest)
            = first :: refineLoop (avgLineSpacing (first :: rest)) first rest := by
          unfold refineSyncPositions
          rw [if_neg (by omega)]
        rw [hr]
        intro i h1 hi
        obtain ⟨j, rfl⟩ : ∃ j, i = j + 1 := ⟨i - 1, by omega⟩
        have hj : j < rest.length := by simpa using hi
        have := refineLoop_rule (avgLineSpacing (first :: rest)) rest first j hj
        simpa using this
    refine ⟨?_, ?_, ?_⟩
    · match raw, h with
      | first :: rest, h =>
        unfold refineSyncPositions
        rw [if_neg (by omega)]
        simp only [List.length_cons, refineLoop_length]
    · match raw, h with
      | first :: rest, h =>
        unfold refineSyncPositions
        rw [if_neg (by omega)]
        rfl
    · intro i h1 hi _
      have hk := key i h1 hi
      have hd : 0 ≤ deviationAt raw i := abs_nonneg _
      unfold refineRule at hk
      change (refineSyncPositions raw).getD i 0
        = (if deviationAt raw i < avgLineSpacing raw * 0.05 then raw.getD i 0
          else if deviationAt raw i < avgLineSpacing raw * 0.15 then
            0.9 * raw.getD i 0 + 0.1 * expectedAt raw i
          else expectedAt raw i) at hk
      refine ⟨?_, ?_, ?_⟩
      · intro hlt
        rw [hk, if_pos (by linarith)]
      · intro hgt hlt
        rw [hk, if_neg (by linarith), if_pos (by linarith)]
      · intro hgt
        rw [hk, if_neg (by linarith), if_neg (by linarith)]

set_option maxRecDepth 1000000 in
theorem refine_rule_witness :
    (refineSyncPositions [0, 100, 207, 330, 400]).getD 1 0 = 100
      ∧ (refineSyncPositions [0, 100, 207, 330, 400]).getD 2 0
          = 0.9 * 207 + 0.1 * expectedAt [0, 100, 207, 330, 400] 2
      ∧ (refineSyncPositions [0, 100, 207, 330, 400]).getD 3 0
          = expectedAt [0, 100, 207, 330, 400] 3 :=
  ⟨(((refine_rule [0, 100, 207, 330, 400]).2 (by decide)).2.2 1 (by decide) (by decide)
      (fun j h1 h2 => absurd h2 (by omega))).1
      (by with_unfolding_all decide),
    (((refine_rule [0, 100, 207, 330, 400]).2 (by decide)).2.2 2 (by decide) (by decide)
      (fun j h1 h2 => by
        have hj : j = 1 := by omega
        rw [hj]
        with_unfolding_all decide)).2.1
      (by with_unfolding_all decide) (by with_unfolding_all decide),
    (((refine_rule [0, 100, 207, 330, 400]).2 (by decide)).2.2 3 (by decide) (by decide)
      (fun j h1 h2 => by
        have hj : j = 1 ∨ j = 2 := by omega
        rcases hj with hj | hj <;> rw [hj] <;> with_unfolding_all decide)).2.2
      (by with_unfolding_all decide)⟩

set_option maxRecDepth 1000000 in
/-- A tie: for the raw positions 0, 7, 14, 20 the average spacing is 20/3 and the
deviation of detection 1 is 1/3, exactly 5% of it, so detection 1 is not clear of
the thresholds and the rule above says nothing about this sequence. -/
theorem threshold_tie_example :
    deviationAt [0, 7, 14, 20] 1 ≤ avgLineSpacing [0, 7, 14, 20] * 0.05
      ∧ avgLineSpacing [0, 7, 14, 20] * 0.05 ≤ deviationAt [0, 7, 14, 20] 1
      ∧ ¬ clearOfThresholds [0, 7, 14, 20] 1 := by
  with_unfolding_all decide

theorem refineRule_gap (avg prev x : ℚ) (h : 0 < avg) :
    avg * 0.85 < refineRule avg prev x - prev ∧ refineRule avg prev x - prev < avg * 1.15 := by
  unfold refineRule
  split_ifs with h1 h2
  · rw [abs_lt] at h1
    constructor <;> norm_num at h1 ⊢ <;> linarith [h1.1, h1.2]
  · rw [abs_lt] at h2
    constructor <;> norm_num at h2 ⊢ <;> linarith [h2.1, h2.2]
  · constructor <;> norm_num <;> linarith

theorem refineLoop_chain (avg : ℚ) (h : 0 < avg) : ∀ (rest : List ℚ) (prev : ℚ),
    List.Chain (fun a b => avg * 0.85 < b - a ∧ b - a < avg * 1.15) prev
      (refineLoop avg prev rest) := by
  intro rest
  induction rest with
  | nil => intro prev; rw [refineLoop]; exact List.Chain.nil
  | cons x rest ih =>
    intro prev
    rw [refineLoop_cons]
    exact List.Chain.cons (refineRule_gap avg prev x h) (ih _)

theorem avgLineSpacing_pos (raw : List ℚ) (hs : raw.Sorted (· < ·)) (h : 3 ≤ raw.length) :
    0 < avgLineSpacing raw := by
  rw [avgLineSpacing_eq]
  have hc1 : 0 < min 10 raw.length - 1 := by omega
  have hc2 : min 10 raw.length - 1 < raw.length := by omega
  have h0 : 0 < raw.length := by omega
  have hlt : raw.getD 0 0 < raw.getD (min 10 raw.length - 1) 0 := by
    rw [List.getD_eq_getElem _ _ h0, List.getD_eq_getElem _ _ hc2]
    exact List.pairwise_iff_getElem.mp hs 0 _ h0 hc2 hc1
  apply div_pos
  · linarith
  · exact_mod_cast hc1

/-- C17: for every strictly increasing raw position sequence of length >= 3 the
average line spacing is positive, every gap refined[i] - refined[i-1] lies strictly
between 85% and 115% of it, and so the refined sequence is strictly increasing. -/
theorem refined_monotone (raw : List ℚ) (hs : raw.Sorted (· < ·)) (h : 3 ≤ raw.length) :
    0 < avgLineSpacing raw
      ∧ List.Chain' (fun a b => avgLineSpacing raw * 0.85 < b - a
          ∧ b - a < avgLineSpacing raw * 1.15) (refineSyncPositions raw)
      ∧ (refineSyncPositions raw).Sorted (· < ·) := by
  have hpos := avgLineSpacing_pos raw hs h
  match raw, h, hpos with
  | first :: rest, h, hpos =>
    have hr : refineSyncPositions (first :: rest)
        = first :: refineLoop (avgLineSpacing (first :: rest)) first rest := by
      unfold refineSyncPositions
      rw [if_neg (by omega)]
    have hch := refineLoop_chain (avgLineSpacing (first :: rest)) hpos rest first
    refine ⟨hpos, ?_, ?_⟩
    · rw [hr]; exact hch
    · rw [hr]
      apply List.chain'_iff_pairwise.mp
      apply List.Chain'.imp _ (show List.Chain' _ (first :: refineLoop _ first rest) from hch)
      intro a b hab
      have : 0 < avgLineSpacing (first :: rest) * 0.85 := by positivity
      linarith [hab.1]

theorem refined_monotone_witness :
    0 < avgLineSpacing [0, 6600, 13300, 19000]
      ∧ List.Chain' (fun a b => avgLineSpacing [0, 6600, 13300, 19000] * 0.85 < b - a
          ∧ b - a < avgLineSpacing [0, 6600, 13300, 19000] * 1.15)
          (refineSyncPositions [0, 6600, 13300, 19000])
      ∧ (refineSyncPositions [0, 6600, 13300, 19000]).Sorted (· < ·) :=
  refined_monotone [0, 6600, 13300, 19000] (by norm_num [List.Sorted]) (by decide)
theorem minPeriod_eq : jsFloor (SAMPLE_RATE / WHITE_FREQ) - 2 = 17 := by
  with_unfolding_all decide

theorem maxPeriod_eq : jsFloor (SAMPLE_RATE / BLACK_FREQ) + 2 = 31 := by
  with_unfolding_all decide

/-- The lag loop once a first lag has been scored: the lag it returns is the held one
or a later one inside the band, and no lag it examined scored higher. -/
theorem lagLoop_some (m : MathOps ℚ) (signal : List ℚ) (start size maxPeriod : Int) :
    ∀ (fuel : Nat) (lag bestLag : Int), lag + fuel = maxPeriod + 1 →
      (lagLoop m signal start size maxPeriod fuel lag bestLag
            (some (lagCorr m signal start size bestLag)) = bestLag
        ∨ (lag ≤ lagLoop m signal start size maxPeriod fuel lag bestLag
              (some (lagCorr m signal start size bestLag))
          ∧ lagLoop m signal start size maxPeriod fuel lag bestLag
              (some (lagCorr m signal start size bestLag)) ≤ maxPeriod
          ∧ ((lagLoop m signal start size maxPeriod fuel lag bestLag
              (some (lagCorr m signal start size bestLag)) : Int) : ℚ) < (size : ℚ) / 2))
      ∧ lagCorr m signal start size bestLag
          ≤ lagCorr m signal start size (lagLoop m signal start size maxPeriod fuel lag bestLag
              (some (lagCorr m signal start size bestLag)))
      ∧ ∀ l : Int, lag ≤ l → l ≤ maxPeriod → (l : ℚ) < (size : ℚ) / 2 →
          lagCorr m signal start size l
            ≤ lagCorr m signal start size (lagLoop m signal start size maxPeriod fuel lag bestLag
                (some (lagCorr m signal start size bestLag))) := by
  intro fuel
  induction fuel with
  | zero =>
    intro lag bestLag hf
    rw [lagLoop]
    refine ⟨Or.inl rfl, le_refl _, ?_⟩
    intro l h1 h2 _
    simp only [Nat.cast_zero, add_zero] at hf
    omega
  | succ n ih =>
    intro lag bestLag hf
    have hf' : lag + 1 + (n : Int) = maxPeriod + 1 := by push_cast at hf; omega
    rw [lagLoop]
    by_cases hc : lag ≤ maxPeriod ∧ (lag : ℚ) < (size : ℚ) / 2
    · rw [if_pos hc]
      simp only []
      by_cases hb : lagCorr m signal start size lag > lagCorr m signal start size bestLag
      · simp only [hb, decide_True, if_true]
        obtain ⟨h1, h2, h3⟩ := ih (lag + 1) lag hf'
        refine ⟨Or.inr ?_, by linarith, ?_⟩
        · rcases h1 with h1 | ⟨h1, h1', h1''⟩
          · rw [h1]; exact ⟨le_refl _, hc.1, hc.2⟩
          · exact ⟨by omega, h1', h1''⟩
        · intro l hl1 hl2 hl3
          by_cases hl : l = lag
          · rw [hl]; exact h2
          · exact h3 l (by omega) hl2 hl3
      · simp only [hb, decide_False, if_false, Bool.false_eq_true]
        obtain ⟨h1, h2, h3⟩ := ih (lag + 1) bestLag hf'
        refine ⟨?_, h2, ?_⟩
        · rcases h1 with h1 | ⟨h1, h1', h1''⟩
          · exact Or.inl h1
          · exact Or.inr ⟨by omega, h1', h1''⟩
        · intro l hl1 hl2 hl3
          by_cases hl : l = lag
          · rw [hl]; linarith [not_lt.mp hb]
          · exact h3 l (by omega) hl2 hl3
    · rw [if_neg hc]
      refine ⟨Or.inl rfl, le_refl _, ?_⟩
      intro l hl1 hl2 hl3
      exfalso
      apply hc
      refine ⟨by omega, ?_⟩
      have : (lag : ℚ) ≤ (l : ℚ) := by exact_mod_cast hl1
      linarith

/-- The lag loop from its initial state, when the first lag is inside the band. -/
theorem lagLoop_none (m : MathOps ℚ) (signal : List ℚ) (start size maxPeriod lo : Int)
    (fuel : Nat) (hf : lo + (fuel + 1 : Nat) = maxPeriod + 1)
    (hlo : lo ≤ maxPeriod ∧ (lo : ℚ) < (size : ℚ) / 2) :
    lo ≤ lagLoop m signal start size maxPeriod (fuel + 1) lo lo none
      ∧ lagLoop m signal start size maxPeriod (fuel + 1) lo lo none ≤ maxPeriod
      ∧ ((lagLoop m signal start size maxPeriod (fuel + 1) lo lo none : Int) : ℚ) < (size : ℚ) / 2
      ∧ ∀ l : Int, lo ≤ l → l ≤ maxPeriod → (l : ℚ) < (size : ℚ) / 2 →
          lagCorr m signal start size l
            ≤ lagCorr m signal start size
                (lagLoop m signal start size maxPeriod (fuel + 1) lo lo none) := by
  have hf' : lo + 1 + (fuel : Int) = maxPeriod + 1 := by push_cast at hf; omega
  rw [lagLoop, if_pos hlo]
  simp only [if_true]
  obtain ⟨h1, h2, h3⟩ := lagLoop_some m signal start size maxPeriod fuel (lo + 1) lo hf'
  have hband : lo ≤ lagLoop m signal start size maxPeriod fuel (lo + 1) lo
        (some (lagCorr m signal start size lo))
      ∧ lagLoop m signal start size maxPeriod fuel (lo + 1) lo
        (some (lagCorr m signal start size lo)) ≤ maxPeriod
      ∧ ((lagLoop m signal start size maxPeriod fuel (lo + 1) lo
        (some (lagCorr m signal start size lo)) : Int) : ℚ) < (size : ℚ) / 2 := by
    rcases h1 with h1 | ⟨h1, h1', h1''⟩
    · rw [h1]; exact ⟨le_refl _, hlo.1, hlo.2⟩
    · exact ⟨by omega, h1', h1''⟩
  refine ⟨hband.1, hband.2.1, hband.2.2, ?_⟩
  intro l hl1 hl2 hl3
  by_cases hl : l = lo
  · rw [hl]; exact h2
  · exact h3 l (by omega) hl2 hl3
/-- What `detectFrequencyAutocorr` returns: 1500 when its guard fires, otherwise
44100 / bestLag clamped, where bestLag is a lag of the band 17..31 below half the
window that no other such lag outscores. -/
theorem detectFrequencyAutocorr_spec (m : MathOps ℚ) (signal : List ℚ) (center windowSize : Int) :
    (center - jsFloor (((max 60 (min windowSize 200) : Int) : ℚ) / 2) < 0
        ∨ center - jsFloor (((max 60 (min windowSize 200) : Int) : ℚ) / 2)
            + max 60 (min windowSize 200) ≥ signal.length) ∧
      detectFrequencyAutocorr m signal center windowSize = BLACK_FREQ
    ∨ ¬ (center - jsFloor (((max 60 (min windowSize 200) : Int) : ℚ) / 2) < 0
        ∨ center - jsFloor (((max 60 (min windowSize 200) : Int) : ℚ) / 2)
            + max 60 (min windowSize 200) ≥ signal.length) ∧
      ∃ bestLag : Int, 17 ≤ bestLag ∧ bestLag ≤ 31
        ∧ (bestLag : ℚ) < ((max 60 (min windowSize 200) : Int) : ℚ) / 2
        ∧ (∀ l : Int, 17 ≤ l → l ≤ 31 → (l : ℚ) < ((max 60 (min windowSize 200) : Int) : ℚ) / 2 →
            lagCorr m signal (center - jsFloor (((max 60 (min windowSize 200) : Int) : ℚ) / 2))
                (max 60 (min windowSize 200)) l
              ≤ lagCorr m signal (center - jsFloor (((max 60 (min windowSize 200) : Int) : ℚ) / 2))
                (max 60 (min windowSize 200)) bestLag)
        ∧ detectFrequencyAutocorr m signal center windowSize
            = max BLACK_FREQ (min WHITE_FREQ (SAMPLE_RATE / bestLag)) := by
  unfold detectFrequencyAutocorr
  simp only [minPeriod_eq, maxPeriod_eq]
  by_cases hg : center - jsFloor (((max 60 (min windowSize 200) : Int) : ℚ) / 2) < 0
        ∨ center - jsFloor (((max 60 (min windowSize 200) : Int) : ℚ) / 2)
            + max 60 (min windowSize 200) ≥ signal.length
  · left
    exact ⟨hg, by rw [if_pos hg]⟩
  · right
    refine ⟨hg, ?_⟩
    rw [if_neg hg]
    have hsize : (60 : ℚ) ≤ ((max 60 (min windowSize 200) : Int) : ℚ) := by
      exact_mod_cast le_max_left 60 (min windowSize 200)
    have hfuel : (31 - 17 + 1 : Int).toNat = 14 + 1 := by decide
    rw [hfuel]
    obtain ⟨h1, h2, h3, h4⟩ := lagLoop_none m signal
      (center - jsFloor (((max 60 (min windowSize 200) : Int) : ℚ) / 2))
      (max 60 (min windowSize 200)) 31 17 14 (by norm_num)
      ⟨by norm_num, by rw [show ((17 : Int) : ℚ) = 17 by norm_num]; linarith⟩
    exact ⟨_, h1, h2, h3, h4, rfl⟩

/-- C13: detectFrequencyAutocorr always returns a frequency between 1500 and 2300,
and returns exactly 1500 whenever the window of size clamp(hint, 60, 200) centred at
`center` does not fit inside the signal. -/
theorem detectFrequencyAutocorr_range (m : MathOps ℚ) (signal : List ℚ)
    (center windowSize : Int) :
    1500 ≤ detectFrequencyAutocorr m signal center windowSize
      ∧ detectFrequencyAutocorr m signal center windowSize ≤ 2300
      ∧ ((center - jsFloor (((max 60 (min windowSize 200) : Int) : ℚ) / 2) < 0
          ∨ center - jsFloor (((max 60 (min windowSize 200) : Int) : ℚ) / 2)
              + max 60 (min windowSize 200) > signal.length) →
        detectFrequencyAutocorr m signal center windowSize = 1500) := by
  have hB : BLACK_FREQ = 1500 := rfl
  have hW : WHITE_FREQ = 2300 := rfl
  rcases detectFrequencyAutocorr_spec m signal center windowSize with ⟨hg, h⟩ | ⟨hg, r, _, _, _, _, h⟩
  · rw [h, hB]
    exact ⟨le_refl _, by norm_num, fun _ => rfl⟩
  · rw [h, hB, hW]
    refine ⟨le_max_left _ _, max_le (by norm_num) (min_le_left _ _), ?_⟩
    intro hout
    exfalso
    apply hg
    rcases hout with h1 | h1
    · exact Or.inl h1
    · exact Or.inr (by omega)

theorem detectFrequencyAutocorr_range_witness :
    detectFrequencyAutocorr taylorOps pulseTrain 10 12 = 1500 :=
  (detectFrequencyAutocorr_range taylorOps pulseTrain 10 12).2.2 (by with_unfolding_all decide)
theorem corrLoop_sums (signal : List ℚ) (start lag : Int) :
    ∀ (todo i : Nat) (c a b : ℚ),
      corrLoop signal start lag todo i (c, a, b)
        = (c + ((List.range' i todo).map fun (j : Nat) =>
              signal.getD (start + (j : Int)).toNat 0 * signal.getD (start + (j : Int) + lag).toNat 0).sum,
           a + ((List.range' i todo).map fun (j : Nat) =>
              signal.getD (start + (j : Int)).toNat 0 * signal.getD (start + (j : Int)).toNat 0).sum,
           b + ((List.range' i todo).map fun (j : Nat) =>
              signal.getD (start + (j : Int) + lag).toNat 0
                * signal.getD (start + (j : Int) + lag).toNat 0).sum) := by
  intro todo
  induction todo with
  | zero => intro i c a b; simp [corrLoop]
  | succ n ih =>
    intro i c a b
    rw [corrLoop, ih]
    simp only [List.range'_succ, List.map_cons, List.sum_cons]
    refine Prod.ext ?_ (Prod.ext ?_ ?_) <;> simp only [] <;> ring

/-- With both window energies positive, the score of a lag is the normalised correlation. -/
theorem lagCorr_eq_normalisedCorr (m : MathOps ℚ) (signal : List ℚ) (start size lag : Int)
    (ha : 0 < ((List.range (size - lag).toNat).map fun (i : Nat) =>
            signal.getD (start + (i : Int)).toNat 0 * signal.getD (start + (i : Int)).toNat 0).sum)
    (hb : 0 < ((List.range (size - lag).toNat).map fun (i : Nat) =>
            signal.getD (start + (i : Int) + lag).toNat 0
              * signal.getD (start + (i : Int) + lag).toNat 0).sum) :
    lagCorr m signal start size lag = normalisedCorr m signal start size lag := by
  unfold lagCorr normalisedCorr
  rw [corrLoop_sums]
  simp only [zero_add, ← List.range_eq_range']
  rw [if_pos ⟨ha, hb⟩]
/-- C16 (amended): for every signal and every window the guard lets through, the lag
chosen by detectFrequencyAutocorr lies in 17..31 below half the window size and no
lag of 17..31 below half the window size scores higher (the score being the
normalised correlation when both window energies are positive); the returned
frequency is 44100 / bestLag clamped into [1500, 2300]. -/
theorem detect_maximises_in_band (m : MathOps ℚ) (signal : List ℚ) (center windowSize : Int)
    (hin : ¬ (center - jsFloor (((max 60 (min windowSize 200) : Int) : ℚ) / 2) < 0
        ∨ center - jsFloor (((max 60 (min windowSize 200) : Int) : ℚ) / 2)
            + max 60 (min windowSize 200) ≥ signal.length)) :
    ∃ bestLag : Int, 17 ≤ bestLag ∧ bestLag ≤ 31
      ∧ (bestLag : ℚ) < ((max 60 (min windowSize 200) : Int) : ℚ) / 2
      ∧ (∀ l : Int, 17 ≤ l → l ≤ 31 → (l : ℚ) < ((max 60 (min windowSize 200) : Int) : ℚ) / 2 →
          lagCorr m signal (center - jsFloor (((max 60 (min windowSize 200) : Int) : ℚ) / 2))
              (max 60 (min windowSize 200)) l
            ≤ lagCorr m signal (center - jsFloor (((max 60 (min windowSize 200) : Int) : ℚ) / 2))
              (max 60 (min windowSize 200)) bestLag)
      ∧ detectFrequencyAutocorr m signal center windowSize
          = max 1500 (min 2300 (44100 / (bestLag : ℚ)))
      ∧ (windowSize ≤ 60 → bestLag ≤ 29) := by
  rcases detectFrequencyAutocorr_spec m signal center windowSize with ⟨hg, _⟩ | ⟨_, r, h1, h2, h3, h4, h5⟩
  · exact absurd hg hin
  · refine ⟨r, h1, h2, h3, h4, h5, ?_⟩
    intro hw
    have hs : max 60 (min windowSize 200) = 60 := by omega
    rw [hs] at h3
    have : (r : ℚ) < 30 := by norm_num at h3; linarith
    have : r < 30 := by exact_mod_cast this
    omega

theorem detect_maximises_in_band_witness :
    ∃ bestLag : Int, 17 ≤ bestLag ∧ bestLag ≤ 31
      ∧ (bestLag : ℚ) < ((max 60 (min 12 200) : Int) : ℚ) / 2
      ∧ (∀ l : Int, 17 ≤ l → l ≤ 31 → (l : ℚ) < ((max 60 (min 12 200) : Int) : ℚ) / 2 →
          lagCorr taylorOps pulseTrain (30 - jsFloor (((max 60 (min 12 200) : Int) : ℚ) / 2))
              (max 60 (min 12 200)) l
            ≤ lagCorr taylorOps pulseTrain (30 - jsFloor (((max 60 (min 12 200) : Int) : ℚ) / 2))
              (max 60 (min 12 200)) bestLag)
      ∧ detectFrequencyAutocorr taylorOps pulseTrain 30 12
          = max 1500 (min 2300 (44100 / (bestLag : ℚ)))
      ∧ ((12 : Int) ≤ 60 → bestLag ≤ 29) :=
  detect_maximises_in_band taylorOps pulseTrain 30 12 (by with_unfolding_all decide)

set_option maxRecDepth 1000000 in
/-- C16 as stated fails: in this in-bounds window of size 60 lag 30 scores 1 and every
other lag of 17..31 scores 0, so the maximising lag would give 44100/30 clamped =
1500, but lags 30 and 31 are never examined and 2300 is returned. -/
theorem detect_whole_band_counterexample :
    ¬ (30 - jsFloor (((max 60 (min 12 200) : Int) : ℚ) / 2) < 0
        ∨ 30 - jsFloor (((max 60 (min 12 200) : Int) : ℚ) / 2) + max 60 (min 12 200)
            ≥ (pulseTrain.length : Int))
      ∧ (∀ l ∈ ([17, 18, 19, 20, 21, 22, 23, 24, 25, 26, 27, 28, 29, 31] : List Int),
          lagCorr taylorOps pulseTrain 0 60 l < lagCorr taylorOps pulseTrain 0 60 30)
      ∧ normalisedCorr taylorOps pulseTrain 0 60 30 = 1
      ∧ max (1500 : ℚ) (min 2300 (44100 / 30)) = 1500
      ∧ detectFrequencyAutocorr taylorOps pulseTrain 30 12 = 2300 := by
  with_unfolding_all decide
set_option maxRecDepth 1000000 in
theorem pixel_hint : jsFloor (toBinary64 ((Y_SCAN_SAMPLES : ℚ) / WIDTH)) = 12 := by
  with_unfolding_all decide

set_option maxRecDepth 1000000 in
/-- The grey level of each lag of the band. -/
theorem greyLevel_of_lag (r : Int) (h1 : 17 ≤ r) (h2 : r ≤ 31) :
    clampByte (freqToPixel (max BLACK_FREQ (min WHITE_FREQ (SAMPLE_RATE / (r : ℚ))))) ∈ greyLevels
      ∧ (r ≤ 29 →
          clampByte (freqToPixel (max BLACK_FREQ (min WHITE_FREQ (SAMPLE_RATE / (r : ℚ)))))
            = clampByte (freqToPixel (44100 / (r : ℚ)))) := by
  interval_cases r <;> with_unfolding_all decide

set_option maxRecDepth 1000000 in
/-- Every pixel value the decoder computes is 0 or the grey level of a lag in 17..29. -/
theorem decoded_pixel (m : MathOps ℚ) (signal : List ℚ) (center : Int) :
    clampByte (freqToPixel (detectFrequencyAutocorr m signal center 12)) ∈ greyLevels
      ∧ (clampByte (freqToPixel (detectFrequencyAutocorr m signal center 12)) = 0
        ∨ ∃ lag : Int, 17 ≤ lag ∧ lag ≤ 29
            ∧ clampByte (freqToPixel (detectFrequencyAutocorr m signal center 12))
                = clampByte (freqToPixel (44100 / (lag : ℚ)))) := by
  rcases detectFrequencyAutocorr_spec m signal center 12 with ⟨_, h⟩ | ⟨_, r, h1, h2, h3, _, h⟩
  · rw [h]
    exact ⟨by with_unfolding_all decide, Or.inl (by with_unfolding_all decide)⟩
  · have hs : max 60 (min (12 : Int) 200) = 60 := by decide
    rw [hs] at h3
    have : (r : ℚ) < 30 := by norm_num at h3; linarith
    have h29 : r ≤ 29 := by
      have : r < 30 := by exact_mod_cast this
      omega
    rw [h]
    have hg := greyLevel_of_lag r h1 h2
    exact ⟨hg.1, Or.inr ⟨r, h1, h29, hg.2 h29⟩⟩

/-- The property of a raster that C19 is about. -/
theorem pixelLoop_levels (m : MathOps ℚ) (signal : List ℚ) (y : Nat) (yScanStart : ℚ)
    (P : Nat → Prop)
    (hP : ∀ center, P (clampByte (freqToPixel (detectFrequencyAutocorr m signal center 12)))) :
    ∀ (todo x : Nat) (image : List Nat), (∀ v ∈ image, P v) →
      ∀ v ∈ pixelLoop m signal y yScanStart todo x image, P v := by
  intro todo
  induction todo with
  | zero => intro x image h; exact h
  | succ n ih =>
    intro x image h
    rw [pixelLoop]
    simp only [pixel_hint]
    apply ih
    intro v hv
    rcases List.mem_or_eq_of_mem_set hv with hv | hv
    · exact h v hv
    · rw [hv]; exact hP _

theorem fixedLineLoop_levels (m : MathOps ℚ) (signal : List ℚ) (P : Nat → Prop)
    (hP : ∀ center, P (clampByte (freqToPixel (detectFrequencyAutocorr m signal center 12)))) :
    ∀ (todo y : Nat) (pos : Int) (image : List Nat), (∀ v ∈ image, P v) →
      ∀ v ∈ fixedLineLoop m signal todo y pos image, P v := by
  intro todo
  induction todo with
  | zero => intro y pos image h; exact h
  | succ n ih =>
    intro y pos image h
    rw [fixedLineLoop]
    split_ifs
    · exact h
    · exact ih _ _ _ (pixelLoop_levels m signal _ _ P hP _ _ _ h)

theorem syncLineLoop_levels (m : MathOps ℚ) (signal : List ℚ) (syncPositions : List ℚ)
    (P : Nat → Prop)
    (hP : ∀ center, P (clampByte (freqToPixel (detectFrequencyAutocorr m signal center 12)))) :
    ∀ (todo y : Nat) (image : List Nat), (∀ v ∈ image, P v) →
      ∀ v ∈ syncLineLoop m signal syncPositions todo y image, P v := by
  intro todo
  induction todo with
  | zero => intro y image h; exact h
  | succ n ih =>
    intro y image h
    rw [syncLineLoop]
    by_cases hy : y < syncPositions.length
    · rw [if_pos hy]
      simp only []
      split_ifs
      · exact h
      · exact ih _ _ (pixelLoop_levels m signal _ _ P hP _ _ _ h)
    · rw [if_neg hy]
      exact h

theorem syncLineLoop_length (m : MathOps ℚ) (signal : List ℚ) (syncPositions : List ℚ) :
    ∀ (todo y : Nat) (image : List Nat),
      (syncLineLoop m signal syncPositions todo y image).length = image.length := by
  intro todo
  induction todo with
  | zero => intro y image; rfl
  | succ n ih =>
    intro y image
    rw [syncLineLoop]
    by_cases hy : y < syncPositions.length
    · rw [if_pos hy]
      simp only []
      split_ifs
      · rfl
      · rw [ih, pixelLoop_length]
    · rw [if_neg hy]

theorem decoders_levels (m : MathOps ℚ) (signal : List ℚ) (P : Nat → Prop) (h0 : P 0)
    (hP : ∀ center, P (clampByte (freqToPixel (detectFrequencyAutocorr m signal center 12)))) :
    (∀ (syncPositions : List ℚ), ∀ v ∈ decodeWithSyncPositions m signal syncPositions, P v)
      ∧ (∀ (startPos : Int), ∀ v ∈ decodeWithFixedTiming m signal startPos, P v) := by
  have hz : ∀ v ∈ List.replicate (WIDTH * HEIGHT) 0, P v := by
    intro v hv
    rw [List.eq_of_mem_replicate hv]; exact h0
  exact ⟨fun sp => syncLineLoop_levels m signal sp P hP _ _ _ hz,
    fun st => fixedLineLoop_levels m signal P hP _ _ _ _ hz⟩

/-- Pixels in front of the column the pixel loop has reached are left as they are. -/
theorem pixelLoop_before (m : MathOps ℚ) (signal : List ℚ) (y : Nat) (yScanStart : ℚ) :
    ∀ (todo x : Nat) (image : List Nat) (k : Nat), k < y * WIDTH + x →
      (pixelLoop m signal y yScanStart todo x image)[k]? = image[k]? := by
  intro todo
  induction todo with
  | zero => intro x image k _; rfl
  | succ n ih =>
    intro x image k hk
    rw [pixelLoop, ih _ _ _ (by omega), List.getElem?_set_ne (by omega)]

/-- The first pixel the pixel loop writes is the grey level of the frequency
detected around its centre, and no later pass of the loop touches it. -/
theorem pixelLoop_first (m : MathOps ℚ) (signal : List ℚ) (y : Nat) (yScanStart : ℚ)
    (todo x : Nat) (image : List Nat) (h : y * WIDTH + x < image.length) :
    clampByte (freqToPixel (detectFrequencyAutocorr m signal
        (jsFloor (toBinary64 (yScanStart
          + toBinary64 (((x : ℚ) + 0.5) * toBinary64 ((Y_SCAN_SAMPLES : ℚ) / WIDTH))))) 12))
      ∈ pixelLoop m signal y yScanStart (todo + 1) x image := by
  rw [pixelLoop]
  simp only [pixel_hint]
  apply List.getElem?_mem
  rw [pixelLoop_before m signal y yScanStart todo (x + 1) _ (y * WIDTH + x) (by omega),
    List.getElem?_set_self h]

theorem pulseTrain27_length : pulseTrain27.length = 4502 := by
  simp only [pulseTrain27, List.length_append, List.length_map, List.length_range,
    List.length_replicate]

set_option maxRecDepth 1000000 in
/-- Decoding the pulse train of period 27 along one sync position at sample 0: the
scan of line 0 starts at sample 529, and the first pixel of the raster, taken from
the window of 60 samples around sample 535, is the grey level 42 of lag 27. -/
theorem pulseTrain27_pixel : 42 ∈ decodeWithSyncPositions taylorOps pulseTrain27 [0] := by
  have hc : jsFloor (toBinary64 (toBinary64 (toBinary64 (([0] : List ℚ).getD 0 0 + HSYNC_SAMPLES)
          + PORCH_SAMPLES)
        + toBinary64 ((((0 : Nat) : ℚ) + 0.5) * toBinary64 ((Y_SCAN_SAMPLES : ℚ) / WIDTH)))) = 535 := by
    with_unfolding_all decide
  have hv : clampByte (freqToPixel (detectFrequencyAutocorr taylorOps pulseTrain27 535 12))
      = 42 := by
    unfold detectFrequencyAutocorr
    simp only [pulseTrain27_length]
    with_unfolding_all decide
  have hg : ¬ (toBinary64 (toBinary64 (toBinary64 (([0] : List ℚ).getD 0 0 + HSYNC_SAMPLES)
      + PORCH_SAMPLES) + Y_SCAN_SAMPLES) ≥ (pulseTrain27.length : ℚ)) := by
    rw [pulseTrain27_length]
    with_unfolding_all decide
  have h1 := pixelLoop_first taylorOps pulseTrain27 0
    (toBinary64 (toBinary64 (([0] : List ℚ).getD 0 0 + HSYNC_SAMPLES) + PORCH_SAMPLES))
    319 0 (List.replicate (WIDTH * HEIGHT) 0) (by rw [List.length_replicate]; decide)
  rw [hc, hv] at h1
  rw [decodeWithSyncPositions, show HEIGHT = 238 + 1 + 1 from rfl, syncLineLoop,
    if_pos (by decide)]
  simp only []
  rw [if_neg hg, syncLineLoop, if_neg (by decide)]
  exact h1

/-- C19 (amended): whatever the signal and the timing grid, every pixel written by
decodeWithSyncPositions or decodeWithFixedTiming is 0 or freqToPixel(44100 / lag) for
an integer lag in 17..29; so every output pixel is one of the twelve values 0, 7,
24, 42, 63, 84, 108, 133, 161, 191, 225, 255: it is never 43 (lag 27 gives 42), and
none lies strictly between 191 and 225. -/
theorem decoded_levels_quantised (m : MathOps ℚ) (signal : List ℚ) (syncPositions : List ℚ)
    (startPos : Int) (v : Nat)
    (hv : v ∈ decodeWithSyncPositions m signal syncPositions
        ∨ v ∈ decodeWithFixedTiming m signal startPos) :
    (v = 0 ∨ ∃ lag : Int, 17 ≤ lag ∧ lag ≤ 29 ∧ v = clampByte (freqToPixel (44100 / (lag : ℚ))))
      ∧ v ∈ greyLevels ∧ v ≠ 43 ∧ ¬ (191 < v ∧ v < 225) := by
  have key := decoders_levels m signal
    (fun v => (v = 0 ∨ ∃ lag : Int, 17 ≤ lag ∧ lag ≤ 29
        ∧ v = clampByte (freqToPixel (44100 / (lag : ℚ)))) ∧ v ∈ greyLevels)
    ⟨Or.inl rfl, by decide⟩
    (fun center => ⟨(decoded_pixel m signal center).2, (decoded_pixel m signal center).1⟩)
  have hv' : (v = 0 ∨ ∃ lag : Int, 17 ≤ lag ∧ lag ≤ 29
        ∧ v = clampByte (freqToPixel (44100 / (lag : ℚ)))) ∧ v ∈ greyLevels := by
    rcases hv with h | h
    · exact key.1 syncPositions v h
    · exact key.2 startPos v h
  have hg := hv'.2
  unfold greyLevels at hg
  simp only [List.mem_cons, List.mem_singleton, List.not_mem_nil, or_false] at hg
  refine ⟨hv'.1, hv'.2, ?_, ?_⟩ <;> omega

theorem decoded_levels_quantised_witness :
    ((42 : Nat) = 0 ∨ ∃ lag : Int, 17 ≤ lag ∧ lag ≤ 29
        ∧ (42 : Nat) = clampByte (freqToPixel (44100 / (lag : ℚ))))
      ∧ (42 : Nat) ∈ greyLevels ∧ (42 : Nat) ≠ 43 ∧ ¬ (191 < (42 : Nat) ∧ (42 : Nat) < 225) :=
  decoded_levels_quantised taylorOps pulseTrain27 [0] 52920 42 (Or.inl pulseTrain27_pixel)

set_option maxRecDepth 1000000 in
/-- C19 as stated fails: decoding the pulse train of period 27 along a sync position
at sample 0 writes the grey level 42, the level of lag 27 (the double
(44100 / 27 - 1500) / 800 * 255 lies below 42.5), and 42 is not one of the twelve
values of the claim, which lists 43. -/
theorem decoded_levels_quantised_counterexample :
    42 ∈ decodeWithSyncPositions taylorOps pulseTrain27 [0]
      ∧ 42 ∉ claimedGreyLevels
      ∧ claimedGreyLevels = [0, 7, 24, 43, 63, 84, 108, 133, 161, 191, 225, 255]
      ∧ clampByte (freqToPixel (44100 / ((27 : Int) : ℚ))) = 42
      ∧ jsRound (((44100 : ℚ) / 27 - 1500) / 800 * 255) = 43 :=
  ⟨pulseTrain27_pixel, by decide, rfl, by with_unfolding_all decide, by with_unfolding_all decide⟩

theorem decodeWithSyncPositions_length (m : MathOps ℚ) (signal : List ℚ)
    (syncPositions : List ℚ) :
    (decodeWithSyncPositions m signal syncPositions).length = 76800 := by
  unfold decodeWithSyncPositions
  rw [syncLineLoop_length, List.length_replicate]
  rfl

/-- Decoding ends for every sample sequence, with a raster of 76800 grey levels. -/
theorem decodeWavPcmToPngBytes_total (m : MathOps ℚ) (int16Samples : List Int) :
    ∃ d, decodeWavPcmToPngBytes m int16Samples = some d ∧ d.image.length = 76800
      ∧ ∀ v ∈ d.image, v ∈ greyLevels := by
  obtain ⟨r, hr⟩ := findAllSyncPulses_total m (signalOf int16Samples)
  have key := decoders_levels m (signalOf int16Samples) (fun v => v ∈ greyLevels) (by decide)
    (fun center => (decoded_pixel m (signalOf int16Samples) center).1)
  unfold decodeWavPcmToPngBytes
  simp only [hr]
  split_ifs
  · exact ⟨_, rfl, decodeWithFixedTiming_length _ _ _, key.2 _⟩
  · exact ⟨_, rfl, decodeWithSyncPositions_length _ _ _, key.1 _⟩

theorem luma_of_uniform (rgb : List Nat) (w h v : Nat)
    (hg : ∀ k, k < 3 * (w * h) → rgb.getD k 0 = v) (hv : (v : ℚ) ≤ 255) :
    ∀ y ∈ (rgbBufferToYuvPlanes rgb w h).Y, y = (v : ℚ) := by
  intro y hy
  have hY : (rgbBufferToYuvPlanes rgb w h).Y
      = (List.range (w * h)).map (fun i =>
          clamp (0.299 * (rgb.getD (3 * i) 0 : ℚ) + 0.587 * (rgb.getD (3 * i + 1) 0 : ℚ)
            + 0.114 * (rgb.getD (3 * i + 2) 0 : ℚ))) := rfl
  rw [hY] at hy
  obtain ⟨i, hi, rfl⟩ := List.mem_map.mp hy
  have hi' : i < w * h := List.mem_range.mp hi
  rw [hg _ (by omega), hg _ (by omega), hg _ (by omega)]
  have h0 : (0 : ℚ) ≤ v := Nat.cast_nonneg v
  have e : (0.299 : ℚ) * v + 0.587 * v + 0.114 * v = v := by ring
  rw [e, clamp, min_eq_right hv, max_eq_right h0]

theorem uniformRaster_getD (v k : Nat) (hk : k < 3 * (320 * 240)) :
    (uniformRaster v).getD k 0 = v := by
  unfold uniformRaster
  rw [List.getD_eq_getElem _ _ (by rw [List.length_replicate]; exact hk), List.getElem_replicate]

/-- C2 fails on the code: for the uniform 320x240 raster of grey 208 the luma plane
is 208 everywhere, and decoding the encoder's samples ends with a raster of 76800
pixels none of which is within 10 of 208 (the decoder only writes the twelve grey
levels of the integer lags, 191 and 225 being the nearest). -/
theorem round_trip_grey_208 (m : MathOps ℚ) :
    (∀ y ∈ (rgbBufferToYuvPlanes (uniformRaster 208) 320 240).Y, y = 208)
      ∧ ∃ d, decodeWavPcmToPngBytes m
            (generateRobot36Pcm m (rgbBufferToYuvPlanes (uniformRaster 208) 320 240)) = some d
          ∧ d.image.length = 320 * 240
          ∧ ∀ v ∈ d.image, 10 < |(v : Int) - 208| := by
  refine ⟨?_, ?_⟩
  · have := luma_of_uniform (uniformRaster 208) 320 240 208 (uniformRaster_getD 208)
      (by norm_num)
    exact_mod_cast this
  · obtain ⟨d, hd, hl, hv⟩ := decodeWavPcmToPngBytes_total m
      (generateRobot36Pcm m (rgbBufferToYuvPlanes (uniformRaster 208) 320 240))
    refine ⟨d, hd, hl, ?_⟩
    intro v h
    have hg := hv v h
    unfold greyLevels at hg
    simp only [List.mem_cons, List.mem_singleton, List.not_mem_nil, or_false] at hg
    rcases hg with h | h | h | h | h | h | h | h | h | h | h | h <;> rw [h] <;> decide
/-- The Goertzel state, read as the complex number `q1 - z * q2`, accumulates the
single-bin sum: if `z ^ i * (q1 - q2 * z) = z * S i` before the loop, the same holds
at `i + todo` after it. -/
theorem goertzelLoop_complex (signal : List ℝ) (start : Int) (c : ℝ) (w z : ℂ)
    (hwz : w * z = 1) (hc : ((2 * c : ℝ) : ℂ) = w + z) :
    ∀ (todo i : Nat) (q : ℝ × ℝ),
      z ^ i * ((q.1 : ℂ) - (q.2 : ℂ) * z)
          = z * ∑ j in Finset.range i, (signal.getD (start + (j : Int)).toNat 0 : ℂ) * z ^ j →
      z ^ (i + todo) * (((goertzelLoop signal start (2 * c) todo i q).1 : ℂ)
            - ((goertzelLoop signal start (2 * c) todo i q).2 : ℂ) * z)
          = z * ∑ j in Finset.range (i + todo),
              (signal.getD (start + (j : Int)).toNat 0 : ℂ) * z ^ j := by
  intro todo
  induction todo with
  | zero => intro i q h; simpa [goertzelLoop] using h
  | succ n ih =>
    intro i q h
    obtain ⟨q1, q2⟩ := q
    rw [goertzelLoop]
    have hstep := ih (i + 1) (2 * c * q1 - q2 + signal.getD (start + (i : Int)).toNat 0, q1) (by
      simp only [] at h ⊢
      rw [Finset.sum_range_succ, mul_add, ← h]
      push_cast
      have h2 : ((2 : ℂ) * (c : ℂ)) = w + z := by
        have := hc; push_cast at this; exact this
      rw [h2]
      have hw : w = w * (w * z) := by rw [hwz, mul_one]
      calc z ^ (i + 1) * ((w + z) * (q1 : ℂ) - (q2 : ℂ)
              + (signal.getD (start + (i : Int)).toNat 0 : ℂ) - (q1 : ℂ) * z)
          = z ^ i * (w * z) * ((q1 : ℂ) - (q2 : ℂ) * z)
              + z * ((signal.getD (start + (i : Int)).toNat 0 : ℂ) * z ^ i)
              + z ^ (i + 1) * (q2 : ℂ) * (w * z - 1) := by ring
        _ = z ^ i * ((q1 : ℂ) - (q2 : ℂ) * z)
              + z * ((signal.getD (start + (i : Int)).toNat 0 : ℂ) * z ^ i) := by
            rw [hwz]; ring)
    have e : i + 1 + n = i + (n + 1) := by omega
    rw [e] at hstep
    exact hstep
/-- C12: over the reals, with Math.cos and Math.sin the real cosine and sine, for
every signal, start >= 0 and window size N >= 1 with start + N <= length,
goertzelPower equals |sum_{n<N} signal[start+n] * exp(-i*w*n)|^2 / N^2 with
w = 2*pi*k/N and k = round(N*f/44100), hence is non-negative; and for a window that
would read outside the signal it returns 0. -/
theorem goertzelPower_spectral (signal : List ℝ) (start : Int) (N : Nat) (f : ℝ) :
    (0 ≤ start → 1 ≤ N → start + N ≤ signal.length →
        goertzelPower ⟨Real.pi, Real.sin, Real.cos, Real.sqrt⟩ signal start N f
            = Complex.normSq (∑ n in Finset.range N,
                (signal.getD (start + (n : Int)).toNat 0 : ℂ)
                  * Complex.exp (-(Complex.I * ((2 * Real.pi * (jsRound (N * f / 44100) : ℝ) / N : ℝ) : ℂ)
                      * (n : ℂ)))) / ((N : ℝ) ^ 2)
          ∧ 0 ≤ goertzelPower ⟨Real.pi, Real.sin, Real.cos, Real.sqrt⟩ signal start N f)
      ∧ ((start < 0 ∨ start + N > signal.length) →
          goertzelPower ⟨Real.pi, Real.sin, Real.cos, Real.sqrt⟩ signal start N f = 0) := by
  constructor
  · intro h0 hN hfit
    set om : ℝ := 2 * Real.pi * (jsRound (N * f / 44100) : ℝ) / N with hom
    have key : goertzelPower ⟨Real.pi, Real.sin, Real.cos, Real.sqrt⟩ signal start N f
        = Complex.normSq (∑ n in Finset.range N,
                (signal.getD (start + (n : Int)).toNat 0 : ℂ)
                  * Complex.exp (-(Complex.I * (om : ℂ) * (n : ℂ)))) / ((N : ℝ) ^ 2) := by
      have hg : ¬ (start < 0 ∨ start + N > signal.length) := by omega
      unfold goertzelPower
      rw [if_neg hg]
      simp only []
      rw [← hom]
      set w : ℂ := Complex.exp ((om : ℂ) * Complex.I) with hw
      set z : ℂ := Complex.exp (-((om : ℂ) * Complex.I)) with hz
      have hwz : w * z = 1 := by
        rw [hw, hz, ← Complex.exp_add, add_neg_cancel, Complex.exp_zero]
      have hc : ((2 * Real.cos om : ℝ) : ℂ) = w + z := by
        rw [hw, hz]
        push_cast
        rw [Complex.two_cos, neg_mul]
      have hzform : z = (Real.cos om : ℂ) - (Real.sin om : ℂ) * Complex.I := by
        rw [hz, ← neg_mul, Complex.exp_mul_I, Complex.cos_neg, Complex.sin_neg]
        push_cast
        ring
      have hnz : Complex.normSq z = 1 := by
        rw [hzform]
        have : (Real.cos om : ℂ) - (Real.sin om : ℂ) * Complex.I
            = ((Real.cos om : ℝ) : ℂ) + ((-Real.sin om : ℝ) : ℂ) * Complex.I := by
          push_cast; ring
        rw [this, Complex.normSq_add_mul_I]
        have := Real.cos_sq_add_sin_sq om
        nlinarith
      have hinv := goertzelLoop_complex signal start (Real.cos om) w z hwz hc N 0 (0, 0)
        (by simp)
      rw [Nat.zero_add] at hinv
      set q := goertzelLoop signal start (2 * Real.cos om) N 0 (0, 0) with hq
      have hY : (q.1 : ℂ) - (q.2 : ℂ) * z
          = ((q.1 - q.2 * Real.cos om : ℝ) : ℂ) + ((q.2 * Real.sin om : ℝ) : ℂ) * Complex.I := by
        rw [hzform]; push_cast; ring
      have hns := congrArg Complex.normSq hinv
      rw [Complex.normSq_mul, Complex.normSq_mul, map_pow, hnz, one_pow, one_mul,
        one_mul, hY, Complex.normSq_add_mul_I] at hns
      have hsum : ∑ j in Finset.range N, (signal.getD (start + (j : Int)).toNat 0 : ℂ) * z ^ j
          = ∑ n in Finset.range N, (signal.getD (start + (n : Int)).toNat 0 : ℂ)
              * Complex.exp (-(Complex.I * (om : ℂ) * (n : ℂ))) := by
        apply Finset.sum_congr rfl
        intro j _
        rw [hz, ← Complex.exp_nat_mul]
        congr 2
        ring
      rw [← hsum, ← hns]
      ring
    refine ⟨key, ?_⟩
    rw [key]
    apply div_nonneg (Complex.normSq_nonneg _)
    positivity
  · intro hout
    unfold goertzelPower
    rw [if_pos hout]

theorem goertzelPower_spectral_witness :
    goertzelPower ⟨Real.pi, Real.sin, Real.cos, Real.sqrt⟩ [1, 0, 0, 0] 0 4 11025
        = Complex.normSq (∑ n in Finset.range 4,
            (([1, 0, 0, 0] : List ℝ).getD ((0 : Int) + (n : Int)).toNat 0 : ℂ)
              * Complex.exp (-(Complex.I
                  * ((2 * Real.pi * (jsRound (((4 : Nat) : ℝ) * 11025 / 44100) : ℝ) / ((4 : Nat) : ℝ) : ℝ) : ℂ)
                  * (n : ℂ)))) / ((((4 : Nat) : ℝ)) ^ 2)
      ∧ 0 ≤ goertzelPower ⟨Real.pi, Real.sin, Real.cos, Real.sqrt⟩ [1, 0, 0, 0] 0 4 11025 :=
  (goertzelPower_spectral [1, 0, 0, 0] 0 4 11025).1 (by norm_num) (by norm_num) (by norm_num)
/-- C20 fails on the code: one pass of the encoder's image loop pushes
396 + 132 + 3883 + 198 + 66 + 1941 = 6616 samples, so the sync tone of line L starts
6616 * L samples after that of line 0, while the decoder's LINE_SAMPLES is
round(44100 * 150.096 / 1000) = 6619. -/
theorem line_period_mismatch (m : MathOps ℚ) (p : YuvPlanes) (s : Synth) (L : Nat) :
    (encodeLine m p s L).samples.length = s.samples.length + 6616
      ∧ (jsFloor (HSYNC_MS / 1000 * SAMPLE_RATE)).toNat + (jsFloor (PORCH_MS / 1000 * SAMPLE_RATE)).toNat
          + (jsFloor (Y_MS / 1000 * SAMPLE_RATE)).toNat + (jsFloor (4.5 / 1000 * SAMPLE_RATE)).toNat
          + (jsFloor (1.5 / 1000 * SAMPLE_RATE)).toNat + (jsFloor (UV_MS / 1000 * SAMPLE_RATE)).toNat
          = 6616
      ∧ ((List.range L).foldl (encodeLine m p) s).samples.length = s.samples.length + L * 6616
      ∧ LINE_SAMPLES = 6619
      ∧ LINE_SAMPLES ≠ 6616 := by
  refine ⟨encodeLine_length m p s L, ?_, ?_, LINE_SAMPLES_eq, ?_⟩
  · rw [count_hsync, count_porch, count_y, count_sep_low, count_sep_high, count_uv]
  · rw [foldl_encodeLine_length, List.length_range]
  · rw [LINE_SAMPLES_eq]; decide
theorem toneLoop_eq_foldl (m : MathOps ℚ) (freq : ℚ) :
    ∀ (count : Nat) (s : Synth),
      toneLoop m freq count s = (List.replicate count freq).foldl (pushSample m) s := by
  intro count
  induction count with
  | zero => intro s; rfl
  | succ n ih => intro s; rw [toneLoop, ih, List.replicate_succ, List.foldl_cons]

theorem phaseAt_cons (m : MathOps ℚ) (phase f : ℚ) (fs : List ℚ) (i : Nat) :
    phaseAt m phase (f :: fs) (i + 1) = phaseAt m (phase + 2 * m.pi * f / 44100) fs i := by
  unfold phaseAt
  rw [List.take_succ_cons, List.map_cons, List.sum_cons]
  ring

theorem segmentSamples_cons (m : MathOps ℚ) (phase f : ℚ) (fs : List ℚ) :
    segmentSamples m phase (f :: fs)
      = m.sin phase * 32767 :: segmentSamples m (phase + 2 * m.pi * f / 44100) fs := by
  unfold segmentSamples
  rw [List.length_cons, List.range_succ_eq_map, List.map_cons, List.map_map]
  congr 1
  · simp [phaseAt]
  · apply List.map_congr_left
    intro i _
    simp only [Function.comp, phaseAt_cons]

/-- The sample loops of the encoder in closed form: pushing one sample per frequency
appends `sin(phase) * 32767` at the phases accumulated along the segment. -/
theorem foldl_pushSample (m : MathOps ℚ) : ∀ (freqs : List ℚ) (s : Synth),
    freqs.foldl (pushSample m) s
      = { samples := s.samples ++ segmentSamples m s.phase freqs
          phase := phaseAt m s.phase freqs freqs.length } := by
  intro freqs
  induction freqs with
  | nil => intro s; simp [segmentSamples, phaseAt]
  | cons f fs ih =>
    intro s
    rw [List.foldl_cons, ih, segmentSamples_cons, List.length_cons, phaseAt_cons]
    simp [pushSample, SAMPLE_RATE]

theorem wrapPhase_eq (m : MathOps ℚ) (phase : ℚ) :
    wrapPhase m phase = phase - 2 * m.pi * ⌊phase / (2 * m.pi)⌋ := by
  unfold wrapPhase
  split_ifs with h
  · rw [h]; simp
  · rfl

theorem appendTone_eq_playSegment (m : MathOps ℚ) (s : Synth) (freq ms : ℚ) :
    appendTone m s freq ms = playSegment m s (toneFreqs freq ms) := by
  unfold appendTone playSegment toneFreqs
  simp only [toneLoop_eq_foldl, foldl_pushSample, wrapPhase_eq]

theorem scanlineLoop_eq_foldl (m : MathOps ℚ) (line : List ℚ) (count : Nat) :
    ∀ (todo i : Nat) (s : Synth),
      scanlineLoop m line count todo i s
        = ((List.range' i todo).map fun (i : Nat) =>
            1500 + line.getD
              (min (jsFloor ((i : ℚ) / (count : ℚ) * (line.length : ℚ)))
                ((line.length : Int) - 1)).toNat 0 / 255 * 800).foldl (pushSample m) s := by
  intro todo
  induction todo with
  | zero => intro i s; rfl
  | succ n ih =>
    intro i s
    rw [scanlineLoop, ih, List.range'_succ, List.map_cons, List.foldl_cons]
    have : BLACK_FREQUENCY + line.getD
          (min (jsFloor ((i : ℚ) / (count : ℚ) * (line.length : ℚ)))
            ((line.length : Int) - 1)).toNat 0 / 255 * (WHITE_FREQUENCY - BLACK_FREQUENCY)
        = 1500 + line.getD
          (min (jsFloor ((i : ℚ) / (count : ℚ) * (line.length : ℚ)))
            ((line.length : Int) - 1)).toNat 0 / 255 * 800 := by
      unfold BLACK_FREQUENCY WHITE_FREQUENCY
      norm_num
    simp only [this]

theorem appendScanline_eq_playSegment (m : MathOps ℚ) (s : Synth) (line : List ℚ) (ms : ℚ) :
    appendScanline m s line ms = playSegment m s (scanFreqs line ms) := by
  unfold appendScanline playSegment scanFreqs
  simp only [scanlineLoop_eq_foldl, ← List.range_eq_range', foldl_pushSample, wrapPhase_eq]

theorem subarray_row (plane : List ℚ) (L : Nat) (hl : (L + 1) * 320 ≤ plane.length) :
    subarray plane (L * 320) ((L + 1) * 320)
      = List.map (fun (x : Nat) => plane.getD (L * 320 + x) 0) (List.range 320) := by
  unfold subarray
  have e : (L + 1) * 320 - L * 320 = 320 := by omega
  rw [e]
  apply List.ext_getElem?
  intro i
  by_cases hi : i < 320
  · rw [List.getElem?_take_of_lt hi, List.getElem?_drop, List.getElem?_map,
      List.getElem?_range hi, Option.map_some', List.getD_eq_getElem?_getD,
      List.getElem?_eq_getElem (by omega : L * 320 + i < plane.length), Option.getD_some]
  · rw [List.getElem?_eq_none (by simp; omega), List.getElem?_eq_none (by simp; omega)]

theorem downsample_row (plane : List ℚ) (L : Nat) (hl : (L + 1) * 320 ≤ plane.length) :
    downsample 320 (subarray plane (L * 320) ((L + 1) * 320))
      = List.map (fun (x : Nat) => plane.getD (L * 320 + 2 * x) 0) (List.range 160) := by
  rw [subarray_row plane L hl]
  unfold downsample
  apply List.map_congr_left
  intro i hi
  have hi' : i < 160 := List.mem_range.mp hi
  have h2 : i * 2 < 320 := by omega
  rw [List.getD_eq_getElem?_getD, List.getElem?_map, List.getElem?_range h2, Option.map_some',
    Option.getD_some]
  congr 2
  omega

/-- C18: for every line index L in 0..239 of a 320x240 image, one pass of the
encoder's image loop plays, in this order, 1200 Hz for 9 ms, 1500 Hz for 3 ms, row L
of the luma plane tone-encoded over 88.064 ms, 1500 Hz for 4.5 ms, 1900 Hz for
1.5 ms, and the 160-value decimated chroma row of line L (V plane for even L, U plane
for odd L) tone-encoded over 44.032 ms; in a tone-encoded segment of `count` samples,
sample i uses source index min(floor(i/count * len), len - 1) and frequency
1500 + (value/255) * 800. Playing a segment appends one sample sin(phase) * 32767
per frequency, the phase advancing by 2π * frequency / 44100 from sample to sample
and being reduced modulo 2π at the end of the segment. -/
theorem encodeLine_segments (m : MathOps ℚ) (p : YuvPlanes) (s : Synth) (L : Nat)
    (hw : p.width = 320) (hL : L < 240) (hY : p.Y.length = 76800) (hU : p.U.length = 76800)
    (hV : p.V.length = 76800) :
    encodeLine m p s L = (lineSegments p L).foldl (playSegment m) s := by
  have hl : ∀ n, n = 76800 → (L + 1) * 320 ≤ n := by intro n hn; omega
  unfold encodeLine lineSegments lumaRow chromaRow
  simp only [hw, appendTone_eq_playSegment, appendScanline_eq_playSegment,
    subarray_row p.Y L (hl _ hY), downsample_row p.V L (hl _ hV), downsample_row p.U L (hl _ hU),
    List.foldl_cons, List.foldl_nil]
  split_ifs <;> rfl

theorem rgbBufferToYuvPlanes_lengths (rgb : List Nat) (w h : Nat) :
    (rgbBufferToYuvPlanes rgb w h).Y.length = w * h
      ∧ (rgbBufferToYuvPlanes rgb w h).U.length = w * h
      ∧ (rgbBufferToYuvPlanes rgb w h).V.length = w * h := by
  unfold rgbBufferToYuvPlanes
  simp only [List.length_map, List.length_range, and_self]

theorem getD_map_range {α : Type} (f : Nat → α) (n k : Nat) (d : α) (h : k < n) :
    ((List.range n).map f).getD k d = f k := by
  rw [List.getD_eq_getElem?_getD, List.getElem?_map, List.getElem?_range h, Option.map_some',
    Option.getD_some]

/-- In row 1 of the gradient raster the chroma planes differ: the first pixel is
(0, 1, 255), whose V value lies below 128 and whose U value above. -/
theorem gradientRaster_chroma :
    (rgbBufferToYuvPlanes gradientRaster 320 240).V.getD 320 0 < 128
      ∧ 128 < (rgbBufferToYuvPlanes gradientRaster 320 240).U.getD 320 0 := by
  have h0 : gradientRaster.getD (3 * 320) 0 = 0 := by
    rw [gradientRaster, getD_map_range _ _ _ _ (by norm_num)]; rfl
  have h1 : gradientRaster.getD (3 * 320 + 1) 0 = 1 := by
    rw [gradientRaster, getD_map_range _ _ _ _ (by norm_num)]; rfl
  have h2 : gradientRaster.getD (3 * 320 + 2) 0 = 255 := by
    rw [gradientRaster, getD_map_range _ _ _ _ (by norm_num)]; rfl
  unfold rgbBufferToYuvPlanes
  simp only []
  rw [getD_map_range _ _ _ _ (by norm_num), getD_map_range _ _ _ _ (by norm_num), h0, h1, h2]
  unfold clamp
  norm_num

theorem encodeLine_segments_witness :
    encodeLine taylorOps (rgbBufferToYuvPlanes gradientRaster 320 240) {} 1
        = (lineSegments (rgbBufferToYuvPlanes gradientRaster 320 240) 1).foldl
            (playSegment taylorOps) {}
      ∧ encodeLine taylorOps (rgbBufferToYuvPlanes gradientRaster 320 240) {} 2
        = (lineSegments (rgbBufferToYuvPlanes gradientRaster 320 240) 2).foldl
            (playSegment taylorOps) {}
      ∧ (rgbBufferToYuvPlanes gradientRaster 320 240).V.getD 320 0 < 128
      ∧ 128 < (rgbBufferToYuvPlanes gradientRaster 320 240).U.getD 320 0 :=
  ⟨encodeLine_segments taylorOps (rgbBufferToYuvPlanes gradientRaster 320 240) {} 1 rfl
      (by decide) (rgbBufferToYuvPlanes_lengths _ 320 240).1
      (rgbBufferToYuvPlanes_lengths _ 320 240).2.1 (rgbBufferToYuvPlanes_lengths _ 320 240).2.2,
    encodeLine_segments taylorOps (rgbBufferToYuvPlanes gradientRaster 320 240) {} 2 rfl
      (by decide) (rgbBufferToYuvPlanes_lengths _ 320 240).1
      (rgbBufferToYuvPlanes_lengths _ 320 240).2.1 (rgbBufferToYuvPlanes_lengths _ 320 240).2.2,
    gradientRaster_chroma.1, gradientRaster_chroma.2⟩

end PixelTone
